import Mathlib

/-!
# A verification development for `queue.c`

The queue of `queue.c` is a handle (`queue_t`) on a singly linked chain of
heap-allocated elements (`list_ele_t`).  The embedding keeps the pointers:
a heap maps addresses to elements, `NULL` is `none`, and every function of
`queue.c` is a function on the heap and the queue record that follows the C
text statement by statement.

* A dereference of `NULL` or of a freed address is `Err.badptr`.
* A write past the end of a caller buffer is `Err.overrun`.
* Loops and the recursion of `merge_sort` take a fuel argument and answer
  `Err.timeout` when it runs out; the theorems show how much fuel suffices.
* `malloc` is an oracle: the insertion functions receive the address it
  returns for the element (`none` when it fails) and whether the allocation
  of the value succeeds.
* A string is the list of its bytes; a list that stops without a `0` byte is
  read as if the terminator followed.  The value of an element is kept in the
  element (it is owned by it and never shared).
* `queue_t` is declared in `queue.h`; its `size` field is a C `int` (`q_size`
  returns it as an `int`): an integer of 32 bits, `q->size++` and `q->size--`
  wrapping around at the ends of the range (`int32`).
-/

namespace Lab0

/-! ## Memory -/

/-- Ways in which the C program can go wrong, or the model can stop. -/
inductive Err where
  | badptr
  | overrun
  | timeout
  deriving DecidableEq, Repr

/-- Linked list element: the bytes of `value` and the pointer `next`. -/
structure list_ele_t where
  value : List Nat
  next : Option Nat
  deriving DecidableEq, Repr

/-- Queue structure: `head`, `tail` and the `int` field `size`; the functions
that write `size` store the value that an `int` holds (`int32`). -/
structure queue_t where
  head : Option Nat
  tail : Option Nat
  size : Int
  deriving DecidableEq, Repr

/-- The heap: the element stored at each live address. -/
abbrev Heap := Nat → Option list_ele_t

/-- The heap with no live element. -/
def emptyHeap : Heap := fun _ => none

/-- Write an element at an address. -/
def store (m : Heap) (a : Nat) (e : list_ele_t) : Heap :=
  fun b => if b = a then some e else m b

/-- Release an address (`free`). -/
def free (m : Heap) (a : Nat) : Heap :=
  fun b => if b = a then none else m b

/-- Read through a pointer: `*p`. -/
def load (m : Heap) (p : Option Nat) : Except Err list_ele_t :=
  match p with
  | none => .error .badptr
  | some a =>
    match m a with
    | none => .error .badptr
    | some e => .ok e

/-- Read `p->next`. -/
def get_next (m : Heap) (p : Option Nat) : Except Err (Option Nat) :=
  match load m p with
  | .error e => .error e
  | .ok e => .ok e.next

/-- Assign `p->next = nx`. -/
def set_next (m : Heap) (p : Option Nat) (nx : Option Nat) : Except Err Heap :=
  match p with
  | none => .error .badptr
  | some a =>
    match m a with
    | none => .error .badptr
    | some e => .ok (store m a { e with next := nx })

/-! ## Strings -/

/-- Length of a string: the number of bytes in front of the terminator. -/
def strlen : List Nat → Nat
  | [] => 0
  | c :: s => if c = 0 then 0 else strlen s + 1

/-- Comparison of two strings byte by byte; the sign of the result is the
order of the first bytes that differ, the end of a string counting as `0`. -/
def strcmp : List Nat → List Nat → Int
  | [], [] => 0
  | [], b :: _ => - (b : Int)
  | a :: _, [] => (a : Int)
  | a :: s, b :: t =>
    if a = b then (if a = 0 then 0 else strcmp s t) else (a : Int) - (b : Int)

/-- The `n` bytes that `strncpy(dst, src, n)` writes: the bytes of `src` up to
its terminator, then `0` bytes. -/
def strncpy_bytes : List Nat → Nat → List Nat
  | _, 0 => []
  | [], n + 1 => 0 :: strncpy_bytes [] n
  | c :: s, n + 1 =>
    if c = 0 then 0 :: strncpy_bytes [] n else c :: strncpy_bytes s n

/-- Call `strncpy(dst, src, n)` on a buffer `dst`: the first `n` bytes of the
buffer are overwritten. -/
def strncpy (dst src : List Nat) (n : Nat) : Except Err (List Nat) :=
  if n ≤ dst.length then .ok (strncpy_bytes src n ++ dst.drop n) else .error .overrun

/-- Assign `dst[i] = c`. -/
def set_byte (dst : List Nat) (i : Nat) (c : Nat) : Except Err (List Nat) :=
  if i < dst.length then .ok (dst.set i c) else .error .overrun

/-- The `size_t` value of `n - 1`. -/
def size_pred (n : Nat) : Nat := (n + 2 ^ 64 - 1) % 2 ^ 64

/-- The `int` that holds an integer value: the value itself from `-2 ^ 31` to
`2 ^ 31 - 1`, wrapped around into this range otherwise. -/
def int32 (x : Int) : Int := (x + 2 ^ 31) % 2 ^ 32 - 2 ^ 31

/-! ## The functions of `queue.c` -/

/-- Create empty queue; `NULL` when the allocation fails. -/
def q_new (alloc : Bool) : Option queue_t :=
  if alloc then some { head := none, tail := none, size := 0 } else none

/-- Insert an element at the head of the queue.  `newh` is the result of the
first `malloc`, `val` tells whether the second one succeeds. -/
def q_insert_head (m : Heap) (q : Option queue_t) (s : List Nat)
    (newh : Option Nat) (val : Bool) : Except Err (Bool × Heap × Option queue_t) :=
  match q with
  | none => .ok (false, m, none)
  | some q =>
    match newh with
    | none => .ok (false, m, some q)
    | some a =>
      if val = false then .ok (false, m, some q)
      else
        match strncpy (List.replicate (strlen s + 1) 0) s (strlen s + 1) with
        | .error e => .error e
        | .ok v =>
          let m1 := store m a { value := v, next := q.head }
          let q1 := { q with head := some a }
          let q2 := if q1.tail = none then { q1 with tail := some a } else q1
          .ok (true, m1, some { q2 with size := int32 (q2.size + 1) })

/-- Insert an element at the tail of the queue.  `newt` is the result of the
first `malloc`, `val` tells whether the second one succeeds. -/
def q_insert_tail (m : Heap) (q : Option queue_t) (s : List Nat)
    (newt : Option Nat) (val : Bool) : Except Err (Bool × Heap × Option queue_t) :=
  match q with
  | none => .ok (false, m, none)
  | some q =>
    match newt with
    | none => .ok (false, m, some q)
    | some a =>
      if val = false then .ok (false, m, some q)
      else
        match strncpy (List.replicate (strlen s + 1) 0) s (strlen s + 1) with
        | .error e => .error e
        | .ok v =>
          let m1 := store m a { value := v, next := none }
          match (if q.tail = none then .ok m1 else set_next m1 q.tail (some a)) with
          | .error e => .error e
          | .ok m2 =>
            let q1 := { q with tail := some a }
            let q2 := if q1.head = none then { q1 with head := some a } else q1
            .ok (true, m2, some { q2 with size := int32 (q2.size + 1) })

/-- The copy of the removed string into the buffer `sp` of `q_remove_head`. -/
def copy_out (sp : List Nat) (val : List Nat) (bufsize : Nat) : Except Err (List Nat) :=
  if strlen val > size_pred bufsize then
    match strncpy sp val (size_pred bufsize) with
    | .error e => .error e
    | .ok b => set_byte b (size_pred bufsize) 0
  else
    strncpy sp val (strlen val + 1)

/-- Remove the element at the head of the queue.  `sp` is the caller buffer
(`none` for `NULL`), `bufsize` the size the caller announces. -/
def q_remove_head (m : Heap) (q : Option queue_t) (sp : Option (List Nat)) (bufsize : Nat) :
    Except Err (Bool × Heap × Option queue_t × Option (List Nat)) :=
  match q with
  | none => .ok (false, m, none, sp)
  | some q =>
    match q.head with
    | none => .ok (false, m, some q, sp)
    | some h =>
      match load m (some h) with
      | .error e => .error e
      | .ok ele =>
        let q1 := { q with head := ele.next }
        match sp with
        | none => .ok (true, free m h, some { q1 with size := int32 (q1.size - 1) }, none)
        | some buf =>
          match copy_out buf ele.value bufsize with
          | .error e => .error e
          | .ok b => .ok (true, free m h, some { q1 with size := int32 (q1.size - 1) }, some b)

/-- Number of elements in the queue; `0` for `NULL`. -/
def q_size (q : Option queue_t) : Int :=
  match q with
  | some q => q.size
  | none => 0

/-- The `while (curr)` loop of `q_reverse`. -/
def q_reverse_loop (m : Heap) (pre curr : Option Nat) : Nat → Except Err (Heap × Option Nat)
  | 0 => .error .timeout
  | fuel + 1 =>
    match curr with
    | none => .ok (m, pre)
    | some _ =>
      match get_next m curr with
      | .error e => .error e
      | .ok n =>
        match set_next m curr pre with
        | .error e => .error e
        | .ok m1 => q_reverse_loop m1 curr n fuel

/-- Reverse the elements of the queue. -/
def q_reverse (m : Heap) (q : Option queue_t) (fuel : Nat) : Except Err (Heap × Option queue_t) :=
  match q with
  | none => .ok (m, none)
  | some q =>
    match q.head with
    | none => .ok (m, some q)
    | some _ =>
      let pre := q.head
      match get_next m pre with
      | .error e => .error e
      | .ok curr =>
        match set_next m pre none with
        | .error e => .error e
        | .ok m1 =>
          match q_reverse_loop m1 pre curr fuel with
          | .error e => .error e
          | .ok (m2, pre2) => .ok (m2, some { q with tail := q.head, head := pre2 })

/-- The `while (l1 && l2)` loop of `merge` and the two assignments after it. -/
def merge_loop (m : Heap) (result l1 l2 : Option Nat) : Nat → Except Err Heap
  | 0 => .error .timeout
  | fuel + 1 =>
    match l1, l2 with
    | some _, some _ =>
      match load m l1, load m l2 with
      | .error e, _ => .error e
      | .ok _, .error e => .error e
      | .ok e1, .ok e2 =>
        if strcmp e1.value e2.value < 0 then
          match set_next m result l1 with
          | .error e => .error e
          | .ok m1 =>
            match get_next m1 result, get_next m1 l1 with
            | .error e, _ => .error e
            | .ok _, .error e => .error e
            | .ok r, .ok n => merge_loop m1 r n l2 fuel
        else
          match set_next m result l2 with
          | .error e => .error e
          | .ok m1 =>
            match get_next m1 result, get_next m1 l2 with
            | .error e, _ => .error e
            | .ok _, .error e => .error e
            | .ok r, .ok n => merge_loop m1 r l1 n fuel
    | _, _ =>
      match (if l1 = none then .ok m else set_next m result l1) with
      | .error e => .error e
      | .ok m1 => if l2 = none then .ok m1 else set_next m1 result l2

/-- The test `!l2 || (l1 && strcmp(l1->value, l2->value) < 0)` of `merge`. -/
def merge_first (m : Heap) (l1 l2 : Option Nat) : Except Err Bool :=
  match l2 with
  | none => .ok true
  | some _ =>
    match l1 with
    | none => .ok false
    | some _ =>
      match load m l1, load m l2 with
      | .error e, _ => .error e
      | .ok _, .error e => .error e
      | .ok e1, .ok e2 => .ok (decide (strcmp e1.value e2.value < 0))

/-- Merge two chains; the result is the new heap and `result_h`. -/
def merge (m : Heap) (l1 l2 : Option Nat) (fuel : Nat) : Except Err (Heap × Option Nat) :=
  match merge_first m l1 l2 with
  | .error e => .error e
  | .ok true =>
    match get_next m l1 with
    | .error e => .error e
    | .ok n =>
      match merge_loop m l1 n l2 fuel with
      | .error e => .error e
      | .ok m1 => .ok (m1, l1)
  | .ok false =>
    match get_next m l2 with
    | .error e => .error e
    | .ok n =>
      match merge_loop m l2 l1 n fuel with
      | .error e => .error e
      | .ok m1 => .ok (m1, l2)

/-- The `while (fast && fast->next)` loop of `merge_sort`; the result is the
final `slow`. -/
def middle_loop (m : Heap) (slow fast : Option Nat) : Nat → Except Err (Option Nat)
  | 0 => .error .timeout
  | fuel + 1 =>
    match fast with
    | none => .ok slow
    | some _ =>
      match get_next m fast with
      | .error e => .error e
      | .ok none => .ok slow
      | .ok (some f1) =>
        match get_next m slow, get_next m (some f1) with
        | .error e, _ => .error e
        | .ok _, .error e => .error e
        | .ok s, .ok f => middle_loop m s f fuel

/-- Merge sort of the chain that starts at `head`. -/
def merge_sort (m : Heap) (head : Option Nat) : Nat → Except Err (Heap × Option Nat)
  | 0 => .error .timeout
  | fuel + 1 =>
    match head with
    | none => .ok (m, head)
    | some _ =>
      match get_next m head with
      | .error e => .error e
      | .ok none => .ok (m, head)
      | .ok (some f0) =>
        match middle_loop m head (some f0) fuel with
        | .error e => .error e
        | .ok slow =>
          match get_next m slow with
          | .error e => .error e
          | .ok fast =>
            match set_next m slow none with
            | .error e => .error e
            | .ok m1 =>
              match merge_sort m1 head fuel with
              | .error e => .error e
              | .ok (m2, l1) =>
                match merge_sort m2 fast fuel with
                | .error e => .error e
                | .ok (m3, l2) => merge m3 l1 l2 fuel

/-- The `while (temp->next)` loop of `q_sort`; the result is the final `temp`. -/
def last_loop (m : Heap) (temp : Option Nat) : Nat → Except Err (Option Nat)
  | 0 => .error .timeout
  | fuel + 1 =>
    match get_next m temp with
    | .error e => .error e
    | .ok none => .ok temp
    | .ok (some n) => last_loop m (some n) fuel

/-- Sort the elements of the queue in ascending order. -/
def q_sort (m : Heap) (q : Option queue_t) (fuel : Nat) : Except Err (Heap × Option queue_t) :=
  match q with
  | none => .ok (m, none)
  | some q =>
    match q.head with
    | none => .ok (m, some q)
    | some _ =>
      match get_next m q.head with
      | .error e => .error e
      | .ok none => .ok (m, some q)
      | .ok (some _) =>
        match merge_sort m q.head fuel with
        | .error e => .error e
        | .ok (m1, h1) =>
          match last_loop m1 h1 fuel with
          | .error e => .error e
          | .ok t => .ok (m1, some { q with head := h1, tail := t })

/-! ## Observations of a state -/

/-- The addresses met when following `next` from `p` down to `NULL`; `none`
when the walk meets a dead address or is longer than `fuel`. -/
def chain_of (m : Heap) (p : Option Nat) : Nat → Option (List Nat)
  | 0 => if p = none then some [] else none
  | fuel + 1 =>
    match p with
    | none => some []
    | some a =>
      match m a with
      | none => none
      | some e =>
        match chain_of m e.next fuel with
        | none => none
        | some l => some (a :: l)

/-- The value stored at an address (empty when the address is dead). -/
def val (m : Heap) (a : Nat) : List Nat :=
  match m a with
  | some e => e.value
  | none => []

/-- The bytes of a string in front of its terminator. -/
def cstr : List Nat → List Nat
  | [] => []
  | c :: s => if c = 0 then [] else c :: cstr s

/-- Predicate `isChain m p l`: following `next` from `p` visits exactly the live
addresses `l`, in this order, and then reaches `NULL`. -/
def isChain (m : Heap) : Option Nat → List Nat → Prop
  | p, [] => p = none
  | p, a :: l => p = some a ∧ ∃ e, m a = some e ∧ isChain m e.next l

/-- Pointer reached from `p` after `k` steps along `next`; `none` when a step
leaves the live elements. -/
def walk (m : Heap) (p : Option Nat) : Nat → Option (Option Nat)
  | 0 => some p
  | k + 1 =>
    match p with
    | none => none
    | some a =>
      match m a with
      | none => none
      | some e => walk m e.next k

/-- The structural invariant of the queue: `size` counts elements (it is not
negative) and is `0` iff `head` is `NULL` iff `tail` is `NULL`; when `size` is
at least one, `size - 1` steps along `next` from `head` reach `tail`, and
`tail->next` is `NULL`. -/
def Inv (m : Heap) (q : queue_t) : Prop :=
  0 ≤ q.size ∧ (q.size = 0 ↔ q.head = none) ∧ (q.head = none ↔ q.tail = none) ∧
  (1 ≤ q.size → ∃ t e, q.tail = some t ∧ walk m q.head (q.size - 1).toNat = some (some t) ∧
      m t = some e ∧ e.next = none)

/-- The bytes of an ASCII string literal. -/
def bytes (s : String) : List Nat := s.toList.map Char.toNat

/-! ## Sequences of calls -/

/-- A state between two calls: the heap and the queue pointer of the caller. -/
structure State where
  mem : Heap
  q : Option queue_t

/-- One call of a function of `queue.c`, with the arguments of the caller and
the answers of the allocator. -/
inductive Call where
  | insert_head (s : List Nat) (newh : Option Nat) (val : Bool)
  | insert_tail (s : List Nat) (newt : Option Nat) (val : Bool)
  | remove_head (sp : Option (List Nat)) (bufsize : Nat)
  | reverse
  | sort

/-- Perform one call; the result is the value returned (`true` for the `void`
functions) and the next state. -/
def call (fuel : Nat) (st : State) : Call → Except Err (Bool × State)
  | .insert_head s newh val =>
    match q_insert_head st.mem st.q s newh val with
    | .error e => .error e
    | .ok (r, m, q) => .ok (r, { mem := m, q := q })
  | .insert_tail s newt val =>
    match q_insert_tail st.mem st.q s newt val with
    | .error e => .error e
    | .ok (r, m, q) => .ok (r, { mem := m, q := q })
  | .remove_head sp bufsize =>
    match q_remove_head st.mem st.q sp bufsize with
    | .error e => .error e
    | .ok (r, m, q, _) => .ok (r, { mem := m, q := q })
  | .reverse =>
    match q_reverse st.mem st.q fuel with
    | .error e => .error e
    | .ok (m, q) => .ok (true, { mem := m, q := q })
  | .sort =>
    match q_sort st.mem st.q fuel with
    | .error e => .error e
    | .ok (m, q) => .ok (true, { mem := m, q := q })

/-- Perform a sequence of calls; the result is the list of the values returned
and the last state. -/
def run (fuel : Nat) (st : State) : List Call → Except Err (List Bool × State)
  | [] => .ok ([], st)
  | c :: cs =>
    match call fuel st c with
    | .error e => .error e
    | .ok (r, st1) =>
      match run fuel st1 cs with
      | .error e => .error e
      | .ok (rs, st2) => .ok (r :: rs, st2)

/-- The allocator contract along a sequence of calls: every address it hands
out is dead at that moment. -/
def fresh_allocs (fuel : Nat) (st : State) : List Call → Bool
  | [] => true
  | c :: cs =>
    (match c with
      | .insert_head _ (some a) _ => decide (st.mem a = none)
      | .insert_tail _ (some a) _ => decide (st.mem a = none)
      | _ => true) &&
    (match call fuel st c with
      | .error _ => true
      | .ok (_, st1) => fresh_allocs fuel st1 cs)

/-- The state after `q_new()` on an empty heap. -/
def init : State := { mem := emptyHeap, q := q_new true }

/-- The addresses reachable from `head`, when the walk ends within `fuel` steps. -/
def State.chain (st : State) (fuel : Nat) : Option (List Nat) :=
  match st.q with
  | none => none
  | some q => chain_of st.mem q.head fuel

/-- The strings held along the chain from `head`, when the walk ends within
`fuel` steps. -/
def State.values (st : State) (fuel : Nat) : Option (List (List Nat)) :=
  match st.chain fuel with
  | none => none
  | some l => some (l.map (fun a => cstr (val st.mem a)))

/-- The sequence of `n` calls `q_insert_head("a")` whose allocations succeed, the
elements at the addresses `k`, `k + 1`, ... -/
def many_inserts (k n : Nat) : List Call :=
  (List.range' k n).map (fun a => Call.insert_head [97] (some a) true)

/-! ## Example states -/

/-- Example heap: the value `"a"` at address `1`. -/
def mem1 : Heap := store emptyHeap 1 { value := [97, 0], next := none }

/-- Example queue on `mem1`: the chain is `[1]`. -/
def queue1 : queue_t := { head := some 1, tail := some 1, size := 1 }

/-- Example heap: `"b"` at address `2`, linked to `"a"` at address `1`. -/
def mem2 : Heap := store mem1 2 { value := [98, 0], next := some 1 }

/-- Example queue on `mem2`: the chain is `[2, 1]`. -/
def queue2 : queue_t := { head := some 2, tail := some 1, size := 2 }

/-- Example heap: `"abcdefgh"` at address `1`. -/
def mem8 : Heap := store emptyHeap 1 { value := bytes "abcdefgh" ++ [0], next := none }

/-- Example heap: the value `"a"` at address `1`, linked to the value `"a"` at
address `2`, and apart from them the value `"a"` at address `3`. -/
def memAA : Heap :=
  store (store (store emptyHeap 3 { value := [97, 0], next := none })
    2 { value := [97, 0], next := none }) 1 { value := [97, 0], next := some 2 }

/-- Example queue on `memAA`: the chain is `[1, 2]`. -/
def queueAA : queue_t := { head := some 1, tail := some 2, size := 2 }

/-- Example heap: two chains of one element each, both with the value `"a"`. -/
def memA_A : Heap :=
  store (store emptyHeap 2 { value := [97, 0], next := none }) 1 { value := [97, 0], next := none }

/-- Example heap: the chain `1`, `2`, `3` with the values `"c"`, `"b"`, `"a"`. -/
def mem3 : Heap :=
  store (store (store emptyHeap 3 { value := [97, 0], next := none })
    2 { value := [98, 0], next := some 3 }) 1 { value := [99, 0], next := some 2 }

/-- Example heap: the chain of the addresses `1`, ..., `n`, every element with
the empty string. -/
def longHeap (n : Nat) : Heap :=
  fun a => if 1 ≤ a ∧ a ≤ n then
    some { value := [0], next := if a = n then none else some (a + 1) } else none

/-- Example queue on `longHeap n`: the chain is `1`, ..., `n`. -/
def longQueue (n : Nat) : queue_t := { head := some 1, tail := some n, size := n }

/-! ## Specification of the sort -/

/-- Two heaps hold elements at the same addresses, with the same values. -/
def sameValues (m1 m2 : Heap) : Prop :=
  ∀ b, (m1 b).map (fun e => e.value) = (m2 b).map (fun e => e.value)

/-- The merge of two lists of addresses as `merge` performs it, the values being
given by `v`: the head of the first list is taken when its value compares
below the value of the head of the second list, the head of the second list
otherwise. -/
def mergeL (v : Nat → List Nat) : List Nat → List Nat → List Nat
  | [], l2 => l2
  | a :: l1, [] => a :: l1
  | a :: l1, b :: l2 =>
    if strcmp (v a) (v b) < 0 then a :: mergeL v l1 (b :: l2)
    else b :: mergeL v (a :: l1) l2
termination_by l1 l2 => l1.length + l2.length

/-- The order in which `merge_sort` leaves a list of addresses: the list is cut
behind its first `(n + 1) / 2` addresses, both parts are sorted and merged. -/
def msortL (v : Nat → List Nat) (l : List Nat) : List Nat :=
  if h : l.length < 2 then l
  else mergeL v (msortL v (l.take ((l.length + 1) / 2))) (msortL v (l.drop ((l.length + 1) / 2)))
termination_by l.length
decreasing_by
  · simp only [List.length_take]; omega
  · simp only [List.length_drop]; omega

/-! ## Counting the calls that succeed -/

/-- The number of insertions in a sequence of calls that returned `true`. -/
def inserted : List Call → List Bool → Nat
  | .insert_head _ _ _ :: cs, r :: rs => (if r then 1 else 0) + inserted cs rs
  | .insert_tail _ _ _ :: cs, r :: rs => (if r then 1 else 0) + inserted cs rs
  | _ :: cs, _ :: rs => inserted cs rs
  | _, _ => 0

/-- The number of calls of `q_remove_head` in a sequence that returned `true`. -/
def removed : List Call → List Bool → Nat
  | .remove_head _ _ :: cs, r :: rs => (if r then 1 else 0) + removed cs rs
  | _ :: cs, _ :: rs => removed cs rs
  | _, _ => 0

/-! ## The heap -/

theorem store_same (m : Heap) (a : Nat) (e : list_ele_t) : store m a e a = some e := by
  simp [store]

theorem store_other (m : Heap) {a b : Nat} (e : list_ele_t) (h : b ≠ a) :
    store m a e b = m b := by
  simp [store, h]

theorem free_same (m : Heap) (a : Nat) : free m a a = none := by
  simp [free]

theorem free_other (m : Heap) {a b : Nat} (h : b ≠ a) : free m a b = m b := by
  simp [free, h]

theorem load_some {m : Heap} {a : Nat} {e : list_ele_t} (h : m a = some e) :
    load m (some a) = .ok e := by
  simp [load, h]

theorem get_next_some {m : Heap} {a : Nat} {e : list_ele_t} (h : m a = some e) :
    get_next m (some a) = .ok e.next := by
  simp [get_next, load, h]

theorem set_next_some {m : Heap} {a : Nat} {e : list_ele_t} (h : m a = some e) (nx : Option Nat) :
    set_next m (some a) nx = .ok (store m a { e with next := nx }) := by
  simp [set_next, h]

theorem val_store_next (m : Heap) {a : Nat} {e : list_ele_t} (h : m a = some e) (nx : Option Nat) :
    val (store m a { e with next := nx }) = val m := by
  funext b
  by_cases hb : b = a
  · subst hb; simp [val, store, h]
  · simp [val, store, hb]

/-! ## Chains -/

theorem isChain_nil (m : Heap) (p : Option Nat) : isChain m p [] ↔ p = none := Iff.rfl

theorem isChain_cons (m : Heap) (p : Option Nat) (a : Nat) (l : List Nat) :
    isChain m p (a :: l) ↔ p = some a ∧ ∃ e, m a = some e ∧ isChain m e.next l := Iff.rfl

theorem isChain_none {m : Heap} {l : List Nat} (h : isChain m none l) : l = [] := by
  cases l with
  | nil => rfl
  | cons a l => exact absurd h.1 (by simp)

theorem isChain_head {m : Heap} {p : Option Nat} {l : List Nat} (h : isChain m p l) :
    p = l.head? := by
  cases l with
  | nil => exact h
  | cons a l => exact h.1

/-- A chain only depends on the elements stored at its own addresses. -/
theorem isChain_frame {m1 m2 : Heap} {l : List Nat} :
    ∀ {p : Option Nat}, (∀ a ∈ l, m2 a = m1 a) → isChain m1 p l → isChain m2 p l := by
  induction l with
  | nil => intro p _ h; exact h
  | cons a l ih =>
    intro p hm h
    obtain ⟨hp, e, he, hc⟩ := h
    refine ⟨hp, e, ?_, ih (fun b hb => hm b (List.mem_cons_of_mem _ hb)) hc⟩
    rw [hm a (List.mem_cons_self _ _)]; exact he

/-- The chain that starts at a pointer is unique. -/
theorem isChain_unique {m : Heap} {l1 : List Nat} :
    ∀ {p : Option Nat} {l2 : List Nat}, isChain m p l1 → isChain m p l2 → l1 = l2 := by
  induction l1 with
  | nil =>
    intro p l2 h1 h2
    rw [isChain_nil] at h1; subst h1
    exact (isChain_none h2).symm
  | cons a l ih =>
    intro p l2 h1 h2
    obtain ⟨hp, e, he, hc⟩ := h1
    cases l2 with
    | nil => rw [isChain_nil] at h2; rw [h2] at hp; exact absurd hp (by simp)
    | cons b l2 =>
      obtain ⟨hp2, e2, he2, hc2⟩ := h2
      rw [hp] at hp2
      have hab : a = b := Option.some.inj hp2
      subst hab
      rw [he] at he2
      have : e = e2 := Option.some.inj he2
      subst this
      rw [ih hc hc2]

/-- The part of a chain behind some of its addresses is the chain from there. -/
theorem isChain_suffix {m : Heap} {l1 : List Nat} :
    ∀ {p : Option Nat} {l2 : List Nat}, isChain m p (l1 ++ l2) → isChain m l2.head? l2 := by
  induction l1 with
  | nil =>
    intro p l2 h
    rw [List.nil_append] at h
    rw [← isChain_head h]; exact h
  | cons a l ih =>
    intro p l2 h
    obtain ⟨_, e, _, hc⟩ := h
    exact ih hc

/-- A chain visits no address twice. -/
theorem isChain_nodup {m : Heap} {l : List Nat} :
    ∀ {p : Option Nat}, isChain m p l → l.Nodup := by
  induction l with
  | nil => intro p _; exact List.nodup_nil
  | cons a l ih =>
    intro p h
    have h0 := h
    obtain ⟨hp, e, he, hc⟩ := h
    refine List.nodup_cons.mpr ⟨?_, ih hc⟩
    intro hmem
    obtain ⟨s, t, hst⟩ := List.append_of_mem hmem
    have h1 : isChain m (some a) (a :: t) := by
      have := @isChain_suffix m (a :: s) p (a :: t) (by
        rw [hst] at h0; simpa using h0)
      simpa using this
    have h2 : isChain m (some a) (a :: l) := ⟨rfl, e, he, hc⟩
    have := isChain_unique h1 h2
    have hl := congrArg List.length this
    rw [hst] at hl
    simp at hl
    omega

/-- Every address of a chain is live. -/
theorem isChain_live {m : Heap} {l : List Nat} :
    ∀ {p : Option Nat}, isChain m p l → ∀ a ∈ l, ∃ e, m a = some e := by
  induction l with
  | nil => intro p _ a ha; simp at ha
  | cons b l ih =>
    intro p h a ha
    obtain ⟨_, e, he, hc⟩ := h
    rcases List.mem_cons.mp ha with rfl | h'
    · exact ⟨e, he⟩
    · exact ih hc a h'

/-- Step `i` of a chain: the element at position `i` points to position `i + 1`. -/
theorem isChain_get {m : Heap} {l : List Nat} :
    ∀ {p : Option Nat} {i : Nat} {a : Nat}, isChain m p l → l[i]? = some a →
      ∃ e, m a = some e ∧ e.next = l[i + 1]? ∧ isChain m e.next (l.drop (i + 1)) := by
  induction l with
  | nil => intro p i a _ h; simp at h
  | cons b l ih =>
    intro p i a h hi
    obtain ⟨_, e, he, hc⟩ := h
    cases i with
    | zero =>
      simp at hi; subst hi
      refine ⟨e, he, ?_, by simpa using hc⟩
      rw [isChain_head hc]; simp [List.head?_eq_getElem?]
    | succ i =>
      simp at hi
      obtain ⟨e2, h1, h2, h3⟩ := ih hc hi
      exact ⟨e2, h1, by simpa using h2, by simpa using h3⟩

/-- Cutting a chain: after `s->next = NULL` the chain from `p` stops at `s`, and
the old successor of `s` starts the rest. -/
theorem isChain_cut {m : Heap} {s : Nat} {es : list_ele_t} {l1 : List Nat} :
    ∀ {p : Option Nat} {l2 : List Nat}, isChain m p (l1 ++ s :: l2) → m s = some es →
      isChain (store m s { es with next := none }) p (l1 ++ [s]) ∧
      isChain (store m s { es with next := none }) es.next l2 := by
  induction l1 with
  | nil =>
    intro p l2 h hs
    have hnd := isChain_nodup h
    obtain ⟨hp, e, he, hc⟩ := h
    rw [hs] at he
    have : es = e := Option.some.inj he
    subst this
    have hs2 : s ∉ l2 := (List.nodup_cons.mp hnd).1
    have hfr : isChain (store m s { es with next := none }) es.next l2 :=
      isChain_frame (fun b hb => store_other m _ (fun hbs => hs2 (hbs ▸ hb))) hc
    exact ⟨⟨hp, _, store_same _ _ _, rfl⟩, hfr⟩
  | cons a l ih =>
    intro p l2 h hs
    have hnd := isChain_nodup h
    obtain ⟨hp, e, he, hc⟩ := h
    have has : a ≠ s := by
      intro h'
      have := (List.nodup_cons.mp hnd).1
      apply this; subst h'; simp
    obtain ⟨h1, h2⟩ := ih hc hs
    exact ⟨⟨hp, e, by rw [store_other m _ has]; exact he, h1⟩, h2⟩

/-! ## The invariant, in terms of the chain -/

theorem walk_chain {m : Heap} {l : List Nat} :
    ∀ {p : Option Nat} {k : Nat}, isChain m p l → k ≤ l.length →
      walk m p k = some (l.drop k).head? := by
  induction l with
  | nil =>
    intro p k h hk
    have : k = 0 := by simpa using hk
    subst this
    rw [isChain_nil] at h
    simp [walk, h]
  | cons a l ih =>
    intro p k h hk
    cases k with
    | zero => simp [walk, isChain_head h]
    | succ k =>
      obtain ⟨hp, e, he, hc⟩ := h
      subst hp
      simp only [walk, he, List.drop_succ_cons]
      exact ih hc (by simpa using hk)

theorem walk_chain_none {m : Heap} {l : List Nat} :
    ∀ {p : Option Nat} {k : Nat}, isChain m p l → l.length < k → walk m p k = none := by
  induction l with
  | nil =>
    intro p k h hk
    rw [isChain_nil] at h; subst h
    cases k with
    | zero => simp at hk
    | succ k => simp [walk]
  | cons a l ih =>
    intro p k h hk
    obtain ⟨hp, e, he, hc⟩ := h
    subst hp
    cases k with
    | zero => simp at hk
    | succ k =>
      simp only [walk, he]
      exact ih hc (by simpa using hk)

/-- On a chain the invariant says that `tail` is the last address of the chain
and `size` its length. -/
theorem Inv_chain {m : Heap} {q : queue_t} {l : List Nat} (hc : isChain m q.head l)
    (hinv : Inv m q) : q.tail = l.getLast? ∧ q.size = l.length := by
  obtain ⟨h0, h1, h2, h3⟩ := hinv
  cases l with
  | nil =>
    rw [isChain_nil] at hc
    exact ⟨by simpa using h2.mp hc, by simpa using h1.mpr hc⟩
  | cons a l =>
    have hh : q.head ≠ none := by rw [hc.1]; simp
    have hs : 1 ≤ q.size := by
      have : q.size ≠ 0 := fun h => hh (h1.mp h)
      omega
    obtain ⟨t, e, ht, hw, he, hn⟩ := h3 hs
    obtain ⟨k, hk⟩ : ∃ k : Nat, q.size = (k : Int) + 1 := ⟨(q.size - 1).toNat, by omega⟩
    have hk2 : (q.size - 1).toNat = k := by omega
    rw [hk2] at hw
    have hle : k ≤ (a :: l).length := by
      by_contra hlt
      rw [walk_chain_none hc (by omega)] at hw
      exact absurd hw (by simp)
    rw [walk_chain hc hle] at hw
    have hget : (a :: l)[k]? = some t := by
      have := Option.some.inj hw
      rw [List.head?_drop] at this
      exact this
    obtain ⟨e2, he2, hnx, _⟩ := isChain_get hc hget
    rw [he] at he2
    have : e = e2 := Option.some.inj he2
    subst this
    rw [hn] at hnx
    have hlen : (a :: l).length ≤ k + 1 := by
      have := hnx.symm
      rwa [List.getElem?_eq_none_iff] at this
    have hklt : k < (a :: l).length := by
      by_contra hge
      have : (a :: l)[k]? = none := List.getElem?_eq_none_iff.mpr (by omega)
      rw [this] at hget
      exact absurd hget (by simp)
    have hkl : (a :: l).length = k + 1 := by omega
    refine ⟨?_, by rw [hk, hkl]; push_cast; ring⟩
    rw [ht, List.getLast?_eq_getElem?, hkl]
    simpa using hget.symm

/-- A chain from `head` whose last address is `tail` and whose length is `size`
satisfies the invariant. -/
theorem chain_Inv {m : Heap} {q : queue_t} {l : List Nat} (hc : isChain m q.head l)
    (ht : q.tail = l.getLast?) (hs : q.size = l.length) : Inv m q := by
  refine ⟨by omega, ?_, ?_, ?_⟩
  · rw [hs, isChain_head hc]
    cases l with
    | nil => simp
    | cons a l => simp; omega
  · rw [ht, isChain_head hc]
    cases l with
    | nil => simp
    | cons a l => simp [List.getLast?_eq_getElem?]
  · intro h1
    have hpos : 0 < l.length := by omega
    have hk : (q.size - 1).toNat = l.length - 1 := by omega
    obtain ⟨t, hget⟩ : ∃ t, l[l.length - 1]? = some t :=
      ⟨l[l.length - 1], List.getElem?_eq_getElem (Nat.sub_lt hpos Nat.one_pos)⟩
    obtain ⟨e, he, hn, _⟩ := isChain_get hc hget
    refine ⟨t, e, ?_, ?_, he, ?_⟩
    · rw [ht, List.getLast?_eq_getElem?]; exact hget
    · rw [hk, walk_chain hc (by omega), List.head?_drop, hget]
    · rw [hn]
      exact List.getElem?_eq_none_iff.mpr (by omega)

/-! ## Strings -/

theorem cstr_length (s : List Nat) : (cstr s).length = strlen s := by
  induction s with
  | nil => rfl
  | cons c s ih =>
    by_cases h : c = 0
    · simp [cstr, strlen, h]
    · simp [cstr, strlen, h, ih]

theorem strncpy_bytes_nil (n : Nat) : strncpy_bytes [] n = List.replicate n 0 := by
  induction n with
  | zero => rfl
  | succ n ih => simp [strncpy_bytes, ih, List.replicate_succ]

theorem strncpy_bytes_length (s : List Nat) (n : Nat) : (strncpy_bytes s n).length = n := by
  induction n generalizing s with
  | zero => cases s <;> rfl
  | succ n ih =>
    cases s with
    | nil => simp [strncpy_bytes, ih]
    | cons c s =>
      by_cases h : c = 0
      · simp [strncpy_bytes, h, ih]
      · simp [strncpy_bytes, h, ih]

/-- With room for the terminator `strncpy` writes the string and its terminator. -/
theorem strncpy_bytes_full (s : List Nat) : strncpy_bytes s (strlen s + 1) = cstr s ++ [0] := by
  induction s with
  | nil => rfl
  | cons c s ih =>
    by_cases h : c = 0
    · simp [strncpy_bytes, strlen, cstr, h]
    · simp [strncpy_bytes, strlen, cstr, h, ih]

/-- Within the length of the string `strncpy` writes its first `n` bytes. -/
theorem strncpy_bytes_take (s : List Nat) (n : Nat) (h : n ≤ strlen s) :
    strncpy_bytes s n = (cstr s).take n := by
  induction n generalizing s with
  | zero => cases s <;> simp [strncpy_bytes]
  | succ n ih =>
    cases s with
    | nil => simp [strlen] at h
    | cons c s =>
      by_cases hc : c = 0
      · simp [strlen, hc] at h
      · simp only [strlen, hc, if_false] at h
        simp [strncpy_bytes, cstr, hc, ih s (by omega)]

theorem size_pred_pos {c : Nat} (h1 : 1 ≤ c) (h2 : c < 2 ^ 64) : size_pred c = c - 1 := by
  unfold size_pred
  have h : c + 2 ^ 64 - 1 = (c - 1) + 2 ^ 64 := by omega
  rw [h, Nat.add_mod_right, Nat.mod_eq_of_lt (by omega)]

theorem size_pred_zero : size_pred 0 = 2 ^ 64 - 1 := by
  decide

theorem int32_eq {x : Int} (h1 : -2 ^ 31 ≤ x) (h2 : x < 2 ^ 31) : int32 x = x := by
  unfold int32
  omega

theorem int32_range (x : Int) : -2 ^ 31 ≤ int32 x ∧ int32 x < 2 ^ 31 := by
  unfold int32
  omega

theorem int32_add (x y : Int) : int32 (int32 x + y) = int32 (x + y) := by
  unfold int32
  omega

/-- The buffer after the copy of `q_remove_head`, for a capacity of at least one
byte: the first `min (strlen v) (c - 1)` bytes of the value, a terminator, and
the rest of the buffer as it was. -/
theorem copy_out_spec (buf v : List Nat) (c : Nat) (h1 : 1 ≤ c) (h2 : c < 2 ^ 64)
    (h3 : c ≤ buf.length) :
    copy_out buf v c =
      .ok ((cstr v).take (min (strlen v) (c - 1)) ++ 0 :: buf.drop (min (strlen v) (c - 1) + 1)) := by
  unfold copy_out
  rw [size_pred_pos h1 h2]
  by_cases hlt : strlen v > c - 1
  · have hmin : min (strlen v) (c - 1) = c - 1 := by omega
    rw [if_pos hlt, hmin]
    have hle : c - 1 ≤ buf.length := by omega
    simp only [strncpy, hle, if_true, set_byte]
    rw [strncpy_bytes_take v (c - 1) (by omega)]
    have hlen : ((cstr v).take (c - 1)).length = c - 1 := by
      rw [List.length_take, cstr_length]; omega
    have hi : c - 1 < (List.take (c - 1) (cstr v) ++ List.drop (c - 1) buf).length := by
      rw [List.length_append, hlen, List.length_drop]; omega
    rw [if_pos hi]
    congr 1
    rw [List.set_append_right _ _ (by omega), hlen, Nat.sub_self]
    have hcl : c - 1 < buf.length := by omega
    have hd : List.drop (c - 1) buf = buf[c - 1] :: List.drop (c - 1 + 1) buf :=
      List.drop_eq_getElem_cons hcl
    rw [hd]
    rfl
  · have hmin : min (strlen v) (c - 1) = strlen v := by omega
    rw [if_neg hlt, hmin]
    have hle : strlen v + 1 ≤ buf.length := by omega
    simp only [strncpy, hle, if_true]
    rw [strncpy_bytes_full, List.take_of_length_le (by rw [cstr_length])]
    simp

theorem cstr_no_zero (s : List Nat) : (0 : Nat) ∉ cstr s := by
  induction s with
  | nil => simp [cstr]
  | cons c s ih =>
    by_cases h : c = 0
    · simp [cstr, h]
    · simp only [cstr, h, if_false, List.mem_cons, not_or]
      exact ⟨fun h0 => h h0.symm, ih⟩

theorem cstr_append_zero (l r : List Nat) (h : (0 : Nat) ∉ l) : cstr (l ++ 0 :: r) = l := by
  induction l with
  | nil => simp [cstr]
  | cons c l ih =>
    have hc : c ≠ 0 := fun h0 => h (by simp [h0])
    have hl : (0 : Nat) ∉ l := fun h0 => h (List.mem_cons_of_mem _ h0)
    simp [cstr, hc, ih hl]

/-- The value that the insertions store: the bytes of the string and its
terminator, in a buffer of exactly that size. -/
theorem copy_in (s : List Nat) :
    strncpy (List.replicate (strlen s + 1) 0) s (strlen s + 1) = .ok (cstr s ++ [0]) := by
  simp [strncpy, strncpy_bytes_full]

theorem q_insert_head_ok (m : Heap) (q : queue_t) (s : List Nat) (a : Nat) :
    q_insert_head m (some q) s (some a) true =
      .ok (true, store m a { value := cstr s ++ [0], next := q.head },
        some { head := some a, tail := if q.tail = none then some a else q.tail,
               size := int32 (q.size + 1) }) := by
  simp only [q_insert_head, copy_in]
  by_cases h : q.tail = none <;> simp [h]

theorem q_remove_head_ok (m : Heap) (q : queue_t) (h : Nat) (e : list_ele_t)
    (hh : q.head = some h) (he : m h = some e) :
    q_remove_head m (some q) none 0 =
      .ok (true, free m h, some { q with head := e.next, size := int32 (q.size - 1) }, none) := by
  simp [q_remove_head, hh, load, he]

theorem q_remove_head_buf (m : Heap) (q : queue_t) (h : Nat) (e : list_ele_t)
    (buf : List Nat) (c : Nat) (hh : q.head = some h) (he : m h = some e) :
    q_remove_head m (some q) (some buf) c =
      match copy_out buf e.value c with
      | .error err => .error err
      | .ok b =>
        .ok (true, free m h, some { q with head := e.next, size := int32 (q.size - 1) }, some b) := by
  cases hco : copy_out buf e.value c <;> simp [q_remove_head, hh, load, he, hco]

/-! ## A queue at the end of the range of `int` -/

theorem walk_longHeap (n : Nat) :
    ∀ (j k : Nat), 1 ≤ k → k + j ≤ n → walk (longHeap n) (some k) j = some (some (k + j)) := by
  intro j
  induction j with
  | zero => intro k _ _; rfl
  | succ j ih =>
    intro k hk hkj
    have hm : longHeap n k = some { value := [0], next := some (k + 1) } := by
      have h1 : 1 ≤ k ∧ k ≤ n := ⟨hk, by omega⟩
      have h2 : ¬ k = n := by omega
      simp [longHeap, h1, h2]
    simp only [walk, hm]
    rw [ih (k + 1) (by omega) (by omega)]
    congr 2
    omega

theorem isChain_longHeap (n : Nat) :
    ∀ (j k : Nat), 1 ≤ k → k + j = n + 1 →
      isChain (longHeap n) (if j = 0 then none else some k) (List.range' k j) := by
  intro j
  induction j with
  | zero => intro k _ _; rfl
  | succ j ih =>
    intro k hk hkj
    have h1 : 1 ≤ k ∧ k ≤ n := ⟨hk, by omega⟩
    refine ⟨by simp, { value := [0], next := if k = n then none else some (k + 1) },
      by simp [longHeap, h1], ?_⟩
    have := ih (k + 1) (by omega) (by omega)
    by_cases hj : j = 0
    · subst hj
      have hkn : k = n := by omega
      simpa [hkn] using this
    · have hkn : ¬ k = n := by omega
      simpa [hj, hkn] using this

theorem isChain_longHeap_all (n : Nat) (hn : 1 ≤ n) :
    isChain (longHeap n) (longQueue n).head (List.range' 1 n) := by
  have := isChain_longHeap n n 1 (Nat.le_refl 1) (by omega)
  have hn0 : ¬ n = 0 := by omega
  simpa [hn0, longQueue] using this

theorem Inv_longQueue (n : Nat) (hn : 1 ≤ n) : Inv (longHeap n) (longQueue n) := by
  refine ⟨by simp [longQueue], by simp [longQueue]; omega, by simp [longQueue], ?_⟩
  intro _
  refine ⟨n, { value := [0], next := none }, rfl, ?_, by simp [longHeap, hn], rfl⟩
  have hk : ((longQueue n).size - 1).toNat = n - 1 := by simp [longQueue]
  rw [hk]
  have := walk_longHeap n (n - 1) 1 (Nat.le_refl 1) (by omega)
  rw [show 1 + (n - 1) = n by omega] at this
  exact this

/-! ## Insertion at the head and removal -/

theorem map_val_frame {m1 m2 : Heap} {l : List Nat} (h : ∀ b ∈ l, m2 b = m1 b) :
    l.map (val m2) = l.map (val m1) := by
  apply List.map_congr_left
  intro b hb
  simp [val, h b hb]

/-- C4 fails on the code at the end of the range of `int`: the queue of
`2 ^ 31 - 1` elements satisfies the structural invariant, and a
`q_insert_head` that succeeds on it leaves `size` at `-2 ^ 31`, not one above
the size before; the invariant is lost. -/
theorem q_insert_head_int_overflow :
    Inv (longHeap 2147483647) (longQueue 2147483647) ∧
    isChain (longHeap 2147483647) (longQueue 2147483647).head (List.range' 1 2147483647) ∧
    longHeap 2147483647 0 = none ∧
    (longQueue 2147483647).size = 2 ^ 31 - 1 ∧
    ∃ m1 q1, q_insert_head (longHeap 2147483647) (some (longQueue 2147483647)) [97] (some 0) true
        = .ok (true, m1, some q1) ∧
      q1.size = -2 ^ 31 ∧ q1.size ≠ (longQueue 2147483647).size + 1 ∧ ¬ Inv m1 q1 := by
  refine ⟨Inv_longQueue 2147483647 (by decide), isChain_longHeap_all 2147483647 (by decide),
    rfl, by decide, _, _, q_insert_head_ok _ _ _ _, by decide, by decide, ?_⟩
  intro h
  have h0 : (0 : Int) ≤ int32 ((longQueue 2147483647).size + 1) := h.1
  exact absurd h0 (by decide)

/-- C4, within the range of `int`: on a queue that satisfies the structural
invariant and holds fewer than `2 ^ 31 - 1` elements, with chain `l` from
`head`, a `q_insert_head` whose two allocations succeed (the element at the
fresh address `a`) returns `true`; the chain from `head` becomes `a :: l`, its
values are the copy of `s` followed by the previous values, no other element
changes, the stored value is byte for byte the string `s` with its terminator,
`tail` is the new element if the queue was empty and is unchanged otherwise,
`size` grows by one, and the invariant holds again. -/
theorem q_insert_head_spec (m : Heap) (q : queue_t) (s : List Nat) (a : Nat) (l : List Nat)
    (hc : isChain m q.head l) (hinv : Inv m q) (hfresh : m a = none)
    (hb : q.size < 2 ^ 31 - 1) :
    ∃ m1 q1, q_insert_head m (some q) s (some a) true = .ok (true, m1, some q1) ∧
      isChain m1 q1.head (a :: l) ∧
      (a :: l).map (val m1) = (cstr s ++ [0]) :: l.map (val m) ∧
      (∀ b, b ≠ a → m1 b = m b) ∧
      val m1 a = cstr s ++ [0] ∧
      q1.tail = (if l = [] then some a else q.tail) ∧
      q1.size = q.size + 1 ∧
      Inv m1 q1 := by
  obtain ⟨ht, hs⟩ := Inv_chain hc hinv
  have hsz : int32 (q.size + 1) = q.size + 1 := int32_eq (by have := hinv.1; omega) (by omega)
  have hal : a ∉ l := by
    intro h
    obtain ⟨e, he⟩ := isChain_live hc a h
    rw [hfresh] at he
    exact absurd he (by simp)
  have hfr : ∀ b ∈ l, store m a { value := cstr s ++ [0], next := q.head } b = m b :=
    fun b hb => store_other m _ (fun h => hal (h ▸ hb))
  have hch : isChain (store m a { value := cstr s ++ [0], next := q.head }) (some a) (a :: l) :=
    ⟨rfl, _, store_same _ _ _, isChain_frame hfr hc⟩
  have hva : val (store m a { value := cstr s ++ [0], next := q.head }) a = cstr s ++ [0] := by
    simp [val, store]
  have htl : (if q.tail = none then some a else q.tail) = (if l = [] then some a else q.tail) := by
    rw [ht]
    cases l with
    | nil => simp
    | cons b l => simp [List.getLast?_eq_getElem?]
  refine ⟨_, _, q_insert_head_ok m q s a, hch, ?_, fun b hb => store_other m _ hb, hva, htl,
    hsz, ?_⟩
  · rw [List.map_cons, hva, map_val_frame hfr]
  · refine chain_Inv hch ?_ ?_
    · show (if q.tail = none then some a else q.tail) = (a :: l).getLast?
      rw [htl, ht]
      cases l with
      | nil => simp
      | cons b l => simp [List.getLast?_cons_cons]
    · show int32 (q.size + 1) = ((a :: l).length : Int)
      rw [hsz, hs]; simp

/-- C4, at an instance: `"b"` inserted at address `2` in front of the queue that
holds `"a"` at address `1`. -/
theorem q_insert_head_spec_witness :
    (isChain mem1 queue1.head [1] ∧ Inv mem1 queue1 ∧ mem1 2 = none ∧
      queue1.size < 2 ^ 31 - 1) ∧
    ∃ m1 q1, q_insert_head mem1 (some queue1) [98] (some 2) true = .ok (true, m1, some q1) ∧
      isChain m1 q1.head [2, 1] ∧
      [2, 1].map (val m1) = (cstr [98] ++ [0]) :: [1].map (val mem1) ∧
      (∀ b, b ≠ 2 → m1 b = mem1 b) ∧
      val m1 2 = cstr [98] ++ [0] ∧
      q1.tail = (if [1] = ([] : List Nat) then some 2 else queue1.tail) ∧
      q1.size = queue1.size + 1 ∧
      Inv m1 q1 :=
  ⟨⟨⟨rfl, _, rfl, rfl⟩, chain_Inv (l := [1]) ⟨rfl, _, rfl, rfl⟩ rfl rfl, rfl, by decide⟩,
   q_insert_head_spec mem1 queue1 [98] 2 [1]
    ⟨rfl, _, rfl, rfl⟩ (chain_Inv (l := [1]) ⟨rfl, _, rfl, rfl⟩ rfl rfl) rfl (by decide)⟩

/-- C5: on a queue whose chain from `head` is `a :: l`, `q_remove_head` returns
`true`, with no buffer as well as with a buffer of the announced size (at least
one byte); afterwards the chain from `head` is `l`, every element other than the
removed one is as before (same addresses, same order, same values), the removed
address is released, and `size` is the `int` one below the size before: one
less, for every size from `-2 ^ 31 + 1` on (a queue with an element has a size
of at least one). -/
theorem q_remove_head_spec (m : Heap) (q : queue_t) (a : Nat) (l : List Nat)
    (sp : Option (List Nat)) (bufsize : Nat)
    (hc : isChain m q.head (a :: l))
    (hsp : ∀ buf, sp = some buf → 1 ≤ bufsize ∧ bufsize < 2 ^ 64 ∧ bufsize ≤ buf.length) :
    ∃ m1 q1 sp1, q_remove_head m (some q) sp bufsize = .ok (true, m1, some q1, sp1) ∧
      isChain m1 q1.head l ∧
      l.map (val m1) = l.map (val m) ∧
      (∀ b, b ≠ a → m1 b = m b) ∧
      m1 a = none ∧
      q1.size = int32 (q.size - 1) ∧
      (-2 ^ 31 < q.size → q.size < 2 ^ 31 → q1.size = q.size - 1) ∧
      (sp = none ↔ sp1 = none) := by
  have hnd := isChain_nodup hc
  have hsz : -2 ^ 31 < q.size → q.size < 2 ^ 31 → int32 (q.size - 1) = q.size - 1 :=
    fun h1 h2 => int32_eq (by omega) (by omega)
  obtain ⟨hh, e, he, hl⟩ := hc
  have hal : a ∉ l := (List.nodup_cons.mp hnd).1
  have hfr : ∀ b ∈ l, free m a b = m b := fun b hb => free_other m (fun h => hal (h ▸ hb))
  have hch : isChain (free m a) e.next l := isChain_frame hfr hl
  cases sp with
  | none =>
    have hrun : q_remove_head m (some q) none bufsize
        = .ok (true, free m a, some { q with head := e.next, size := int32 (q.size - 1) },
            none) := by
      simp [q_remove_head, hh, load, he]
    exact ⟨_, _, _, hrun, hch, map_val_frame hfr, fun b hb => free_other m hb,
      free_same m a, rfl, hsz, by simp⟩
  | some buf =>
    obtain ⟨h1, h2, h3⟩ := hsp buf rfl
    have hrun := q_remove_head_buf m q a e buf bufsize hh he
    rw [copy_out_spec buf e.value bufsize h1 h2 h3] at hrun
    exact ⟨_, _, _, hrun, hch, map_val_frame hfr, fun b hb => free_other m hb,
      free_same m a, rfl, hsz, by simp⟩

/-- C5, at an instance: the head of the chain `[2, 1]` is removed, into a buffer
of four bytes. -/
theorem q_remove_head_spec_witness :
    (isChain mem2 queue2.head [2, 1] ∧ (1 ≤ 4 ∧ 4 < 2 ^ 64 ∧ 4 ≤ [7, 7, 7, 7].length)) ∧
    ∃ m1 q1 sp1, q_remove_head mem2 (some queue2) (some [7, 7, 7, 7]) 4
        = .ok (true, m1, some q1, sp1) ∧
      isChain m1 q1.head [1] ∧
      [1].map (val m1) = [1].map (val mem2) ∧
      (∀ b, b ≠ 2 → m1 b = mem2 b) ∧
      m1 2 = none ∧
      q1.size = int32 (queue2.size - 1) ∧
      (-2 ^ 31 < queue2.size → queue2.size < 2 ^ 31 → q1.size = queue2.size - 1) ∧
      (some [7, 7, 7, 7] = none ↔ sp1 = none) :=
  ⟨⟨⟨rfl, _, rfl, rfl, _, rfl, rfl⟩, by decide⟩,
   q_remove_head_spec mem2 queue2 2 [1] (some [7, 7, 7, 7]) 4
    ⟨rfl, _, rfl, rfl, _, rfl, rfl⟩
    (fun buf h => by
      have hb : buf = [7, 7, 7, 7] := (Option.some.inj h).symm
      subst hb
      exact ⟨by decide, by decide, by decide⟩)⟩

/-- C9: on a queue whose head element holds the value `e.value`, with a buffer
of capacity `c` (at least one byte, `c` a `size_t`), `q_remove_head` returns
`true`, releases the head, decrements `size` (as an `int`: by one for every
size from `-2 ^ 31 + 1` on), and leaves in the buffer the first
`min (strlen v) (c - 1)` bytes of the value followed by a terminator (and the
bytes behind it as they were): the string read from the buffer is the value cut
to `min (strlen v) (c - 1)` bytes, which is the whole value when
`strlen v ≤ c - 1`. -/
theorem q_remove_head_copy (m : Heap) (q : queue_t) (h : Nat) (e : list_ele_t)
    (buf : List Nat) (c : Nat) (hh : q.head = some h) (he : m h = some e)
    (h1 : 1 ≤ c) (h2 : c < 2 ^ 64) (h3 : buf.length = c) :
    ∃ out, q_remove_head m (some q) (some buf) c =
        .ok (true, free m h, some { q with head := e.next, size := int32 (q.size - 1) },
          some out) ∧
      (-2 ^ 31 < q.size → q.size < 2 ^ 31 → int32 (q.size - 1) = q.size - 1) ∧
      out = (cstr e.value).take (min (strlen e.value) (c - 1)) ++
              0 :: buf.drop (min (strlen e.value) (c - 1) + 1) ∧
      cstr out = (cstr e.value).take (min (strlen e.value) (c - 1)) ∧
      out.length = c ∧
      (strlen e.value ≤ c - 1 → cstr out = cstr e.value) := by
  have hrun := q_remove_head_buf m q h e buf c hh he
  rw [copy_out_spec buf e.value c h1 h2 (by omega)] at hrun
  have hz : (0 : Nat) ∉ (cstr e.value).take (min (strlen e.value) (c - 1)) :=
    fun h0 => cstr_no_zero _ (List.mem_of_mem_take h0)
  refine ⟨_, hrun, fun h4 h5 => int32_eq (by omega) (by omega), rfl,
    cstr_append_zero _ _ hz, ?_, ?_⟩
  · simp only [List.length_append, List.length_take, List.length_cons, List.length_drop,
      cstr_length]
    omega
  · intro hle
    rw [cstr_append_zero _ _ hz]
    exact List.take_of_length_le (by rw [cstr_length]; omega)

/-- C9, at an instance: `"abcdefgh"` removed into a buffer of capacity `4`
leaves `"abc"` and a terminator. -/
theorem q_remove_head_copy_witness :
    (queue1.head = some 1 ∧ mem8 1 = some ⟨bytes "abcdefgh" ++ [0], none⟩ ∧
      1 ≤ 4 ∧ 4 < 2 ^ 64 ∧ [7, 7, 7, 7].length = 4) ∧
    ∃ out, q_remove_head mem8 (some queue1) (some [7, 7, 7, 7]) 4 =
        .ok (true, free mem8 1,
          some { queue1 with head := none, size := int32 (queue1.size - 1) }, some out) ∧
      (-2 ^ 31 < queue1.size → queue1.size < 2 ^ 31 →
        int32 (queue1.size - 1) = queue1.size - 1) ∧
      out = bytes "abc" ++ [0] ∧
      cstr out = bytes "abc" ∧
      out.length = 4 ∧
      (8 ≤ 4 - 1 → cstr out = cstr (bytes "abcdefgh" ++ [0])) :=
  ⟨⟨rfl, rfl, by decide, by decide, rfl⟩,
   q_remove_head_copy mem8 queue1 1 ⟨bytes "abcdefgh" ++ [0], none⟩ [7, 7, 7, 7] 4
    rfl rfl (by decide) (by decide) rfl⟩

/-- C10 fails on the code: with a buffer of capacity `0` the value of
`bufsize - 1` is `2 ^ 64 - 1`, the test `strlen(val) > bufsize - 1` is false,
and `strncpy` copies `strlen(val) + 1` bytes.  On the queue that holds `"a"`
the call writes past the end of a buffer of no byte; announced as `0` on a
buffer of four bytes, it writes two bytes. -/
theorem q_remove_head_capacity_zero :
    ∃ st, run 10 init [.insert_head (bytes "a") (some 1) true] = .ok ([true], st) ∧
      size_pred 0 = 2 ^ 64 - 1 ∧
      q_remove_head st.mem st.q (some []) 0 = .error .overrun ∧
      ∃ m q, q_remove_head st.mem st.q (some [7, 7, 7, 7]) 0
        = .ok (true, m, q, some [97, 0, 7, 7]) :=
  ⟨_, rfl, by decide, rfl, _, _, rfl⟩

/-- C1 fails on the code: the queue that holds one element satisfies the
invariant, and `q_remove_head` on it sets `head` to `NULL` and `size` to `0`
but leaves `tail` at the address it has just released; the invariant is lost. -/
theorem q_remove_head_keeps_tail :
    ∃ st, run 10 init [.insert_head (bytes "a") (some 1) true] = .ok ([true], st) ∧
      (∃ q, st.q = some q ∧ Inv st.mem q) ∧
      ∃ st2, call 10 st (.remove_head none 0) = .ok (true, st2) ∧
        ∃ q2, st2.q = some q2 ∧ q2.head = none ∧ q2.tail = some 1 ∧ q2.size = 0 ∧
          st2.mem 1 = none ∧ ¬ Inv st2.mem q2 := by
  refine ⟨_, rfl, ⟨_, rfl, ?_⟩, _, rfl, _, rfl, rfl, rfl, rfl, rfl, ?_⟩
  · exact chain_Inv (l := [1]) ⟨rfl, _, rfl, rfl⟩ rfl rfl
  · intro h
    have := h.2.2.1
    simp at this

/-- C2 fails on the code: five calls that all return `true`, with an allocator
that hands out dead addresses only, lead from `q_new()` to a queue of size `3`
whose chain from `head` has two elements.  The stale `tail` left by
`q_remove_head` points to the element at the head when `q_insert_tail` links
the new element behind it. -/
theorem q_size_not_chain_length :
    fresh_allocs 10 init [.insert_head (bytes "a") (some 1) true, .remove_head none 0,
      .insert_head (bytes "b") (some 2) true, .insert_head (bytes "c") (some 1) true,
      .insert_tail (bytes "d") (some 3) true] = true ∧
    ∃ st, run 10 init [.insert_head (bytes "a") (some 1) true, .remove_head none 0,
      .insert_head (bytes "b") (some 2) true, .insert_head (bytes "c") (some 1) true,
      .insert_tail (bytes "d") (some 3) true] = .ok ([true, true, true, true, true], st) ∧
      q_size st.q = 3 ∧ st.chain 10 = some [1, 3] :=
  ⟨by decide, _, rfl, by decide, by decide⟩

/-- An element whose `next` is its own address starts no chain. -/
theorem not_isChain_self {m : Heap} {a : Nat} {e : list_ele_t} (he : m a = some e)
    (hn : e.next = some a) : ∀ l, ¬ isChain m (some a) l := by
  intro l hc
  cases l with
  | nil => exact absurd hc (by simp [isChain])
  | cons b l =>
    have hc0 := hc
    obtain ⟨hab, e2, he2, hc2⟩ := hc
    have hba : b = a := (Option.some.inj hab).symm
    subst hba
    rw [he] at he2
    have : e = e2 := Option.some.inj he2
    subst this
    rw [hn] at hc2
    have := congrArg List.length (isChain_unique hc2 hc0)
    simp at this

/-- C3 fails on the code: after `q_insert_tail("a")` and `q_remove_head` the
queue is empty with a stale `tail`.  A `q_insert_tail("b")` whose element gets
the released address again returns `true` and links the element to itself, so
that no chain starts at `head`; with another address the call writes through
the released `tail`. -/
theorem q_insert_tail_after_empty :
    ∃ st, run 10 init [.insert_tail (bytes "a") (some 1) true, .remove_head none 0]
        = .ok ([true, true], st) ∧
      st.chain 10 = some [] ∧ st.mem 1 = none ∧ st.mem 2 = none ∧
      (∃ st2, call 10 st (.insert_tail (bytes "b") (some 1) true) = .ok (true, st2) ∧
        st2.mem 1 = some ⟨bytes "b" ++ [0], some 1⟩ ∧
        (∃ q2, st2.q = some q2 ∧ q2.head = some 1 ∧ ∀ l, ¬ isChain st2.mem q2.head l) ∧
        st2.chain 100 = none) ∧
      call 10 st (.insert_tail (bytes "b") (some 2) true) = .error .badptr := by
  refine ⟨_, rfl, by decide, rfl, rfl, ⟨_, rfl, by decide, ⟨_, rfl, rfl, ?_⟩, by decide⟩, rfl⟩
  intro l
  exact not_isChain_self (a := 1) (e := ⟨bytes "b" ++ [0], some 1⟩) (by rfl) rfl l

/-! ## Reversal -/

theorem sameValues_refl (m : Heap) : sameValues m m := fun _ => rfl

theorem sameValues_trans {m1 m2 m3 : Heap} (h1 : sameValues m1 m2) (h2 : sameValues m2 m3) :
    sameValues m1 m3 := fun b => (h1 b).trans (h2 b)

theorem sameValues_store_next {m : Heap} {a : Nat} {e : list_ele_t} (h : m a = some e)
    (nx : Option Nat) : sameValues (store m a { e with next := nx }) m := by
  intro b
  by_cases hb : b = a
  · subst hb; simp [store, h]
  · simp [store, hb]

theorem sameValues_val {m1 m2 : Heap} (h : sameValues m1 m2) : val m1 = val m2 := by
  funext b
  have := h b
  unfold val
  cases h1 : m1 b <;> cases h2 : m2 b <;> simp [h1, h2] at this ⊢
  exact this

/-- The loop of `q_reverse`: the chain `c` at `curr` is turned around in front
of the chain `p` at `pre`. -/
theorem q_reverse_loop_spec (c : List Nat) :
    ∀ (m : Heap) (pre curr : Option Nat) (p : List Nat) (fuel : Nat),
      isChain m curr c → isChain m pre p → (∀ a ∈ c, a ∉ p) → c.length < fuel →
      ∃ m1 pre1, q_reverse_loop m pre curr fuel = .ok (m1, pre1) ∧
        isChain m1 pre1 (c.reverse ++ p) ∧ (∀ b, b ∉ c → m1 b = m b) ∧ sameValues m1 m := by
  induction c with
  | nil =>
    intro m pre curr p fuel hc hp _ hf
    rw [isChain_nil] at hc; subst hc
    obtain ⟨f, rfl⟩ : ∃ f, fuel = f + 1 := ⟨fuel - 1, by simp at hf; omega⟩
    exact ⟨m, pre, rfl, by simpa using hp, fun _ _ => rfl, sameValues_refl m⟩
  | cons a c ih =>
    intro m pre curr p fuel hc hp hdis hf
    have hnd := isChain_nodup hc
    obtain ⟨hcur, e, he, hc2⟩ := hc
    subst hcur
    obtain ⟨f, rfl⟩ : ∃ f, fuel = f + 1 := ⟨fuel - 1, by simp at hf; omega⟩
    have hac : a ∉ c := (List.nodup_cons.mp hnd).1
    have hap : a ∉ p := hdis a (List.mem_cons_self _ _)
    have h1 : isChain (store m a { e with next := pre }) e.next c :=
      isChain_frame (fun b hb => store_other m _ (fun h => hac (h ▸ hb))) hc2
    have h2 : isChain (store m a { e with next := pre }) (some a) (a :: p) :=
      ⟨rfl, _, store_same _ _ _,
        isChain_frame (fun b hb => store_other m _ (fun h => hap (h ▸ hb))) hp⟩
    have hdis2 : ∀ b ∈ c, b ∉ a :: p := by
      intro b hb hbp
      rcases List.mem_cons.mp hbp with h | h
      · exact hac (h ▸ hb)
      · exact hdis b (List.mem_cons_of_mem _ hb) h
    obtain ⟨m1, pre1, hrun, hch, hfr, hsv⟩ :=
      ih _ (some a) e.next (a :: p) f h1 h2 hdis2 (by simp at hf; omega)
    refine ⟨m1, pre1, ?_, by simpa using hch, ?_, sameValues_trans hsv (sameValues_store_next he pre)⟩
    · simp only [q_reverse_loop, get_next_some he, set_next_some he]
      exact hrun
    · intro b hb
      have hba : b ≠ a := fun h => hb (h ▸ List.mem_cons_self _ _)
      rw [hfr b (fun h => hb (List.mem_cons_of_mem _ h)), store_other m _ hba]

theorem q_reverse_chain (m : Heap) (q : queue_t) (l : List Nat) (fuel : Nat)
    (hc : isChain m q.head l) (hne : l ≠ []) (hf : l.length ≤ fuel) :
    ∃ m1 h1, q_reverse m (some q) fuel = .ok (m1, some { q with tail := q.head, head := h1 }) ∧
      isChain m1 h1 l.reverse ∧ (∀ b, b ∉ l → m1 b = m b) ∧ sameValues m1 m := by
  cases l with
  | nil => exact absurd rfl hne
  | cons a c =>
    have hnd := isChain_nodup hc
    obtain ⟨hh, e, he, hc2⟩ := hc
    have hac : a ∉ c := (List.nodup_cons.mp hnd).1
    have h1 : isChain (store m a { e with next := none }) e.next c :=
      isChain_frame (fun b hb => store_other m _ (fun h => hac (h ▸ hb))) hc2
    have h2 : isChain (store m a { e with next := none }) (some a) [a] :=
      ⟨rfl, _, store_same _ _ _, rfl⟩
    obtain ⟨m1, pre1, hrun, hch, hfr, hsv⟩ :=
      q_reverse_loop_spec c _ (some a) e.next [a] fuel h1 h2
        (fun b hb hba => hac ((List.mem_singleton.mp hba) ▸ hb)) (by simpa using hf)
    refine ⟨m1, pre1, ?_, by simpa using hch, ?_, sameValues_trans hsv (sameValues_store_next he none)⟩
    · simp only [q_reverse, hh, get_next_some he, set_next_some he, hrun]
    · intro b hb
      have hba : b ≠ a := fun h => hb (h ▸ List.mem_cons_self _ _)
      rw [hfr b (fun h => hb (List.mem_cons_of_mem _ h)), store_other m _ hba]

/-- C8: on a non-empty queue that satisfies the structural invariant, with chain
`l` from `head`, `q_reverse` (with fuel for the length of the chain) ends; the
chain from `head` is then `l.reverse`, `head` is the former `tail`, `tail` is
the former `head` and its `next` is `NULL`, every address holds an element
after the call iff it did before, with the same value, and `size` is unchanged;
the invariant holds again. -/
theorem q_reverse_spec (m : Heap) (q : queue_t) (l : List Nat) (fuel : Nat)
    (hc : isChain m q.head l) (hinv : Inv m q) (hne : l ≠ []) (hf : l.length ≤ fuel) :
    ∃ m1 q1, q_reverse m (some q) fuel = .ok (m1, some q1) ∧
      isChain m1 q1.head l.reverse ∧
      l.reverse.map (val m1) = (l.map (val m)).reverse ∧
      q1.head = q.tail ∧ q1.tail = q.head ∧
      (∃ t e, q1.tail = some t ∧ m1 t = some e ∧ e.next = none) ∧
      sameValues m1 m ∧ (∀ b, b ∉ l → m1 b = m b) ∧
      q1.size = q.size ∧ Inv m1 q1 := by
  obtain ⟨ht, hs⟩ := Inv_chain hc hinv
  obtain ⟨m1, h1, hrun, hch, hfr, hsv⟩ := q_reverse_chain m q l fuel hc hne hf
  have hhead : h1 = q.tail := by
    rw [isChain_head hch, ht, List.head?_reverse]
  have htail : q.head = l.reverse.getLast? := by
    rw [isChain_head hc, List.getLast?_reverse]
  have hinv1 : Inv m1 { q with tail := q.head, head := h1 } :=
    chain_Inv hch htail (by simpa using hs)
  refine ⟨m1, _, hrun, hch, ?_, hhead, rfl, ?_, hsv, hfr, rfl, hinv1⟩
  · rw [sameValues_val hsv, List.map_reverse]
  · obtain ⟨_, _, _, h3⟩ := hinv1
    have hs1 : (1 : Int) ≤ q.size := by
      rw [hs]
      cases l with
      | nil => exact absurd rfl hne
      | cons a c => simp
    obtain ⟨t, e, ht1, _, he, hn⟩ := h3 hs1
    exact ⟨t, e, ht1, he, hn⟩

/-- C8, at an instance: the chain `[2, 1]` becomes `[1, 2]`. -/
theorem q_reverse_spec_witness :
    (isChain mem2 queue2.head [2, 1] ∧ Inv mem2 queue2 ∧ [2, 1] ≠ ([] : List Nat) ∧
      [2, 1].length ≤ 2) ∧
    ∃ m1 q1, q_reverse mem2 (some queue2) 2 = .ok (m1, some q1) ∧
      isChain m1 q1.head [2, 1].reverse ∧
      [2, 1].reverse.map (val m1) = ([2, 1].map (val mem2)).reverse ∧
      q1.head = queue2.tail ∧ q1.tail = queue2.head ∧
      (∃ t e, q1.tail = some t ∧ m1 t = some e ∧ e.next = none) ∧
      sameValues m1 mem2 ∧ (∀ b, b ∉ [2, 1] → m1 b = mem2 b) ∧
      q1.size = queue2.size ∧ Inv m1 q1 :=
  ⟨⟨⟨rfl, _, rfl, rfl, _, rfl, rfl⟩,
     chain_Inv (l := [2, 1]) ⟨rfl, _, rfl, rfl, _, rfl, rfl⟩ rfl rfl, by decide, by decide⟩,
   q_reverse_spec mem2 queue2 [2, 1] 2 ⟨rfl, _, rfl, rfl, _, rfl, rfl⟩
     (chain_Inv (l := [2, 1]) ⟨rfl, _, rfl, rfl, _, rfl, rfl⟩ rfl rfl) (by decide) (by decide)⟩

/-! ## The order of `strcmp` -/

theorem strcmp_swap : ∀ a b : List Nat, strcmp b a = - strcmp a b
  | [], [] => by simp [strcmp]
  | [], b :: _ => by simp [strcmp]
  | a :: _, [] => by simp [strcmp]
  | a :: s, b :: t => by
    by_cases h : a = b
    · subst h
      by_cases h0 : a = 0
      · simp [strcmp, h0]
      · simp [strcmp, h0, strcmp_swap s t]
    · have h2 : ¬ b = a := fun h3 => h h3.symm
      simp [strcmp, h, h2]

theorem strcmp_self (a : List Nat) : strcmp a a = 0 := by
  have := strcmp_swap a a
  omega

theorem strcmp_le_trans : ∀ a b c : List Nat,
    strcmp a b ≤ 0 → strcmp b c ≤ 0 → strcmp a c ≤ 0 := by
  intro a
  induction a with
  | nil =>
    intro b c h1 h2
    cases b with
    | nil => exact h2
    | cons y t =>
      cases c with
      | nil => simp [strcmp] at *
      | cons z u => simp [strcmp] at *
  | cons x s ih =>
    intro b c h1 h2
    cases b with
    | nil =>
      cases c with
      | nil => simp [strcmp] at *; omega
      | cons z u =>
        simp only [strcmp] at h1 h2 ⊢
        split_ifs <;> omega
    | cons y t =>
      cases c with
      | nil =>
        simp only [strcmp] at h1 h2 ⊢
        split_ifs at h1 <;> omega
      | cons z u =>
        simp only [strcmp] at h1 h2 ⊢
        by_cases hxy : x = y
        · subst hxy
          by_cases hxz : x = z
          · subst hxz
            by_cases h0 : x = 0
            · simp [h0]
            · simp only [h0, if_true, if_false] at h1 h2 ⊢
              exact ih t u h1 h2
          · simp only [hxz, if_false] at h2 ⊢
            exact h2
        · simp only [hxy, if_false] at h1
          by_cases hyz : y = z
          · subst hyz
            simp only [hxy, if_false]
            exact h1
          · simp only [hyz, if_false] at h2
            have hxz : ¬ x = z := by omega
            simp only [hxz, if_false]
            omega

theorem strcmp_total {a b : List Nat} (h : ¬ strcmp a b < 0) : strcmp b a ≤ 0 := by
  have := strcmp_swap a b
  omega

/-! ## The merge and the sort on lists -/

theorem mergeL_nil_left (v : Nat → List Nat) (l : List Nat) : mergeL v [] l = l := by
  rw [mergeL]

theorem mergeL_nil_right (v : Nat → List Nat) (l : List Nat) : mergeL v l [] = l := by
  cases l with
  | nil => rw [mergeL]
  | cons a l => rw [mergeL]

theorem mergeL_cons_lt (v : Nat → List Nat) {a b : Nat} (l1 l2 : List Nat)
    (h : strcmp (v a) (v b) < 0) :
    mergeL v (a :: l1) (b :: l2) = a :: mergeL v l1 (b :: l2) := by
  rw [mergeL, if_pos h]

theorem mergeL_cons_ge (v : Nat → List Nat) {a b : Nat} (l1 l2 : List Nat)
    (h : ¬ strcmp (v a) (v b) < 0) :
    mergeL v (a :: l1) (b :: l2) = b :: mergeL v (a :: l1) l2 := by
  rw [mergeL, if_neg h]

theorem mergeL_perm (v : Nat → List Nat) :
    ∀ (n : Nat) (l1 l2 : List Nat), l1.length + l2.length ≤ n →
      (mergeL v l1 l2).Perm (l1 ++ l2) := by
  intro n
  induction n with
  | zero =>
    intro l1 l2 h
    have h1 : l1 = [] := List.length_eq_zero.mp (by omega)
    have h2 : l2 = [] := List.length_eq_zero.mp (by omega)
    subst h1; subst h2
    rw [mergeL_nil_left]
    exact List.Perm.refl _
  | succ n ih =>
    intro l1 l2 h
    cases l1 with
    | nil => rw [mergeL_nil_left]; exact List.Perm.refl _
    | cons a l1 =>
      cases l2 with
      | nil => rw [mergeL_nil_right]; simp
      | cons b l2 =>
        by_cases hlt : strcmp (v a) (v b) < 0
        · rw [mergeL_cons_lt v l1 l2 hlt]
          exact (ih l1 (b :: l2) (by simp at h ⊢; omega)).cons a
        · rw [mergeL_cons_ge v l1 l2 hlt]
          have h1 := (ih (a :: l1) l2 (by simp at h ⊢; omega)).cons b
          exact h1.trans (List.perm_middle.symm)

theorem mem_mergeL {v : Nat → List Nat} {l1 l2 : List Nat} {x : Nat} :
    x ∈ mergeL v l1 l2 ↔ x ∈ l1 ∨ x ∈ l2 := by
  rw [(mergeL_perm v _ l1 l2 (Nat.le_refl _)).mem_iff, List.mem_append]

/-- Both arguments of a merge keep their order in the result. -/
theorem mergeL_sublist (v : Nat → List Nat) :
    ∀ (n : Nat) (l1 l2 : List Nat), l1.length + l2.length ≤ n →
      l1.Sublist (mergeL v l1 l2) ∧ l2.Sublist (mergeL v l1 l2) := by
  intro n
  induction n with
  | zero =>
    intro l1 l2 h
    have h1 : l1 = [] := List.length_eq_zero.mp (by omega)
    have h2 : l2 = [] := List.length_eq_zero.mp (by omega)
    subst h1; subst h2
    rw [mergeL_nil_left]
    exact ⟨List.Sublist.refl _, List.Sublist.refl _⟩
  | succ n ih =>
    intro l1 l2 h
    cases l1 with
    | nil => rw [mergeL_nil_left]; exact ⟨List.nil_sublist _, List.Sublist.refl _⟩
    | cons a l1 =>
      cases l2 with
      | nil => rw [mergeL_nil_right]; exact ⟨List.Sublist.refl _, List.nil_sublist _⟩
      | cons b l2 =>
        by_cases hlt : strcmp (v a) (v b) < 0
        · rw [mergeL_cons_lt v l1 l2 hlt]
          obtain ⟨h1, h2⟩ := ih l1 (b :: l2) (by simp at h ⊢; omega)
          exact ⟨h1.cons₂ a, h2.cons a⟩
        · rw [mergeL_cons_ge v l1 l2 hlt]
          obtain ⟨h1, h2⟩ := ih (a :: l1) l2 (by simp at h ⊢; omega)
          exact ⟨h1.cons b, h2.cons₂ b⟩

/-- The merge of two sorted lists is sorted. -/
theorem mergeL_sorted (v : Nat → List Nat) :
    ∀ (n : Nat) (l1 l2 : List Nat), l1.length + l2.length ≤ n →
      l1.Pairwise (fun x y => strcmp (v x) (v y) ≤ 0) →
      l2.Pairwise (fun x y => strcmp (v x) (v y) ≤ 0) →
      (mergeL v l1 l2).Pairwise (fun x y => strcmp (v x) (v y) ≤ 0) := by
  intro n
  induction n with
  | zero =>
    intro l1 l2 h _ h2
    have h1 : l1 = [] := List.length_eq_zero.mp (by omega)
    subst h1
    rw [mergeL_nil_left]; exact h2
  | succ n ih =>
    intro l1 l2 h hs1 hs2
    cases l1 with
    | nil => rw [mergeL_nil_left]; exact hs2
    | cons a l1 =>
      cases l2 with
      | nil => rw [mergeL_nil_right]; exact hs1
      | cons b l2 =>
        obtain ⟨ha, hs1'⟩ := List.pairwise_cons.mp hs1
        obtain ⟨hb, hs2'⟩ := List.pairwise_cons.mp hs2
        by_cases hlt : strcmp (v a) (v b) < 0
        · rw [mergeL_cons_lt v l1 l2 hlt]
          refine List.pairwise_cons.mpr ⟨?_, ih l1 (b :: l2) (by simp at h ⊢; omega) hs1' hs2⟩
          intro x hx
          rcases mem_mergeL.mp hx with h1 | h1
          · exact ha x h1
          · rcases List.mem_cons.mp h1 with h2 | h2
            · subst h2; omega
            · exact strcmp_le_trans _ _ _ (by omega) (hb x h2)
        · rw [mergeL_cons_ge v l1 l2 hlt]
          refine List.pairwise_cons.mpr ⟨?_, ih (a :: l1) l2 (by simp at h ⊢; omega) hs1 hs2'⟩
          intro x hx
          have hba := strcmp_total hlt
          rcases mem_mergeL.mp hx with h1 | h1
          · rcases List.mem_cons.mp h1 with h2 | h2
            · subst h2; exact hba
            · exact strcmp_le_trans _ _ _ hba (ha x h2)
          · exact hb x h1

/-- On equal values the merge puts the element of the second list first. -/
theorem mergeL_cross (v : Nat → List Nat) :
    ∀ (n : Nat) (l1 l2 : List Nat), l1.length + l2.length ≤ n →
      l1.Pairwise (fun x y => strcmp (v x) (v y) ≤ 0) →
      l2.Pairwise (fun x y => strcmp (v x) (v y) ≤ 0) →
      ∀ x y, x ∈ l1 → y ∈ l2 → strcmp (v x) (v y) = 0 → [y, x].Sublist (mergeL v l1 l2) := by
  intro n
  induction n with
  | zero =>
    intro l1 l2 h _ _ x y hx
    have h1 : l1 = [] := List.length_eq_zero.mp (by omega)
    subst h1
    simp at hx
  | succ n ih =>
    intro l1 l2 h hs1 hs2 x y hx hy hxy
    cases l1 with
    | nil => simp at hx
    | cons a l1 =>
      cases l2 with
      | nil => simp at hy
      | cons b l2 =>
        obtain ⟨ha, hs1'⟩ := List.pairwise_cons.mp hs1
        obtain ⟨hb, hs2'⟩ := List.pairwise_cons.mp hs2
        by_cases hlt : strcmp (v a) (v b) < 0
        · rw [mergeL_cons_lt v l1 l2 hlt]
          rcases List.mem_cons.mp hx with h1 | h1
          · subst h1
            exfalso
            have hby : strcmp (v b) (v y) ≤ 0 := by
              rcases List.mem_cons.mp hy with h2 | h2
              · subst h2; rw [strcmp_self]
              · exact hb y h2
            have hyx : strcmp (v y) (v x) ≤ 0 := by
              have := strcmp_swap (v x) (v y); omega
            have hbx := strcmp_le_trans _ _ _ hby hyx
            have := strcmp_swap (v x) (v b)
            omega
          · exact (ih l1 (b :: l2) (by simp at h ⊢; omega) hs1' hs2 x y h1 hy hxy).cons a
        · rw [mergeL_cons_ge v l1 l2 hlt]
          rcases List.mem_cons.mp hy with h1 | h1
          · subst h1
            have hxm : x ∈ mergeL v (a :: l1) l2 := mem_mergeL.mpr (Or.inl hx)
            exact (List.singleton_sublist.mpr hxm).cons₂ y
          · exact (ih (a :: l1) l2 (by simp at h ⊢; omega) hs1 hs2' x y hx h1 hxy).cons b

theorem msortL_short (v : Nat → List Nat) {l : List Nat} (h : l.length < 2) : msortL v l = l := by
  rw [msortL, dif_pos h]

theorem msortL_long (v : Nat → List Nat) {l : List Nat} (h : ¬ l.length < 2) :
    msortL v l = mergeL v (msortL v (l.take ((l.length + 1) / 2)))
      (msortL v (l.drop ((l.length + 1) / 2))) := by
  rw [msortL, dif_neg h]

theorem msortL_perm (v : Nat → List Nat) :
    ∀ (n : Nat) (l : List Nat), l.length ≤ n → (msortL v l).Perm l := by
  intro n
  induction n with
  | zero =>
    intro l h
    rw [msortL_short v (by omega)]
  | succ n ih =>
    intro l h
    by_cases hl : l.length < 2
    · rw [msortL_short v hl]
    · rw [msortL_long v hl]
      have h1 := ih (l.take ((l.length + 1) / 2)) (by rw [List.length_take]; omega)
      have h2 := ih (l.drop ((l.length + 1) / 2)) (by rw [List.length_drop]; omega)
      refine (mergeL_perm v _ _ _ (Nat.le_refl _)).trans ?_
      have := h1.append h2
      rwa [List.take_append_drop] at this

theorem msortL_sorted (v : Nat → List Nat) :
    ∀ (n : Nat) (l : List Nat), l.length ≤ n →
      (msortL v l).Pairwise (fun x y => strcmp (v x) (v y) ≤ 0) := by
  intro n
  induction n with
  | zero =>
    intro l h
    have : l = [] := List.length_eq_zero.mp (by omega)
    subst this
    rw [msortL_short v (by simp)]
    exact List.Pairwise.nil
  | succ n ih =>
    intro l h
    by_cases hl : l.length < 2
    · rw [msortL_short v hl]
      cases l with
      | nil => exact List.Pairwise.nil
      | cons a l =>
        have : l = [] := List.length_eq_zero.mp (by simp at hl; omega)
        subst this
        exact List.pairwise_singleton _ _
    · rw [msortL_long v hl]
      exact mergeL_sorted v _ _ _ (Nat.le_refl _)
        (ih _ (by rw [List.length_take]; omega)) (ih _ (by rw [List.length_drop]; omega))

/-- The sort turns around every two elements with equal values: if `x` is in
front of `y` in the list and their values compare equal, `y` is in front of `x`
in the sorted list. -/
theorem msortL_reverses_equal (v : Nat → List Nat) :
    ∀ (n : Nat) (l : List Nat), l.length ≤ n →
      ∀ x y, [x, y].Sublist l → strcmp (v x) (v y) = 0 → [y, x].Sublist (msortL v l) := by
  intro n
  induction n with
  | zero =>
    intro l h x y hs
    have := hs.length_le
    simp at this; omega
  | succ n ih =>
    intro l h x y hs hxy
    have hl : ¬ l.length < 2 := by
      have := hs.length_le
      simp at this; omega
    rw [msortL_long v hl]
    have ht : (l.take ((l.length + 1) / 2)).length ≤ n := by rw [List.length_take]; omega
    have hd : (l.drop ((l.length + 1) / 2)).length ≤ n := by rw [List.length_drop]; omega
    have hsub := mergeL_sublist v _ (msortL v (l.take ((l.length + 1) / 2)))
      (msortL v (l.drop ((l.length + 1) / 2))) (Nat.le_refl _)
    rw [← List.take_append_drop ((l.length + 1) / 2) l] at hs
    obtain ⟨s1, s2, he, h1, h2⟩ := List.sublist_append_iff.mp hs
    cases s1 with
    | nil =>
      simp at he; subst he
      exact (ih _ hd x y h2 hxy).trans hsub.2
    | cons x1 s1 =>
      cases s1 with
      | nil =>
        simp at he
        obtain ⟨hx, hy⟩ := he
        subst hx; subst hy
        have hxm : x ∈ msortL v (l.take ((l.length + 1) / 2)) :=
          (msortL_perm v _ _ (Nat.le_refl _)).mem_iff.mpr (List.singleton_sublist.mp h1)
        have hym : y ∈ msortL v (l.drop ((l.length + 1) / 2)) :=
          (msortL_perm v _ _ (Nat.le_refl _)).mem_iff.mpr (List.singleton_sublist.mp h2)
        exact mergeL_cross v _ _ _ (Nat.le_refl _) (msortL_sorted v _ _ (Nat.le_refl _))
          (msortL_sorted v _ _ (Nat.le_refl _)) x y hxm hym hxy
      | cons y1 s1 =>
        simp at he
        obtain ⟨hx, hy, hs1, hs2⟩ := he
        subst hx; subst hy; subst hs1; subst hs2
        exact (ih _ ht x y h1 hxy).trans hsub.1

/-! ## The merge on the heap -/

theorem val_some {m : Heap} {a : Nat} {e : list_ele_t} (h : m a = some e) :
    val m a = e.value := by
  simp [val, h]

/-- The loop of `merge`: with `result` at an element outside the two chains whose
`next` is one of the two current heads, the loop links the merge of the two
chains behind `result`. -/
theorem merge_loop_spec (v : Nat → List Nat) :
    ∀ (fuel : Nat) (m : Heap) (r : Nat) (er : list_ele_t) (l1 l2 : Option Nat)
      (A B : List Nat),
      val m = v → isChain m l1 A → isChain m l2 B → (∀ a ∈ A, a ∉ B) →
      m r = some er → (er.next = l1 ∨ er.next = l2) → r ∉ A → r ∉ B →
      A.length + B.length < fuel →
      ∃ m1, merge_loop m (some r) l1 l2 fuel = .ok m1 ∧
        isChain m1 (some r) (r :: mergeL v A B) ∧
        (∀ b, b ≠ r → b ∉ A → b ∉ B → m1 b = m b) ∧ sameValues m1 m := by
  intro fuel
  induction fuel with
  | zero => intro m r er l1 l2 A B _ _ _ _ _ _ _ _ hf; omega
  | succ f ih =>
    intro m r er l1 l2 A B hv h1 h2 hdis hr hnext hrA hrB hf
    cases A with
    | nil =>
      rw [isChain_nil] at h1; subst h1
      rw [mergeL_nil_left]
      cases B with
      | nil =>
        rw [isChain_nil] at h2; subst h2
        refine ⟨m, by simp [merge_loop], ⟨rfl, er, hr, ?_⟩, fun _ _ _ _ => rfl, sameValues_refl m⟩
        rcases hnext with h | h <;> rw [h] <;> rfl
      | cons b B =>
        have hl2 : l2 = some b := h2.1
        subst hl2
        refine ⟨store m r { er with next := some b }, by simp [merge_loop, set_next, hr],
          ⟨rfl, _, store_same _ _ _, ?_⟩, fun c hc _ _ => store_other m _ hc,
          sameValues_store_next hr _⟩
        exact isChain_frame (fun c hc => store_other m _ (fun h => hrB (h ▸ hc))) h2
    | cons a A =>
      have hl1 : l1 = some a := h1.1
      subst hl1
      cases B with
      | nil =>
        rw [isChain_nil] at h2; subst h2
        rw [mergeL_nil_right]
        refine ⟨store m r { er with next := some a }, by simp [merge_loop, set_next, hr],
          ⟨rfl, _, store_same _ _ _, ?_⟩, fun c hc _ _ => store_other m _ hc,
          sameValues_store_next hr _⟩
        exact isChain_frame (fun c hc => store_other m _ (fun h => hrA (h ▸ hc))) h1
      | cons b B =>
        have hl2 : l2 = some b := h2.1
        subst hl2
        have hndA := isChain_nodup h1
        have hndB := isChain_nodup h2
        obtain ⟨_, ea, hea, hcA⟩ := h1
        obtain ⟨_, eb, heb, hcB⟩ := h2
        have hva : v a = ea.value := by rw [← hv]; exact val_some hea
        have hvb : v b = eb.value := by rw [← hv]; exact val_some heb
        have hra : r ≠ a := fun h => hrA (h ▸ List.mem_cons_self _ _)
        have hrb : r ≠ b := fun h => hrB (h ▸ List.mem_cons_self _ _)
        have hab : a ≠ b := fun h => hdis a (List.mem_cons_self _ _) (h ▸ List.mem_cons_self _ _)
        by_cases hlt : strcmp (v a) (v b) < 0
        · rw [mergeL_cons_lt v A B hlt]
          have hm1a : store m r { er with next := some a } a = some ea := by
            rw [store_other m _ (Ne.symm hra)]; exact hea
          have hc1 : isChain (store m r { er with next := some a }) ea.next A :=
            isChain_frame (fun c hc => store_other m _
              (fun h => hrA (h ▸ List.mem_cons_of_mem _ hc))) hcA
          have hc2 : isChain (store m r { er with next := some a }) (some b) (b :: B) :=
            isChain_frame (fun c hc => store_other m _ (fun h => hrB (h ▸ hc)))
              ⟨rfl, eb, heb, hcB⟩
          obtain ⟨m2, hrun, hch, hfr, hsv⟩ := ih (store m r { er with next := some a }) a ea
            ea.next (some b) A (b :: B) (by rw [val_store_next m hr]; exact hv) hc1 hc2
            (fun c hc => hdis c (List.mem_cons_of_mem _ hc)) hm1a (Or.inl rfl)
            (List.nodup_cons.mp hndA).1 (hdis a (List.mem_cons_self _ _))
            (by simp at hf ⊢; omega)
          have hm2r : m2 r = some { er with next := some a } := by
            rw [hfr r hra (fun h => hrA (List.mem_cons_of_mem _ h)) hrB]
            exact store_same _ _ _
          refine ⟨m2, ?_, ⟨rfl, _, hm2r, hch⟩, ?_, sameValues_trans hsv (sameValues_store_next hr _)⟩
          · have hlt2 : strcmp ea.value eb.value < 0 := by rw [← hva, ← hvb]; exact hlt
            simp only [merge_loop, load_some hea, load_some heb, hlt2, if_true, set_next_some hr,
              get_next_some (store_same m r _), get_next_some hm1a]
            exact hrun
          · intro c hcr hcA2 hcB2
            have hca : c ≠ a := fun h => hcA2 (h ▸ List.mem_cons_self _ _)
            rw [hfr c hca (fun h => hcA2 (List.mem_cons_of_mem _ h)) hcB2, store_other m _ hcr]
        · rw [mergeL_cons_ge v A B hlt]
          have hm1b : store m r { er with next := some b } b = some eb := by
            rw [store_other m _ (Ne.symm hrb)]; exact heb
          have hc1 : isChain (store m r { er with next := some b }) (some a) (a :: A) :=
            isChain_frame (fun c hc => store_other m _ (fun h => hrA (h ▸ hc)))
              ⟨rfl, ea, hea, hcA⟩
          have hc2 : isChain (store m r { er with next := some b }) eb.next B :=
            isChain_frame (fun c hc => store_other m _
              (fun h => hrB (h ▸ List.mem_cons_of_mem _ hc))) hcB
          obtain ⟨m2, hrun, hch, hfr, hsv⟩ := ih (store m r { er with next := some b }) b eb
            (some a) eb.next (a :: A) B (by rw [val_store_next m hr]; exact hv) hc1 hc2
            (fun c hc hcB2 => hdis c hc (List.mem_cons_of_mem _ hcB2)) hm1b (Or.inr rfl)
            (fun h => hdis b h (List.mem_cons_self _ _)) (List.nodup_cons.mp hndB).1
            (by simp at hf ⊢; omega)
          have hm2r : m2 r = some { er with next := some b } := by
            rw [hfr r hrb hrA (fun h => hrB (List.mem_cons_of_mem _ h))]
            exact store_same _ _ _
          refine ⟨m2, ?_, ⟨rfl, _, hm2r, hch⟩, ?_, sameValues_trans hsv (sameValues_store_next hr _)⟩
          · have hlt2 : ¬ strcmp ea.value eb.value < 0 := by rw [← hva, ← hvb]; exact hlt
            simp only [merge_loop, load_some hea, load_some heb, hlt2, if_false, set_next_some hr,
              get_next_some (store_same m r _), get_next_some hm1b]
            exact hrun
          · intro c hcr hcA2 hcB2
            have hcb : c ≠ b := fun h => hcB2 (h ▸ List.mem_cons_self _ _)
            rw [hfr c hcb hcA2 (fun h => hcB2 (List.mem_cons_of_mem _ h)), store_other m _ hcr]

/-- The function `merge` on two disjoint chains, not both empty: the result is
the chain of the merged addresses; elements outside the two chains are not
touched and no value changes. -/
theorem merge_spec (v : Nat → List Nat) (m : Heap) (l1 l2 : Option Nat) (A B : List Nat)
    (fuel : Nat) (hv : val m = v) (h1 : isChain m l1 A) (h2 : isChain m l2 B)
    (hdis : ∀ a ∈ A, a ∉ B) (hne : A ≠ [] ∨ B ≠ []) (hf : A.length + B.length ≤ fuel) :
    ∃ m1 h, merge m l1 l2 fuel = .ok (m1, h) ∧ isChain m1 h (mergeL v A B) ∧
      (∀ b, b ∉ A → b ∉ B → m1 b = m b) ∧ sameValues m1 m := by
  cases B with
  | nil =>
    rw [isChain_nil] at h2; subst h2
    cases A with
    | nil => simp at hne
    | cons a A =>
      have hl1 : l1 = some a := h1.1
      subst hl1
      have hnd := isChain_nodup h1
      obtain ⟨_, ea, hea, hcA⟩ := h1
      obtain ⟨m1, hrun, hch, hfr, hsv⟩ := merge_loop_spec v fuel m a ea ea.next none A []
        hv hcA rfl (fun _ _ => by simp) hea (Or.inl rfl) (List.nodup_cons.mp hnd).1 (by simp)
        (by simp at hf ⊢; omega)
      rw [mergeL_nil_right] at hch ⊢
      refine ⟨m1, some a, ?_, hch, ?_, hsv⟩
      · simp only [merge, merge_first, get_next_some hea, hrun]
      · intro c hcA2 _
        exact hfr c (fun h => hcA2 (h ▸ List.mem_cons_self _ _))
          (fun h => hcA2 (List.mem_cons_of_mem _ h)) (by simp)
  | cons b B =>
    have hl2 : l2 = some b := h2.1
    subst hl2
    have hndB := isChain_nodup h2
    obtain ⟨_, eb, heb, hcB⟩ := h2
    cases A with
    | nil =>
      rw [isChain_nil] at h1; subst h1
      obtain ⟨m1, hrun, hch, hfr, hsv⟩ := merge_loop_spec v fuel m b eb none eb.next [] B
        hv rfl hcB (fun _ h => by simp at h) heb (Or.inr rfl) (by simp)
        (List.nodup_cons.mp hndB).1 (by simp at hf ⊢; omega)
      rw [mergeL_nil_left] at hch ⊢
      refine ⟨m1, some b, ?_, hch, ?_, hsv⟩
      · simp only [merge, merge_first, get_next_some heb, hrun]
      · intro c _ hcB2
        exact hfr c (fun h => hcB2 (h ▸ List.mem_cons_self _ _)) (by simp)
          (fun h => hcB2 (List.mem_cons_of_mem _ h))
    | cons a A =>
      have hl1 : l1 = some a := h1.1
      subst hl1
      have hndA := isChain_nodup h1
      obtain ⟨_, ea, hea, hcA⟩ := h1
      have hva : v a = ea.value := by rw [← hv]; exact val_some hea
      have hvb : v b = eb.value := by rw [← hv]; exact val_some heb
      by_cases hlt : strcmp (v a) (v b) < 0
      · obtain ⟨m1, hrun, hch, hfr, hsv⟩ := merge_loop_spec v fuel m a ea ea.next (some b) A
          (b :: B) hv hcA ⟨rfl, eb, heb, hcB⟩ (fun c hc => hdis c (List.mem_cons_of_mem _ hc))
          hea (Or.inl rfl) (List.nodup_cons.mp hndA).1 (hdis a (List.mem_cons_self _ _))
          (by simp at hf ⊢; omega)
        rw [mergeL_cons_lt v A B hlt]
        refine ⟨m1, some a, ?_, hch, ?_, hsv⟩
        · have hlt2 : strcmp ea.value eb.value < 0 := by rw [← hva, ← hvb]; exact hlt
          simp only [merge, merge_first, load_some hea, load_some heb, hlt2, decide_True,
            get_next_some hea, hrun]
        · intro c hcA2 hcB2
          exact hfr c (fun h => hcA2 (h ▸ List.mem_cons_self _ _))
            (fun h => hcA2 (List.mem_cons_of_mem _ h)) hcB2
      · obtain ⟨m1, hrun, hch, hfr, hsv⟩ := merge_loop_spec v fuel m b eb (some a) eb.next
          (a :: A) B hv ⟨rfl, ea, hea, hcA⟩ hcB
          (fun c hc hcB2 => hdis c hc (List.mem_cons_of_mem _ hcB2))
          heb (Or.inr rfl) (fun h => hdis b h (List.mem_cons_self _ _))
          (List.nodup_cons.mp hndB).1 (by simp at hf ⊢; omega)
        rw [mergeL_cons_ge v A B hlt]
        refine ⟨m1, some b, ?_, hch, ?_, hsv⟩
        · have hlt2 : ¬ strcmp ea.value eb.value < 0 := by rw [← hva, ← hvb]; exact hlt
          simp only [merge, merge_first, load_some hea, load_some heb, hlt2, decide_False,
            get_next_some heb, hrun]
        · intro c hcA2 hcB2
          exact hfr c (fun h => hcB2 (h ▸ List.mem_cons_self _ _)) hcA2
            (fun h => hcB2 (List.mem_cons_of_mem _ h))

/-! ## The loops of `merge_sort` and `q_sort` -/

theorem get_next_chain {m : Heap} {p : Option Nat} {l : List Nat} (hc : isChain m p l)
    {i : Nat} (hi : i < l.length) : get_next m l[i]? = .ok l[i + 1]? := by
  obtain ⟨e, he, hn, _⟩ := isChain_get hc (List.getElem?_eq_getElem hi)
  rw [List.getElem?_eq_getElem hi, get_next_some he, hn]

/-- The slow/fast loop: from `slow` at position `i` and `fast` at position
`2 * i + 1` of a chain of `n` addresses, the loop ends with `slow` at position
`(n - 1) / 2`. -/
theorem middle_loop_spec {m : Heap} {p : Option Nat} {l : List Nat} (hc : isChain m p l) :
    ∀ (fuel i : Nat), 2 * i + 1 ≤ l.length → l.length < 2 * fuel + 2 * i + 1 →
      middle_loop m l[i]? l[2 * i + 1]? fuel = .ok l[(l.length - 1) / 2]? := by
  intro fuel
  induction fuel with
  | zero => intro i h1 h2; omega
  | succ f ih =>
    intro i h1 h2
    by_cases hf : 2 * i + 1 < l.length
    · have hfast := get_next_chain hc hf
      rw [List.getElem?_eq_getElem hf] at hfast ⊢
      by_cases hf1 : 2 * i + 2 < l.length
      · have hslow := get_next_chain hc (show i < l.length by omega)
        have hfast2 := get_next_chain hc hf1
        rw [List.getElem?_eq_getElem hf1] at hfast hfast2
        simp only [middle_loop, hfast, hslow, hfast2]
        have := ih (i + 1) (by omega) (by omega)
        rw [show 2 * (i + 1) + 1 = 2 * i + 2 + 1 by ring] at this
        exact this
      · have hnone : l[2 * i + 1 + 1]? = none := List.getElem?_eq_none_iff.mpr (by omega)
        rw [hnone] at hfast
        simp only [middle_loop, hfast]
        rw [show (l.length - 1) / 2 = i by omega]
    · have hnone : l[2 * i + 1]? = none := List.getElem?_eq_none_iff.mpr (by omega)
      rw [hnone]
      simp only [middle_loop]
      rw [show (l.length - 1) / 2 = i by omega]

/-- The loop of `q_sort` walks to the last address of the chain. -/
theorem last_loop_spec {m : Heap} (l : List Nat) :
    ∀ (a : Nat) (fuel : Nat), isChain m (some a) (a :: l) → l.length < fuel →
      last_loop m (some a) fuel = .ok (a :: l).getLast? := by
  induction l with
  | nil =>
    intro a fuel hc hf
    obtain ⟨f, rfl⟩ : ∃ f, fuel = f + 1 := ⟨fuel - 1, by omega⟩
    obtain ⟨_, e, he, hn⟩ := hc
    rw [isChain_nil] at hn
    simp [last_loop, get_next_some he, hn]
  | cons b l ih =>
    intro a fuel hc hf
    obtain ⟨f, rfl⟩ : ∃ f, fuel = f + 1 := ⟨fuel - 1, by omega⟩
    obtain ⟨_, e, he, hn⟩ := hc
    have hb : e.next = some b := hn.1
    rw [hb] at hn
    simp only [last_loop, get_next_some he, hb]
    rw [ih b f hn (by simp at hf; omega)]
    simp [List.getLast?_cons_cons]

/-! ## `merge_sort` and `q_sort` -/

/-- The function `merge_sort` on a chain, with fuel above its length: it ends,
the result is the chain of the addresses in the order `msortL`, elements
outside the chain are not touched and no value changes. -/
theorem merge_sort_spec (v : Nat → List Nat) :
    ∀ (n : Nat) (l : List Nat) (m : Heap) (head : Option Nat) (fuel : Nat),
      l.length ≤ n → val m = v → isChain m head l → l.length < fuel →
      ∃ m1 h1, merge_sort m head fuel = .ok (m1, h1) ∧ isChain m1 h1 (msortL v l) ∧
        (∀ b, b ∉ l → m1 b = m b) ∧ sameValues m1 m := by
  intro n
  induction n with
  | zero =>
    intro l m head fuel hn _ hc hf
    have hl : l = [] := List.length_eq_zero.mp (by omega)
    subst hl
    rw [isChain_nil] at hc; subst hc
    obtain ⟨f, rfl⟩ : ∃ f, fuel = f + 1 := ⟨fuel - 1, by omega⟩
    exact ⟨m, none, rfl, by rw [msortL_short v (by simp)]; rfl, fun _ _ => rfl,
      sameValues_refl m⟩
  | succ n ih =>
    intro l m head fuel hn hv hc hf
    obtain ⟨f, rfl⟩ : ∃ f, fuel = f + 1 := ⟨fuel - 1, by omega⟩
    by_cases hshort : l.length < 2
    · rw [msortL_short v hshort]
      cases l with
      | nil =>
        rw [isChain_nil] at hc; subst hc
        exact ⟨m, none, rfl, rfl, fun _ _ => rfl, sameValues_refl m⟩
      | cons a l =>
        have hl : l = [] := List.length_eq_zero.mp (by simp at hshort; omega)
        subst hl
        have hc0 := hc
        obtain ⟨hh, e, he, hnx⟩ := hc
        rw [isChain_nil] at hnx
        subst hh
        refine ⟨m, some a, ?_, hc0, fun _ _ => rfl, sameValues_refl m⟩
        simp only [merge_sort, get_next_some he, hnx]
    · have hN : 2 ≤ l.length := by omega
      have hnd := isChain_nodup hc
      -- the first two addresses
      have hhead : head = l[0]? := by rw [isChain_head hc, List.head?_eq_getElem?]
      have h0 : (0 : Nat) < l.length := by omega
      have h1 : (1 : Nat) < l.length := by omega
      have hgn : get_next m head = .ok (some l[1]) := by
        rw [hhead, get_next_chain hc h0]
        exact congrArg _ (List.getElem?_eq_getElem h1)
      have hhs : head = some l[0] := by rw [hhead]; exact List.getElem?_eq_getElem h0
      -- the middle
      have hmid : middle_loop m head (some l[1]) f = .ok l[(l.length - 1) / 2]? := by
        have := middle_loop_spec hc f 0 (by omega) (by omega)
        rw [← hhead] at this
        rw [show 2 * 0 + 1 = 1 by rfl, List.getElem?_eq_getElem h1] at this
        exact this
      have hj : (l.length - 1) / 2 < l.length := by omega
      obtain ⟨es, hes, hnext, _⟩ := isChain_get hc (List.getElem?_eq_getElem hj)
      have hk : (l.length - 1) / 2 + 1 = (l.length + 1) / 2 := by omega
      rw [hk] at hnext
      have hsplit : l = l.take ((l.length - 1) / 2) ++
          l[(l.length - 1) / 2] :: l.drop ((l.length + 1) / 2) := by
        rw [← hk, ← List.drop_eq_getElem_cons hj, List.take_append_drop]
      have hcut := @isChain_cut m l[(l.length - 1) / 2] es
        (l.take ((l.length - 1) / 2)) head (l.drop ((l.length + 1) / 2))
        (by rw [← hsplit]; exact hc) hes
      obtain ⟨hcA, hcB⟩ := hcut
      have htake : l.take ((l.length - 1) / 2) ++ [l[(l.length - 1) / 2]]
          = l.take ((l.length + 1) / 2) := by
        rw [← hk, List.take_succ, List.getElem?_eq_getElem hj]; rfl
      rw [htake] at hcA
      -- the two halves are disjoint
      have hdisj : ∀ b ∈ l.take ((l.length + 1) / 2), b ∉ l.drop ((l.length + 1) / 2) := by
        intro b hb1 hb2
        have hnd2 := hnd
        rw [← List.take_append_drop ((l.length + 1) / 2) l] at hnd2
        exact (List.nodup_append.mp hnd2).2.2 hb1 hb2
      have hv1 : val (store m l[(l.length - 1) / 2] { es with next := none }) = v := by
        rw [val_store_next m hes]; exact hv
      -- first half
      obtain ⟨m2, p1, hrun1, hch1, hfr1, hsv1⟩ := ih (l.take ((l.length + 1) / 2)) _ head f
        (by rw [List.length_take]; omega) hv1 hcA (by rw [List.length_take]; omega)
      have hv2 : val m2 = v := by rw [sameValues_val hsv1]; exact hv1
      have hcB2 : isChain m2 es.next (l.drop ((l.length + 1) / 2)) :=
        isChain_frame (fun b hb => hfr1 b (fun h => hdisj b h hb)) hcB
      -- second half
      obtain ⟨m3, p2, hrun2, hch2, hfr2, hsv2⟩ := ih (l.drop ((l.length + 1) / 2)) m2 es.next f
        (by rw [List.length_drop]; omega) hv2 hcB2 (by rw [List.length_drop]; omega)
      have hv3 : val m3 = v := by rw [sameValues_val hsv2]; exact hv2
      have hpA := msortL_perm v _ (l.take ((l.length + 1) / 2)) (Nat.le_refl _)
      have hpB := msortL_perm v _ (l.drop ((l.length + 1) / 2)) (Nat.le_refl _)
      have hch1' : isChain m3 p1 (msortL v (l.take ((l.length + 1) / 2))) :=
        isChain_frame (fun b hb => hfr2 b (hdisj b (hpA.mem_iff.mp hb))) hch1
      -- the merge
      obtain ⟨m4, h4, hrun3, hch3, hfr3, hsv3⟩ := merge_spec v m3 p1 p2 _ _ f hv3 hch1' hch2
        (fun b hb hb2 => hdisj b (hpA.mem_iff.mp hb) (hpB.mem_iff.mp hb2))
        (Or.inl (by
          intro h
          have := hpA.length_eq
          rw [h, List.length_take] at this
          simp at this; omega))
        (by rw [hpA.length_eq, hpB.length_eq, List.length_take, List.length_drop]; omega)
      refine ⟨m4, h4, ?_, ?_, ?_, ?_⟩
      · simp only [merge_sort, hhs] at hgn hmid ⊢
        simp only [hgn, hmid, List.getElem?_eq_getElem hj, get_next_some hes, set_next_some hes]
        simp only [hhs] at hrun1
        simp only [hrun1, hrun2, hrun3]
      · rw [msortL_long v hshort]; exact hch3
      · intro b hb
        have hbA : b ∉ l.take ((l.length + 1) / 2) := fun h => hb (List.mem_of_mem_take h)
        have hbB : b ∉ l.drop ((l.length + 1) / 2) := fun h => hb (List.mem_of_mem_drop h)
        have hbs : b ≠ l[(l.length - 1) / 2] := fun h => hb (h ▸ List.getElem_mem hj)
        rw [hfr3 b (fun h => hbA (hpA.mem_iff.mp h)) (fun h => hbB (hpB.mem_iff.mp h)),
          hfr2 b hbB, hfr1 b hbA, store_other m _ hbs]
      · exact sameValues_trans hsv3 (sameValues_trans hsv2
          (sameValues_trans hsv1 (sameValues_store_next hes none)))

/-- The function `q_sort` on a queue with chain `l` from `head`, with fuel above
the length of the chain. -/
theorem q_sort_chain (m : Heap) (q : queue_t) (l : List Nat) (fuel : Nat)
    (hc : isChain m q.head l) (hf : l.length < fuel) :
    ∃ m1 q1, q_sort m (some q) fuel = .ok (m1, some q1) ∧
      isChain m1 q1.head (msortL (val m) l) ∧
      (2 ≤ l.length → q1.tail = (msortL (val m) l).getLast?) ∧
      (l.length < 2 → q1 = q ∧ m1 = m) ∧
      q1.size = q.size ∧ sameValues m1 m ∧ (∀ b, b ∉ l → m1 b = m b) := by
  by_cases hshort : l.length < 2
  · rw [msortL_short _ hshort]
    refine ⟨m, q, ?_, hc, fun h => by omega, fun _ => ⟨rfl, rfl⟩, rfl, sameValues_refl m,
      fun _ _ => rfl⟩
    cases l with
    | nil =>
      rw [isChain_nil] at hc
      simp [q_sort, hc]
    | cons a l =>
      have hl : l = [] := List.length_eq_zero.mp (by simp at hshort; omega)
      subst hl
      obtain ⟨hh, e, he, hnx⟩ := hc
      rw [isChain_nil] at hnx
      simp [q_sort, hh, get_next_some he, hnx]
  · have h0 : (0 : Nat) < l.length := by omega
    have h1 : (1 : Nat) < l.length := by omega
    have hhead : q.head = some l[0] := by
      rw [isChain_head hc, List.head?_eq_getElem?]; exact List.getElem?_eq_getElem h0
    have hgn : get_next m (some l[0]) = .ok (some l[1]) := by
      have := get_next_chain hc h0
      rw [List.getElem?_eq_getElem h0] at this
      rw [this]
      exact congrArg _ (List.getElem?_eq_getElem h1)
    obtain ⟨m1, p1, hrun, hch, hfr, hsv⟩ :=
      merge_sort_spec (val m) _ l m q.head fuel (Nat.le_refl _) rfl hc hf
    have hlen := (msortL_perm (val m) _ l (Nat.le_refl _)).length_eq
    obtain ⟨a, t, hat⟩ : ∃ a t, msortL (val m) l = a :: t := by
      cases hs : msortL (val m) l with
      | nil => rw [hs] at hlen; simp at hlen; omega
      | cons a t => exact ⟨a, t, rfl⟩
    rw [hat] at hch hlen ⊢
    have hp1 : p1 = some a := hch.1
    subst hp1
    have hlast := last_loop_spec t a fuel hch (by simp at hlen; omega)
    refine ⟨m1, { q with head := some a, tail := (a :: t).getLast? }, ?_, hch, fun _ => rfl,
      fun h => absurd h hshort, rfl, hsv, hfr⟩
    rw [hhead] at hrun
    simp only [q_sort, hhead, hgn, hrun, hlast]

/-- C6: on a queue with chain `l` from `head`, `q_sort` (with fuel above the
length of the chain) ends; the chain from `head` is then a list `l1` of the
same addresses, every address holds the value it held before, the values along
`l1` are non-decreasing for `strcmp` and are a permutation of the values along
`l`, and `size` is unchanged. -/
theorem q_sort_spec (m : Heap) (q : queue_t) (l : List Nat) (fuel : Nat)
    (hc : isChain m q.head l) (hf : l.length < fuel) :
    ∃ m1 q1 l1, q_sort m (some q) fuel = .ok (m1, some q1) ∧
      isChain m1 q1.head l1 ∧
      l1.Perm l ∧
      sameValues m1 m ∧
      (l1.map (val m1)).Pairwise (fun x y => strcmp x y ≤ 0) ∧
      (l1.map (val m1)).Perm (l.map (val m)) ∧
      q1.size = q.size := by
  obtain ⟨m1, q1, hrun, hch, _, _, hsz, hsv, _⟩ := q_sort_chain m q l fuel hc hf
  have hperm := msortL_perm (val m) _ l (Nat.le_refl _)
  refine ⟨m1, q1, _, hrun, hch, hperm, hsv, ?_, ?_, hsz⟩
  · rw [sameValues_val hsv, List.pairwise_map]
    exact msortL_sorted (val m) _ l (Nat.le_refl _)
  · rw [sameValues_val hsv]
    exact hperm.map _

/-- C6, at an instance: the chain `[2, 1]` with the values `"b"`, `"a"`. -/
theorem q_sort_spec_witness :
    (isChain mem2 queue2.head [2, 1] ∧ [2, 1].length < 3) ∧
    ∃ m1 q1 l1, q_sort mem2 (some queue2) 3 = .ok (m1, some q1) ∧
      isChain m1 q1.head l1 ∧
      l1.Perm [2, 1] ∧
      sameValues m1 mem2 ∧
      (l1.map (val m1)).Pairwise (fun x y => strcmp x y ≤ 0) ∧
      (l1.map (val m1)).Perm ([2, 1].map (val mem2)) ∧
      q1.size = queue2.size :=
  ⟨⟨⟨rfl, _, rfl, rfl, _, rfl, rfl⟩, by decide⟩,
   q_sort_spec mem2 queue2 [2, 1] 3 ⟨rfl, _, rfl, rfl, _, rfl, rfl⟩ (by decide)⟩

/-- C7 fails on the code: two elements with the value `"a"`, at the addresses
`1` and `2` in this order, come out of `q_sort` in the order `2`, `1`; and
`merge` on the two chains `[1]` and `[2]` with equal values returns the
element of the second chain as the head. -/
theorem q_sort_not_stable :
    ∃ st, run 10 init [.insert_tail (bytes "a") (some 1) true,
        .insert_tail (bytes "a") (some 2) true] = .ok ([true, true], st) ∧
      st.chain 10 = some [1, 2] ∧ val st.mem 1 = val st.mem 2 ∧
      (∃ st2, call 10 st .sort = .ok (true, st2) ∧ st2.chain 10 = some [2, 1]) ∧
      ∃ m1, merge memA_A (some 1) (some 2) 10 = .ok (m1, some 2) ∧
        chain_of m1 (some 2) 10 = some [2, 1] :=
  ⟨_, rfl, by decide, by decide, ⟨_, rfl, by decide⟩, _, rfl, by decide⟩

/-- C7, as the code has it: `q_sort` turns around the elements with equal
values.  On a queue with chain `l` from `head`, for every two addresses `x`,
`y` whose values compare equal with `x` in front of `y` in `l`, `y` is in
front of `x` in the chain after the call.  And `merge`, on two disjoint
chains whose heads compare equal, takes the head of the second chain. -/
theorem q_sort_reverses_equal (m : Heap) (q : queue_t) (l : List Nat) (fuel : Nat)
    (hc : isChain m q.head l) (hf : l.length < fuel) :
    (∃ m1 q1 l1, q_sort m (some q) fuel = .ok (m1, some q1) ∧ isChain m1 q1.head l1 ∧
      l1.Perm l ∧ sameValues m1 m ∧
      ∀ x y, [x, y].Sublist l → strcmp (val m x) (val m y) = 0 → [y, x].Sublist l1) ∧
    (∀ (p1 p2 : Option Nat) (a b : Nat) (A B : List Nat),
      isChain m p1 (a :: A) → isChain m p2 (b :: B) → (∀ c ∈ a :: A, c ∉ b :: B) →
      strcmp (val m a) (val m b) = 0 → A.length + B.length + 2 ≤ fuel →
      ∃ m1 rest, merge m p1 p2 fuel = .ok (m1, some b) ∧ isChain m1 (some b) (b :: rest) ∧
        rest.Perm (a :: A ++ B)) := by
  constructor
  · obtain ⟨m1, q1, hrun, hch, _, _, _, hsv, _⟩ := q_sort_chain m q l fuel hc hf
    exact ⟨m1, q1, _, hrun, hch, msortL_perm (val m) _ l (Nat.le_refl _), hsv,
      msortL_reverses_equal (val m) _ l (Nat.le_refl _)⟩
  · intro p1 p2 a b A B h1 h2 hdis heq hfuel
    obtain ⟨m1, h, hrun, hch, _, _⟩ := merge_spec (val m) m p1 p2 (a :: A) (b :: B) fuel rfl
      h1 h2 hdis (Or.inl (by simp)) (by simp; omega)
    rw [mergeL_cons_ge (val m) A B (by omega)] at hch
    have hh : h = some b := hch.1
    subst hh
    refine ⟨m1, _, hrun, hch, ?_⟩
    exact (mergeL_perm (val m) _ (a :: A) B (Nat.le_refl _))

/-- C7, at an instance: the chain `[1, 2]` with the value `"a"` twice is turned
around, and the merge of the chains `[1, 2]` and `[3]`, whose heads compare
equal, starts with `3`. -/
theorem q_sort_reverses_equal_witness :
    (isChain memAA queueAA.head [1, 2] ∧ [1, 2].length < 4) ∧
    ((∃ m1 q1 l1, q_sort memAA (some queueAA) 4 = .ok (m1, some q1) ∧ isChain m1 q1.head l1 ∧
      l1.Perm [1, 2] ∧ sameValues m1 memAA ∧
      ∀ x y, [x, y].Sublist [1, 2] → strcmp (val memAA x) (val memAA y) = 0 →
        [y, x].Sublist l1) ∧
    (∀ (p1 p2 : Option Nat) (a b : Nat) (A B : List Nat),
      isChain memAA p1 (a :: A) → isChain memAA p2 (b :: B) → (∀ c ∈ a :: A, c ∉ b :: B) →
      strcmp (val memAA a) (val memAA b) = 0 → A.length + B.length + 2 ≤ 4 →
      ∃ m1 rest, merge memAA p1 p2 4 = .ok (m1, some b) ∧ isChain m1 (some b) (b :: rest) ∧
        rest.Perm (a :: A ++ B))) ∧
    ∃ m1 rest, merge memAA (some 1) (some 3) 4 = .ok (m1, some 3) ∧
      isChain m1 (some 3) (3 :: rest) ∧ rest.Perm (1 :: [2] ++ []) :=
  ⟨⟨⟨rfl, _, rfl, rfl, _, rfl, rfl⟩, by decide⟩,
   q_sort_reverses_equal memAA queueAA [1, 2] 4 ⟨rfl, _, rfl, rfl, _, rfl, rfl⟩ (by decide),
   (q_sort_reverses_equal memAA queueAA [1, 2] 4 ⟨rfl, _, rfl, rfl, _, rfl, rfl⟩ (by decide)).2
     (some 1) (some 3) 1 3 [2] [] ⟨rfl, _, rfl, rfl, _, rfl, rfl⟩ ⟨rfl, _, rfl, rfl⟩
     (by decide) (by decide) (by decide)⟩

/-! ## The invariant under the functions -/

/-- Linking a chain behind the last element of another one. -/
theorem isChain_link {m : Heap} {t : Nat} {et : list_ele_t} {r : List Nat} {nx : Option Nat}
    (l1 : List Nat) :
    ∀ {p : Option Nat}, isChain m p (l1 ++ [t]) → m t = some et →
      isChain m nx r → (∀ x ∈ r, x ∉ l1 ++ [t]) →
      isChain (store m t { et with next := nx }) p (l1 ++ t :: r) := by
  induction l1 with
  | nil =>
    intro p hc ht hr hdis
    obtain ⟨hp, _, _, _⟩ := hc
    refine ⟨hp, _, store_same _ _ _, ?_⟩
    exact isChain_frame (fun x hx => store_other m _ (fun h => hdis x hx (by simp [h]))) hr
  | cons b l1 ih =>
    intro p hc ht hr hdis
    have hnd := isChain_nodup hc
    obtain ⟨hp, e, he, hc2⟩ := hc
    have hbt : b ≠ t := by
      intro h
      have := (List.nodup_cons.mp hnd).1
      apply this; subst h; simp
    refine ⟨hp, e, by rw [store_other m _ hbt]; exact he, ?_⟩
    exact ih hc2 ht hr (fun x hx h => hdis x hx (List.mem_cons_of_mem _ h))

/-- On a queue that satisfies the invariant and holds fewer than `2 ^ 31 - 1`
elements, a `q_insert_tail` whose two allocations succeed appends the new
element to the chain and keeps the invariant. -/
theorem q_insert_tail_spec (m : Heap) (q : queue_t) (s : List Nat) (a : Nat) (l : List Nat)
    (hc : isChain m q.head l) (hinv : Inv m q) (hfresh : m a = none)
    (hb : q.size < 2 ^ 31 - 1) :
    ∃ m1 q1, q_insert_tail m (some q) s (some a) true = .ok (true, m1, some q1) ∧
      isChain m1 q1.head (l ++ [a]) ∧
      (l ++ [a]).map (val m1) = l.map (val m) ++ [cstr s ++ [0]] ∧
      q1.head = (if l = [] then some a else q.head) ∧
      q1.tail = some a ∧ q1.size = q.size + 1 ∧ Inv m1 q1 := by
  obtain ⟨ht, hs⟩ := Inv_chain hc hinv
  have hsz : int32 (q.size + 1) = q.size + 1 := int32_eq (by have := hinv.1; omega) (by omega)
  have hal : a ∉ l := by
    intro h
    obtain ⟨e, he⟩ := isChain_live hc a h
    rw [hfresh] at he
    exact absurd he (by simp)
  rcases List.eq_nil_or_concat l with hl | ⟨l1, t, hl⟩
  · subst hl
    rw [isChain_nil] at hc
    have htn : q.tail = none := by simpa using ht
    have hch : isChain (store m a { value := cstr s ++ [0], next := none }) (some a) [a] :=
      ⟨rfl, _, store_same _ _ _, rfl⟩
    refine ⟨store m a { value := cstr s ++ [0], next := none },
      { head := some a, tail := some a, size := int32 (q.size + 1) }, ?_, hch, ?_, rfl, rfl,
      hsz, ?_⟩
    · simp [q_insert_tail, copy_in, htn, hc]
    · simp [val, store]
    · exact chain_Inv hch rfl (by show int32 (q.size + 1) = _; rw [hsz, hs]; simp)
  · rw [List.concat_eq_append] at hl
    subst hl
    have htt : q.tail = some t := by rw [ht]; simp
    have hta : t ≠ a := fun h => hal (by simp [h])
    obtain ⟨et, het⟩ := isChain_live hc t (by simp)
    have hhd : q.head ≠ none := by
      rw [isChain_head hc]; cases l1 <;> simp
    have hm1t : store m a { value := cstr s ++ [0], next := none } t = some et := by
      rw [store_other m _ hta]; exact het
    have hc1 : isChain (store m a { value := cstr s ++ [0], next := none }) q.head (l1 ++ [t]) :=
      isChain_frame (fun x hx => store_other m _ (fun h => hal (h ▸ hx))) hc
    have hca : isChain (store m a { value := cstr s ++ [0], next := none }) (some a) [a] :=
      ⟨rfl, _, store_same _ _ _, rfl⟩
    have hch := isChain_link l1 hc1 hm1t hca
      (fun x hx h => hal (by rw [List.mem_singleton.mp hx] at h; exact h))
    have happ : l1 ++ t :: [a] = l1 ++ [t] ++ [a] := by simp
    rw [happ] at hch
    refine ⟨_, { head := q.head, tail := some a, size := int32 (q.size + 1) }, ?_, hch, ?_, ?_,
      rfl, hsz, ?_⟩
    · simp only [q_insert_tail, copy_in, htt, set_next_some hm1t]
      simp [hhd]
    · have hv : val (store (store m a { value := cstr s ++ [0], next := none }) t
          { et with next := some a }) = val (store m a { value := cstr s ++ [0], next := none }) :=
        val_store_next _ hm1t _
      have hfr : ∀ x ∈ l1 ++ [t], store m a { value := cstr s ++ [0], next := none } x = m x :=
        fun x hx => store_other m _ (fun h => hal (h ▸ hx))
      rw [hv, List.map_append, map_val_frame hfr]
      simp [val, store]
    · simp
    · exact chain_Inv hch (by simp) (by
        show int32 (q.size + 1) = _
        rw [hsz, hs]
        simp only [List.length_append, List.length_singleton]
        push_cast
        ring)

/-- Removing the head of a queue of two elements or more (its size an `int`)
keeps the invariant. -/
theorem q_remove_head_Inv (m : Heap) (q : queue_t) (a b : Nat) (l : List Nat)
    (hc : isChain m q.head (a :: b :: l)) (hinv : Inv m q) (hb : q.size < 2 ^ 31) :
    ∃ m1 q1, q_remove_head m (some q) none 0 = .ok (true, m1, some q1, none) ∧
      isChain m1 q1.head (b :: l) ∧ Inv m1 q1 := by
  obtain ⟨ht, hs⟩ := Inv_chain hc hinv
  have hnd := isChain_nodup hc
  obtain ⟨hh, e, he, hl⟩ := hc
  have hal : a ∉ b :: l := (List.nodup_cons.mp hnd).1
  have hch : isChain (free m a) e.next (b :: l) :=
    isChain_frame (fun x hx => free_other m (fun h => hal (h ▸ hx))) hl
  refine ⟨_, _, q_remove_head_ok m q a e hh he, hch, chain_Inv hch ?_ ?_⟩
  · show q.tail = (b :: l).getLast?
    rw [ht, List.getLast?_cons_cons]
  · show int32 (q.size - 1) = ((b :: l).length : Int)
    rw [int32_eq (by have := hinv.1; omega) (by omega), hs]; simp

/-- Removing the only element of a queue loses the invariant: `tail` keeps the
released address. -/
theorem q_remove_head_last (m : Heap) (q : queue_t) (a : Nat)
    (hc : isChain m q.head [a]) (hinv : Inv m q) :
    ∃ m1 q1, q_remove_head m (some q) none 0 = .ok (true, m1, some q1, none) ∧
      q1.head = none ∧ q1.tail = some a ∧ m1 a = none ∧ ¬ Inv m1 q1 := by
  obtain ⟨ht, _⟩ := Inv_chain hc hinv
  obtain ⟨hh, e, he, hl⟩ := hc
  rw [isChain_nil] at hl
  refine ⟨_, _, q_remove_head_ok m q a e hh he, hl, by simpa using ht, free_same m a, ?_⟩
  intro h
  have h2 := h.2.2.1
  have : q.tail = none := h2.mp hl
  rw [ht] at this
  simp at this

/-- The function `q_sort` keeps the invariant. -/
theorem q_sort_Inv (m : Heap) (q : queue_t) (l : List Nat) (fuel : Nat)
    (hc : isChain m q.head l) (hinv : Inv m q) (hf : l.length < fuel) :
    ∃ m1 q1, q_sort m (some q) fuel = .ok (m1, some q1) ∧ Inv m1 q1 := by
  obtain ⟨ht, hs⟩ := Inv_chain hc hinv
  obtain ⟨m1, q1, hrun, hch, htl, hsame, hsz, _, _⟩ := q_sort_chain m q l fuel hc hf
  refine ⟨m1, q1, hrun, ?_⟩
  by_cases h2 : l.length < 2
  · obtain ⟨hq, hm⟩ := hsame h2
    rw [hq, hm]; exact hinv
  · refine chain_Inv hch (htl (by omega)) ?_
    rw [hsz, hs, (msortL_perm (val m) _ l (Nat.le_refl _)).length_eq]

/-! ## Failure and degenerate cases -/

theorem q_remove_head_spec_none (m : Heap) (q : queue_t) (h : Nat) (e : list_ele_t)
    (bufsize : Nat) (hh : q.head = some h) (he : m h = some e) :
    q_remove_head m (some q) none bufsize =
      .ok (true, free m h, some { q with head := e.next, size := int32 (q.size - 1) },
        none) := by
  simp [q_remove_head, hh, load, he]

/-- C11: `q_remove_head` returns `false` and leaves the heap, the queue and the
buffer as they are when the queue pointer is `NULL` or `head` is `NULL`; it
returns `true` when `head` is a live element (the buffer, if there is one,
having the announced capacity of at least one byte); on the queue that `q_new`
returns it answers `false` and the size stays `0`. -/
theorem q_remove_head_guard (m : Heap) (q : Option queue_t) (sp : Option (List Nat))
    (bufsize : Nat) :
    ((q = none ∨ ∃ q0, q = some q0 ∧ q0.head = none) →
      q_remove_head m q sp bufsize = .ok (false, m, q, sp)) ∧
    (∀ q0 h e, q = some q0 → q0.head = some h → m h = some e →
      (∀ buf, sp = some buf → 1 ≤ bufsize ∧ bufsize < 2 ^ 64 ∧ bufsize ≤ buf.length) →
      ∃ m1 q1 sp1, q_remove_head m q sp bufsize = .ok (true, m1, q1, sp1)) ∧
    (q_remove_head m (q_new true) sp bufsize = .ok (false, m, q_new true, sp) ∧
      q_size (q_new true) = 0) := by
  refine ⟨?_, ?_, ?_, rfl⟩
  · rintro (h | ⟨q0, h, hh⟩)
    · subst h; rfl
    · subst h; simp [q_remove_head, hh]
  · intro q0 h e hq hh he hsp
    subst hq
    cases sp with
    | none => exact ⟨_, _, _, q_remove_head_spec_none m q0 h e bufsize hh he⟩
    | some buf =>
      obtain ⟨h1, h2, h3⟩ := hsp buf rfl
      have hrun := q_remove_head_buf m q0 h e buf bufsize hh he
      rw [copy_out_spec buf e.value bufsize h1 h2 h3] at hrun
      exact ⟨_, _, _, hrun⟩
  · rfl

/-- C11, at instances: the absent queue, the empty queue met after `q_new`, and
the queue that holds `"a"`. -/
theorem q_remove_head_guard_witness :
    q_remove_head mem1 none (some [7, 7]) 2 = .ok (false, mem1, none, some [7, 7]) ∧
    q_remove_head emptyHeap (q_new true) (some [7, 7]) 2
      = .ok (false, emptyHeap, q_new true, some [7, 7]) ∧
    ∃ m1 q1 sp1, q_remove_head mem1 (some queue1) (some [7, 7]) 2 = .ok (true, m1, q1, sp1) :=
  ⟨(q_remove_head_guard mem1 none (some [7, 7]) 2).1 (Or.inl rfl),
   (q_remove_head_guard emptyHeap (q_new true) (some [7, 7]) 2).1
     (Or.inr ⟨_, rfl, rfl⟩),
   (q_remove_head_guard mem1 (some queue1) (some [7, 7]) 2).2.1 queue1 1 _ rfl rfl rfl
     (fun buf h => by
       have hb : buf = [7, 7] := (Option.some.inj h).symm
       subst hb
       exact ⟨by decide, by decide, by decide⟩)⟩

/-- C12: an insertion that fails changes nothing.  For `q_insert_head` and
`q_insert_tail` alike, when the queue pointer is `NULL`, or the allocation of
the element fails, or the allocation of the value fails, the call returns
`false` with the heap and the queue as they were.  When both allocations
succeed on a queue, `q_insert_head` returns `true`, and so does
`q_insert_tail` if `tail` is `NULL` or a live element. -/
theorem insert_failure_atomic (m : Heap) (q : Option queue_t) (s : List Nat)
    (newp : Option Nat) (val : Bool) :
    ((q = none ∨ newp = none ∨ val = false) →
      q_insert_head m q s newp val = .ok (false, m, q) ∧
      q_insert_tail m q s newp val = .ok (false, m, q)) ∧
    (∀ q0 a, q = some q0 → newp = some a → val = true →
      (∃ m1 q1, q_insert_head m q s newp val = .ok (true, m1, some q1)) ∧
      ((q0.tail = none ∨ ∃ t e, q0.tail = some t ∧ m t = some e) →
        ∃ m1 q1, q_insert_tail m q s newp val = .ok (true, m1, some q1))) := by
  constructor
  · intro h
    cases q with
    | none => exact ⟨rfl, rfl⟩
    | some q0 =>
      cases newp with
      | none => exact ⟨rfl, rfl⟩
      | some a =>
        rcases h with h | h | h
        · exact absurd h (by simp)
        · exact absurd h (by simp)
        · subst h
          exact ⟨by simp [q_insert_head], by simp [q_insert_tail]⟩
  · intro q0 a hq hp hv
    subst hq; subst hp; subst hv
    refine ⟨⟨_, _, q_insert_head_ok m q0 s a⟩, ?_⟩
    rintro (ht | ⟨t, e, ht, he⟩)
    · by_cases hh : q0.head = none
      · exact ⟨_, _, by simp [q_insert_tail, copy_in, ht, hh]; exact ⟨rfl, rfl⟩⟩
      · exact ⟨_, _, by simp [q_insert_tail, copy_in, ht, hh]; exact ⟨rfl, rfl⟩⟩
    · by_cases hta : t = a
      · subst hta
        have h1 : store m t { value := cstr s ++ [0], next := none } t
            = some { value := cstr s ++ [0], next := none } := store_same _ _ _
        by_cases hh : q0.head = none
        · exact ⟨_, _, by
            simp only [q_insert_tail, copy_in, ht, set_next_some h1]
            simp [hh]; exact ⟨rfl, rfl⟩⟩
        · exact ⟨_, _, by
            simp only [q_insert_tail, copy_in, ht, set_next_some h1]
            simp [hh]; exact ⟨rfl, rfl⟩⟩
      · have h1 : store m a { value := cstr s ++ [0], next := none } t = some e := by
          rw [store_other m _ hta]; exact he
        by_cases hh : q0.head = none
        · exact ⟨_, _, by
            simp only [q_insert_tail, copy_in, ht, set_next_some h1]
            simp [hh]; exact ⟨rfl, rfl⟩⟩
        · exact ⟨_, _, by
            simp only [q_insert_tail, copy_in, ht, set_next_some h1]
            simp [hh]; exact ⟨rfl, rfl⟩⟩

/-- C12, at instances: on the queue that holds `"a"`, a failed allocation of the
element, a failed allocation of the value, and an insertion of `"b"` at the
address `2` at either end. -/
theorem insert_failure_atomic_witness :
    (q_insert_head mem1 (some queue1) [98] none true = .ok (false, mem1, some queue1) ∧
      q_insert_tail mem1 (some queue1) [98] none true = .ok (false, mem1, some queue1)) ∧
    (q_insert_head mem1 (some queue1) [98] (some 2) false = .ok (false, mem1, some queue1) ∧
      q_insert_tail mem1 (some queue1) [98] (some 2) false = .ok (false, mem1, some queue1)) ∧
    (q_insert_head mem1 none [98] (some 2) true = .ok (false, mem1, none) ∧
      q_insert_tail mem1 none [98] (some 2) true = .ok (false, mem1, none)) ∧
    (∃ m1 q1, q_insert_head mem1 (some queue1) [98] (some 2) true = .ok (true, m1, some q1)) ∧
    (∃ m1 q1, q_insert_tail mem1 (some queue1) [98] (some 2) true = .ok (true, m1, some q1)) :=
  ⟨(insert_failure_atomic mem1 (some queue1) [98] none true).1 (Or.inr (Or.inl rfl)),
   (insert_failure_atomic mem1 (some queue1) [98] (some 2) false).1 (Or.inr (Or.inr rfl)),
   (insert_failure_atomic mem1 none [98] (some 2) true).1 (Or.inl rfl),
   ((insert_failure_atomic mem1 (some queue1) [98] (some 2) true).2 queue1 2 rfl rfl rfl).1,
   ((insert_failure_atomic mem1 (some queue1) [98] (some 2) true).2 queue1 2 rfl rfl rfl).2
     (Or.inr ⟨1, _, rfl, rfl⟩)⟩

/-- C16: `q_size` is `0` for `NULL` and the field `size` otherwise; `q_reverse`
returns the heap and the queue as they are for `NULL` and for a queue whose
`head` is `NULL`; `q_sort` returns the heap and the queue as they are for
`NULL`, for a queue whose `head` is `NULL`, and for a queue of one element
(`head->next` is `NULL`).  No fuel is needed in these cases. -/
theorem degenerate_queues (m : Heap) (q : queue_t) (fuel : Nat) :
    q_size none = 0 ∧ q_size (some q) = q.size ∧
    q_reverse m none fuel = .ok (m, none) ∧
    (q.head = none → q_reverse m (some q) fuel = .ok (m, some q)) ∧
    q_sort m none fuel = .ok (m, none) ∧
    (q.head = none → q_sort m (some q) fuel = .ok (m, some q)) ∧
    (∀ h e, q.head = some h → m h = some e → e.next = none →
      q_sort m (some q) fuel = .ok (m, some q)) := by
  refine ⟨rfl, rfl, rfl, ?_, rfl, ?_, ?_⟩
  · intro h; simp [q_reverse, h]
  · intro h; simp [q_sort, h]
  · intro h e hh he hn
    simp [q_sort, hh, get_next_some he, hn]

/-- C16, at instances: the empty queue of `q_new` and the queue that holds
`"a"`, with no fuel at all. -/
theorem degenerate_queues_witness :
    q_reverse emptyHeap (q_new true) 0 = .ok (emptyHeap, q_new true) ∧
    q_sort emptyHeap (q_new true) 0 = .ok (emptyHeap, q_new true) ∧
    q_sort mem1 (some queue1) 0 = .ok (mem1, some queue1) :=
  ⟨(degenerate_queues emptyHeap ⟨none, none, 0⟩ 0).2.2.2.1 rfl,
   (degenerate_queues emptyHeap ⟨none, none, 0⟩ 0).2.2.2.2.2.1 rfl,
   (degenerate_queues mem1 queue1 0).2.2.2.2.2.2 1 _ rfl rfl rfl⟩

/-! ## Reversing twice -/

/-- Two heaps that hold the same chain with the same values agree on it. -/
theorem isChain_ext {m1 m2 : Heap} {l : List Nat} :
    ∀ {p : Option Nat}, isChain m1 p l → isChain m2 p l → sameValues m1 m2 →
      ∀ b ∈ l, m1 b = m2 b := by
  induction l with
  | nil => intro p _ _ _ b hb; simp at hb
  | cons a l ih =>
    intro p h1 h2 hsv b hb
    have hnd := isChain_nodup h1
    obtain ⟨_, e1, he1, hc1⟩ := h1
    obtain ⟨_, e2, he2, hc2⟩ := h2
    have hn : e1.next = e2.next := by
      rw [isChain_head hc1, isChain_head hc2]
    rcases List.mem_cons.mp hb with h | h
    · subst h
      have hv := hsv b
      rw [he1, he2] at hv
      simp at hv
      rw [he1, he2]
      cases e1; cases e2
      simp at hv hn
      simp [hv, hn]
    · rw [hn] at hc1
      exact ih hc1 hc2 hsv b h

/-- C14: `q_reverse` twice is the identity.  For `NULL` nothing happens; on a
queue that satisfies the structural invariant, empty or not, with chain `l`
from `head` and fuel for its length, the two calls end, the heap is the one
before (same elements, same values, same links), so that the chain from `head`
is `l` again with the same values, `head` and `tail` are the ones before, and
`size` is unchanged by the first call and by the second. -/
theorem q_reverse_involution (m : Heap) (q : queue_t) (l : List Nat) (fuel : Nat)
    (hc : isChain m q.head l) (hinv : Inv m q) (hf : l.length ≤ fuel) :
    q_reverse m none fuel = .ok (m, none) ∧
    ∃ m1 q1 m2 q2, q_reverse m (some q) fuel = .ok (m1, some q1) ∧
      q_reverse m1 (some q1) fuel = .ok (m2, some q2) ∧
      isChain m2 q2.head l ∧ l.map (val m2) = l.map (val m) ∧
      (∀ b, m2 b = m b) ∧
      q2.head = q.head ∧ q2.tail = q.tail ∧ q1.size = q.size ∧ q2.size = q.size := by
  refine ⟨rfl, ?_⟩
  obtain ⟨ht, _⟩ := Inv_chain hc hinv
  by_cases hne : l = []
  · subst hne
    rw [isChain_nil] at hc
    have hrun : q_reverse m (some q) fuel = .ok (m, some q) := by simp [q_reverse, hc]
    exact ⟨m, q, m, q, hrun, hrun, by rw [hc]; rfl, rfl, fun _ => rfl, rfl, rfl, rfl, rfl⟩
  · obtain ⟨m1, h1, hrun1, hch1, hfr1, hsv1⟩ := q_reverse_chain m q l fuel hc hne hf
    have hne2 : l.reverse ≠ [] := by simpa using hne
    obtain ⟨m2, h2, hrun2, hch2, hfr2, hsv2⟩ :=
      q_reverse_chain m1 { q with tail := q.head, head := h1 } l.reverse fuel hch1 hne2
        (by simpa using hf)
    rw [List.reverse_reverse] at hch2
    have hsv : sameValues m2 m := sameValues_trans hsv2 hsv1
    have hh2 : h2 = q.head := by rw [isChain_head hch2, isChain_head hc]
    have hh1 : h1 = q.tail := by rw [isChain_head hch1, ht, List.head?_reverse]
    rw [hh2] at hch2
    refine ⟨m1, _, m2, _, hrun1, hrun2, by rw [hh2]; exact hch2, ?_, ?_, hh2, hh1, rfl, rfl⟩
    · rw [sameValues_val hsv]
    · intro b
      by_cases hb : b ∈ l
      · exact isChain_ext hch2 hc hsv b hb
      · rw [hfr2 b (by simpa using hb), hfr1 b hb]

/-- C14, at an instance: the chain `[2, 1]` with the values `"b"`, `"a"`. -/
theorem q_reverse_involution_witness :
    (isChain mem2 queue2.head [2, 1] ∧ Inv mem2 queue2 ∧ [2, 1].length ≤ 2) ∧
    q_reverse mem2 none 2 = .ok (mem2, none) ∧
    ∃ m1 q1 m2 q2, q_reverse mem2 (some queue2) 2 = .ok (m1, some q1) ∧
      q_reverse m1 (some q1) 2 = .ok (m2, some q2) ∧
      isChain m2 q2.head [2, 1] ∧ [2, 1].map (val m2) = [2, 1].map (val mem2) ∧
      (∀ b, m2 b = mem2 b) ∧
      q2.head = queue2.head ∧ q2.tail = queue2.tail ∧ q1.size = queue2.size ∧
      q2.size = queue2.size :=
  ⟨⟨⟨rfl, _, rfl, rfl, _, rfl, rfl⟩,
     chain_Inv (l := [2, 1]) ⟨rfl, _, rfl, rfl, _, rfl, rfl⟩ rfl rfl, by decide⟩,
   q_reverse_involution mem2 queue2 [2, 1] 2 ⟨rfl, _, rfl, rfl, _, rfl, rfl⟩
     (chain_Inv (l := [2, 1]) ⟨rfl, _, rfl, rfl, _, rfl, rfl⟩ rfl rfl) (by decide)⟩

/-! ## Round trip and a scenario -/

theorem cstr_stored (s : List Nat) : cstr (cstr s ++ [0]) = cstr s :=
  cstr_append_zero (cstr s) [] (cstr_no_zero s)

theorem strlen_stored (s : List Nat) : strlen (cstr s ++ [0]) = strlen s := by
  rw [← cstr_length, cstr_stored, cstr_length]

/-- A round trip through the queue that `q_new` returns: `q_insert_tail` of a
string `s` (both allocations succeed, the element at the fresh address `a`)
followed by `q_remove_head` with a buffer of capacity `c` (at least one byte).
Both calls return `true`, the queue holds one element in between, the buffer
then holds the first `min (strlen s) (c - 1)` bytes of `s` and a terminator,
which is `s` itself when `strlen s + 1 ≤ c`; afterwards `head` is `NULL`,
`size` is `0` and the heap is the one before, but `tail` keeps the released
address: the invariant is lost and the queue is not the empty queue it was. -/
theorem round_trip (m : Heap) (s buf : List Nat) (a c : Nat) (hfresh : m a = none)
    (h1 : 1 ≤ c) (h2 : c < 2 ^ 64) (h3 : buf.length = c) :
    ∃ m1 q1 m2 q2 out,
      q_insert_tail m (q_new true) s (some a) true = .ok (true, m1, some q1) ∧
      q1.size = 1 ∧ isChain m1 q1.head [a] ∧
      q_remove_head m1 (some q1) (some buf) c = .ok (true, m2, some q2, some out) ∧
      out.take (min (strlen s) (c - 1) + 1) = (cstr s).take (min (strlen s) (c - 1)) ++ [0] ∧
      cstr out = (cstr s).take (min (strlen s) (c - 1)) ∧
      (strlen s + 1 ≤ c → cstr out = cstr s ∧ out.take (strlen s + 1) = cstr s ++ [0]) ∧
      q2.head = none ∧ q2.size = 0 ∧ q_size (some q2) = 0 ∧ (∀ b, m2 b = m b) ∧
      q2.tail = some a ∧ ¬ Inv m2 q2 := by
  have h32 : int32 1 = 1 := by decide
  have h30 : int32 (1 - 1) = 0 := by decide
  have hins : q_insert_tail m (q_new true) s (some a) true
      = .ok (true, store m a { value := cstr s ++ [0], next := none },
          some { head := some a, tail := some a, size := 1 }) := by
    simp [q_insert_tail, copy_in, q_new, h32]
  have he : store m a { value := cstr s ++ [0], next := none } a
      = some { value := cstr s ++ [0], next := none } := store_same _ _ _
  have hrun := q_remove_head_buf (store m a { value := cstr s ++ [0], next := none })
    { head := some a, tail := some a, size := 1 } a _ buf c rfl he
  rw [copy_out_spec buf _ c h1 h2 (by omega)] at hrun
  simp only [strlen_stored, cstr_stored, h30] at hrun
  have hz : (0 : Nat) ∉ (cstr s).take (min (strlen s) (c - 1)) :=
    fun h0 => cstr_no_zero _ (List.mem_of_mem_take h0)
  have hlen : ((cstr s).take (min (strlen s) (c - 1))).length = min (strlen s) (c - 1) := by
    rw [List.length_take, cstr_length]; omega
  have htake : ((cstr s).take (min (strlen s) (c - 1)) ++
      0 :: buf.drop (min (strlen s) (c - 1) + 1)).take (min (strlen s) (c - 1) + 1)
      = (cstr s).take (min (strlen s) (c - 1)) ++ [0] := by
    rw [List.take_append_eq_append_take, hlen, List.take_of_length_le (by rw [hlen]; omega)]
    simp
  refine ⟨_, _, _, _, _, hins, rfl, ⟨rfl, _, he, rfl⟩, hrun, htake,
    cstr_append_zero _ _ hz, ?_, rfl, rfl, rfl, ?_, rfl, ?_⟩
  · intro hle
    have hmin : min (strlen s) (c - 1) = strlen s := by omega
    have hfull : (cstr s).take (strlen s) = cstr s :=
      List.take_of_length_le (by rw [cstr_length])
    rw [hmin] at htake
    rw [cstr_append_zero _ _ hz, hmin, hfull]
    rw [hfull] at htake
    exact ⟨rfl, htake⟩
  · intro b
    by_cases hb : b = a
    · subst hb; rw [free_same, hfresh]
    · rw [free_other _ hb, store_other _ _ hb]
  · intro h
    have := h.2.2.1.mp rfl
    simp at this

/-- C17 fails on the code: `q_insert_tail("abc")` on the queue of `q_new` and
`q_remove_head` with a buffer of four bytes return `true` and the buffer holds
`"abc"`, but the queue is not empty again as it was: `head` is `NULL` and
`size` is `0` while `tail` still is the released address, the invariant does
not hold, and a second `q_insert_tail` writes through the released `tail`
(with a new address) or links the element to itself (with the released
address again). -/
theorem round_trip_not_empty :
    ∃ m1 q1 m2 q2,
      q_insert_tail emptyHeap (q_new true) (bytes "abc") (some 1) true
        = .ok (true, m1, some q1) ∧
      q_remove_head m1 (some q1) (some [7, 7, 7, 7]) 4
        = .ok (true, m2, some q2, some (bytes "abc" ++ [0])) ∧
      q2.head = none ∧ q2.size = 0 ∧ q2.tail = some 1 ∧ m2 1 = none ∧
      some q2 ≠ q_new true ∧ ¬ Inv m2 q2 ∧
      q_insert_tail m2 (some q2) (bytes "abc") (some 2) true = .error .badptr ∧
      ∃ m3 q3, q_insert_tail m2 (some q2) (bytes "abc") (some 1) true
          = .ok (true, m3, some q3) ∧
        m3 1 = some ⟨bytes "abc" ++ [0], some 1⟩ ∧ q3.head = some 1 ∧
        ∀ l, ¬ isChain m3 q3.head l := by
  refine ⟨_, _, _, _, rfl, rfl, rfl, rfl, rfl, rfl, by decide, ?_, rfl, _, _, rfl, rfl, rfl, ?_⟩
  · intro h
    have := h.2.2.1.mp rfl
    simp at this
  · intro l
    exact not_isChain_self (a := 1) (e := ⟨bytes "abc" ++ [0], some 1⟩) (by rfl) rfl l

/-- C18: from `q_new()`, `q_insert_tail("banana")`, `q_insert_tail("apple")`
and `q_insert_head("cherry")` give the chain cherry, banana, apple with size
`3`; `q_sort` gives apple, banana, cherry; `q_reverse` gives cherry, banana,
apple; `q_remove_head` with a buffer of sixteen bytes returns `true` with
`"cherry"` in the buffer and leaves the chain banana, apple with size `2` and
`tail` at the element that holds `"apple"`. -/
theorem scenario :
    ∃ st1, run 10 init [.insert_tail (bytes "banana") (some 1) true,
        .insert_tail (bytes "apple") (some 2) true,
        .insert_head (bytes "cherry") (some 3) true] = .ok ([true, true, true], st1) ∧
      st1.values 10 = some [bytes "cherry", bytes "banana", bytes "apple"] ∧
      q_size st1.q = 3 ∧
      ∃ st2, call 10 st1 .sort = .ok (true, st2) ∧
        st2.values 10 = some [bytes "apple", bytes "banana", bytes "cherry"] ∧
        ∃ st3, call 10 st2 .reverse = .ok (true, st3) ∧
          st3.values 10 = some [bytes "cherry", bytes "banana", bytes "apple"] ∧
          ∃ m q out, q_remove_head st3.mem st3.q (some (List.replicate 16 7)) 16
              = .ok (true, m, some q, some out) ∧
            cstr out = bytes "cherry" ∧
            State.values { mem := m, q := some q } 10 = some [bytes "banana", bytes "apple"] ∧
            q_size (some q) = 2 ∧ q.tail = some 2 ∧ cstr (val m 2) = bytes "apple" :=
  ⟨_, rfl, by decide, by decide, _, rfl, by decide, _, rfl, by decide, _, _, _, rfl,
    by decide, by decide, by decide, by decide, by decide⟩

/-! ## Sorting twice -/

theorem cstr_idem (a : List Nat) : cstr (cstr a) = cstr a := by
  induction a with
  | nil => rfl
  | cons c s ih =>
    by_cases h : c = 0
    · simp [cstr, h]
    · simp [cstr, h, ih]

theorem strcmp_cstr : ∀ a b : List Nat, strcmp (cstr a) (cstr b) = strcmp a b
  | [], [] => by simp [cstr]
  | [], b :: t => by
    by_cases hb : b = 0
    · simp [cstr, strcmp, hb]
    · simp [cstr, strcmp, hb]
  | a :: s, [] => by
    by_cases ha : a = 0
    · simp [cstr, strcmp, ha]
    · simp [cstr, strcmp, ha]
  | a :: s, b :: t => by
    by_cases ha : a = 0
    · by_cases hb : b = 0
      · simp [cstr, strcmp, ha, hb]
      · have hb2 : ¬ 0 = b := fun h => hb h.symm
        simp [cstr, strcmp, ha, hb, hb2]
    · by_cases hb : b = 0
      · simp [cstr, strcmp, ha, hb]
      · by_cases hab : a = b
        · subst hab
          simp [cstr, strcmp, ha, strcmp_cstr s t]
        · simp [cstr, strcmp, ha, hb, hab]

theorem strcmp_zero_cstr : ∀ a b : List Nat, strcmp a b = 0 → cstr a = cstr b
  | [], [] => fun _ => rfl
  | [], b :: t => fun h => by
    have hb : b = 0 := by simpa [strcmp] using h
    simp [cstr, hb]
  | a :: s, [] => fun h => by
    have ha : a = 0 := by simpa [strcmp] using h
    simp [cstr, ha]
  | a :: s, b :: t => fun h => by
    by_cases hab : a = b
    · subst hab
      by_cases ha : a = 0
      · simp [cstr, ha]
      · simp only [strcmp, if_true, ha, if_false] at h
        simp [cstr, ha, strcmp_zero_cstr s t h]
    · simp only [strcmp, hab, if_false] at h
      omega

/-- Two sorted lists of the same addresses carry the same strings in the same
order. -/
theorem sorted_perm_strings (v : Nat → List Nat) {l1 l2 : List Nat} (hp : l1.Perm l2)
    (h1 : l1.Pairwise (fun x y => strcmp (v x) (v y) ≤ 0))
    (h2 : l2.Pairwise (fun x y => strcmp (v x) (v y) ≤ 0)) :
    l1.map (fun a => cstr (v a)) = l2.map (fun a => cstr (v a)) := by
  have hanti : IsAntisymm (List Nat)
      (fun k1 k2 => strcmp k1 k2 ≤ 0 ∧ cstr k1 = k1 ∧ cstr k2 = k2) := by
    constructor
    intro a b hab hba
    have h0 : strcmp a b = 0 := by
      have := strcmp_swap a b
      omega
    have := strcmp_zero_cstr a b h0
    rw [hab.2.1, hab.2.2] at this
    exact this
  have hs : ∀ l : List Nat, l.Pairwise (fun x y => strcmp (v x) (v y) ≤ 0) →
      (l.map (fun a => cstr (v a))).Sorted
        (fun k1 k2 => strcmp k1 k2 ≤ 0 ∧ cstr k1 = k1 ∧ cstr k2 = k2) := by
    intro l hl
    unfold List.Sorted
    rw [List.pairwise_map]
    refine hl.imp ?_
    intro x y hxy
    exact ⟨by rw [strcmp_cstr]; exact hxy, cstr_idem _, cstr_idem _⟩
  exact @List.eq_of_perm_of_sorted _ _ hanti _ _ (hp.map _) (hs l1 h1) (hs l2 h2)

/-- C15: `q_sort` twice gives what `q_sort` once gives.  On a queue with chain
`l` from `head` and fuel above its length both calls end, and the strings
along the chain after the second call are, in this order, the strings along
the chain after the first call; so are the stored values byte for byte when
every value is a string with its terminator and nothing behind it, as the
insertions store it. -/
theorem q_sort_idempotent (m : Heap) (q : queue_t) (l : List Nat) (fuel : Nat)
    (hc : isChain m q.head l) (hf : l.length < fuel) :
    ∃ m1 q1 l1 m2 q2 l2, q_sort m (some q) fuel = .ok (m1, some q1) ∧
      isChain m1 q1.head l1 ∧
      q_sort m1 (some q1) fuel = .ok (m2, some q2) ∧
      isChain m2 q2.head l2 ∧
      l2.map (fun a => cstr (val m2 a)) = l1.map (fun a => cstr (val m1 a)) ∧
      ((∀ a ∈ l, val m a = cstr (val m a) ++ [0]) → l2.map (val m2) = l1.map (val m1)) := by
  obtain ⟨m1, q1, hrun1, hch1, _, _, _, hsv1, _⟩ := q_sort_chain m q l fuel hc hf
  have hp1 := msortL_perm (val m) _ l (Nat.le_refl _)
  have hv1 : val m1 = val m := sameValues_val hsv1
  obtain ⟨m2, q2, hrun2, hch2, _, _, _, hsv2, _⟩ :=
    q_sort_chain m1 q1 (msortL (val m) l) fuel hch1 (by rw [hp1.length_eq]; exact hf)
  have hv2 : val m2 = val m := by rw [sameValues_val hsv2]; exact hv1
  rw [hv1] at hch2
  have hp2 := msortL_perm (val m) _ (msortL (val m) l) (Nat.le_refl _)
  have hstr := sorted_perm_strings (val m) hp2
    (msortL_sorted (val m) _ _ (Nat.le_refl _)) (msortL_sorted (val m) _ l (Nat.le_refl _))
  refine ⟨m1, q1, _, m2, q2, _, hrun1, hch1, hrun2, hch2, ?_, ?_⟩
  · rw [hv1, hv2]; exact hstr
  · intro hcan
    rw [hv1, hv2]
    have hcan2 : ∀ l0 : List Nat, (∀ a ∈ l0, a ∈ l) →
        l0.map (val m) = (l0.map (fun a => cstr (val m a))).map (fun k => k ++ [0]) := by
      intro l0 hl0
      rw [List.map_map]
      apply List.map_congr_left
      intro a ha
      exact hcan a (hl0 a ha)
    rw [hcan2 _ (fun a ha => hp1.mem_iff.mp (hp2.mem_iff.mp ha)),
      hcan2 _ (fun a ha => hp1.mem_iff.mp ha), hstr]

/-- C15, at an instance: the chain `[2, 1]` with the values `"b"`, `"a"`. -/
theorem q_sort_idempotent_witness :
    (isChain mem2 queue2.head [2, 1] ∧ [2, 1].length < 3) ∧
    ∃ m1 q1 l1 m2 q2 l2, q_sort mem2 (some queue2) 3 = .ok (m1, some q1) ∧
      isChain m1 q1.head l1 ∧
      q_sort m1 (some q1) 3 = .ok (m2, some q2) ∧
      isChain m2 q2.head l2 ∧
      l2.map (fun a => cstr (val m2 a)) = l1.map (fun a => cstr (val m1 a)) ∧
      ((∀ a ∈ [2, 1], val mem2 a = cstr (val mem2 a) ++ [0]) →
        l2.map (val m2) = l1.map (val m1)) :=
  ⟨⟨⟨rfl, _, rfl, rfl, _, rfl, rfl⟩, by decide⟩,
   q_sort_idempotent mem2 queue2 [2, 1] 3 ⟨rfl, _, rfl, rfl, _, rfl, rfl⟩ (by decide)⟩

/-! ## The split of `merge_sort` -/

/-- The first steps of `merge_sort` on a chain of two addresses or more: the
slow/fast loop stops at position `(n - 1) / 2`, and `slow->next = NULL` cuts the
chain behind its first `(n + 1) / 2` addresses. -/
theorem split_chain (m : Heap) (head : Option Nat) (l : List Nat) (fuel : Nat)
    (hc : isChain m head l) (hN : 2 ≤ l.length) (hf : l.length ≤ 2 * fuel) :
    ∃ f0 s es, get_next m head = .ok (some f0) ∧
      middle_loop m head (some f0) fuel = .ok (some s) ∧
      l[(l.length - 1) / 2]? = some s ∧
      m s = some es ∧
      isChain (store m s { es with next := none }) head (l.take ((l.length + 1) / 2)) ∧
      isChain (store m s { es with next := none }) es.next (l.drop ((l.length + 1) / 2)) := by
  have hhead : head = l[0]? := by rw [isChain_head hc, List.head?_eq_getElem?]
  have h0 : (0 : Nat) < l.length := by omega
  have h1 : (1 : Nat) < l.length := by omega
  obtain ⟨f0, hf0⟩ : ∃ f0, l[1]? = some f0 := ⟨l[1], List.getElem?_eq_getElem h1⟩
  have hgn : get_next m head = .ok (some f0) := by
    rw [hhead, get_next_chain hc h0]
    exact congrArg _ hf0
  have hj : (l.length - 1) / 2 < l.length := by omega
  obtain ⟨s, hs⟩ : ∃ s, l[(l.length - 1) / 2]? = some s :=
    ⟨l[(l.length - 1) / 2], List.getElem?_eq_getElem hj⟩
  have hmid : middle_loop m head (some f0) fuel = .ok (some s) := by
    have := middle_loop_spec hc fuel 0 (by omega) (by omega)
    rw [← hhead, show 2 * 0 + 1 = 1 by rfl, hf0, hs] at this
    exact this
  obtain ⟨es, hes, hnext, _⟩ := isChain_get hc hs
  have hk : (l.length - 1) / 2 + 1 = (l.length + 1) / 2 := by omega
  have hsj : l[(l.length - 1) / 2] = s := by
    have := List.getElem?_eq_getElem hj
    rw [hs] at this
    exact (Option.some.inj this).symm
  have hsplit : l = l.take ((l.length - 1) / 2) ++ s :: l.drop ((l.length + 1) / 2) := by
    rw [← hk, ← hsj, ← List.drop_eq_getElem_cons hj, List.take_append_drop]
  obtain ⟨hcA, hcB⟩ := @isChain_cut m s es (l.take ((l.length - 1) / 2)) head
    (l.drop ((l.length + 1) / 2)) (by rw [← hsplit]; exact hc) hes
  have htake : l.take ((l.length - 1) / 2) ++ [s] = l.take ((l.length + 1) / 2) := by
    rw [← hk, List.take_succ, hs]; rfl
  rw [htake] at hcA
  exact ⟨f0, s, es, hgn, hmid, hs, hes, hcA, hcB⟩

/-- C19: on a chain of `n ≥ 2` addresses from `head`, the slow/fast loop of
`merge_sort` ends with `slow` at the last address of the first
`(n + 1) / 2`, and `slow->next = NULL` leaves the chain of these
`(n + 1) / 2` addresses at `head` and the chain of the other `n / 2` at
`fast`; both parts are non-empty and shorter than `n`, and together they are
the chain.  And `merge_sort` ends on every chain, with fuel above its length. -/
theorem merge_sort_split (m : Heap) (head : Option Nat) (l : List Nat) (fuel : Nat)
    (hc : isChain m head l) (hN : 2 ≤ l.length) (hf : l.length ≤ 2 * fuel) :
    (∃ (f0 s : Nat) (es : list_ele_t) (m1 : Heap), get_next m head = .ok (some f0) ∧
      middle_loop m head (some f0) fuel = .ok (some s) ∧
      get_next m (some s) = .ok es.next ∧
      set_next m (some s) none = .ok m1 ∧
      (l.take ((l.length + 1) / 2)).getLast? = some s ∧
      isChain m1 head (l.take ((l.length + 1) / 2)) ∧
      isChain m1 es.next (l.drop ((l.length + 1) / 2))) ∧
    (l.take ((l.length + 1) / 2)).length = (l.length + 1) / 2 ∧
    (l.drop ((l.length + 1) / 2)).length = l.length / 2 ∧
    0 < (l.length + 1) / 2 ∧ (l.length + 1) / 2 < l.length ∧
    0 < l.length / 2 ∧ l.length / 2 < l.length ∧
    l.take ((l.length + 1) / 2) ++ l.drop ((l.length + 1) / 2) = l ∧
    (∀ (m0 : Heap) (p : Option Nat) (l0 : List Nat) (fuel0 : Nat),
      isChain m0 p l0 → l0.length < fuel0 →
      ∃ m1 p1, merge_sort m0 p fuel0 = .ok (m1, p1)) := by
  obtain ⟨f0, s, es, hgn, hmid, hs, hes, hcA, hcB⟩ := split_chain m head l fuel hc hN hf
  refine ⟨⟨f0, s, es, _, hgn, hmid, get_next_some hes, set_next_some hes none, ?_, hcA, hcB⟩,
    by rw [List.length_take]; omega, by rw [List.length_drop]; omega,
    by omega, by omega, by omega, by omega, List.take_append_drop _ _, ?_⟩
  · have hk : (l.length - 1) / 2 + 1 = (l.length + 1) / 2 := by omega
    rw [List.getLast?_eq_getElem?, List.length_take,
      List.getElem?_take_of_lt (by omega)]
    rw [show min ((l.length + 1) / 2) l.length - 1 = (l.length - 1) / 2 by omega]
    exact hs
  · intro m0 p l0 fuel0 hc0 hf0
    obtain ⟨m1, p1, hrun, _⟩ := merge_sort_spec (val m0) _ l0 m0 p fuel0 (Nat.le_refl _) rfl hc0 hf0
    exact ⟨m1, p1, hrun⟩

/-- C19, at an instance: the chain `[1, 2, 3]` is cut into `[1, 2]` and `[3]`. -/
theorem merge_sort_split_witness :
    (isChain mem3 (some 1) [1, 2, 3] ∧ 2 ≤ [1, 2, 3].length ∧ [1, 2, 3].length ≤ 2 * 2) ∧
    (∃ (f0 s : Nat) (es : list_ele_t) (m1 : Heap), get_next mem3 (some 1) = .ok (some f0) ∧
      middle_loop mem3 (some 1) (some f0) 2 = .ok (some s) ∧
      get_next mem3 (some s) = .ok es.next ∧
      set_next mem3 (some s) none = .ok m1 ∧
      ([1, 2, 3].take (([1, 2, 3].length + 1) / 2)).getLast? = some s ∧
      isChain m1 (some 1) ([1, 2, 3].take (([1, 2, 3].length + 1) / 2)) ∧
      isChain m1 es.next ([1, 2, 3].drop (([1, 2, 3].length + 1) / 2))) ∧
    ([1, 2, 3].take (([1, 2, 3].length + 1) / 2)).length = ([1, 2, 3].length + 1) / 2 ∧
    ([1, 2, 3].drop (([1, 2, 3].length + 1) / 2)).length = [1, 2, 3].length / 2 ∧
    0 < ([1, 2, 3].length + 1) / 2 ∧ ([1, 2, 3].length + 1) / 2 < [1, 2, 3].length ∧
    0 < [1, 2, 3].length / 2 ∧ [1, 2, 3].length / 2 < [1, 2, 3].length ∧
    [1, 2, 3].take (([1, 2, 3].length + 1) / 2) ++ [1, 2, 3].drop (([1, 2, 3].length + 1) / 2)
      = [1, 2, 3] ∧
    (∀ (m0 : Heap) (p : Option Nat) (l0 : List Nat) (fuel0 : Nat),
      isChain m0 p l0 → l0.length < fuel0 →
      ∃ m1 p1, merge_sort m0 p fuel0 = .ok (m1, p1)) :=
  ⟨⟨⟨rfl, _, rfl, rfl, _, rfl, rfl, _, rfl, rfl⟩, by decide, by decide⟩,
   merge_sort_split mem3 (some 1) [1, 2, 3] 2 ⟨rfl, _, rfl, rfl, _, rfl, rfl, _, rfl, rfl⟩
     (by decide) (by decide)⟩

/-! ## The calls of `merge` -/

/-- On a chain of two addresses or more `merge_sort` comes to its call of
`merge`, and the two arguments are the sorted halves, both non-empty. -/
theorem merge_sort_calls_merge (m : Heap) (head : Option Nat) (l : List Nat) (f : Nat)
    (hc : isChain m head l) (hN : 2 ≤ l.length) (hf : l.length ≤ f) :
    ∃ (m3 : Heap) (a1 a2 : Nat) (A B : List Nat),
      merge_sort m head (f + 1) = merge m3 (some a1) (some a2) f ∧
      isChain m3 (some a1) (a1 :: A) ∧ isChain m3 (some a2) (a2 :: B) ∧
      (∀ c ∈ a1 :: A, c ∉ a2 :: B) ∧
      (a1 :: A).Perm (l.take ((l.length + 1) / 2)) ∧
      (a2 :: B).Perm (l.drop ((l.length + 1) / 2)) ∧
      (a1 :: A).Pairwise (fun x y => strcmp (val m3 x) (val m3 y) ≤ 0) ∧
      (a2 :: B).Pairwise (fun x y => strcmp (val m3 x) (val m3 y) ≤ 0) ∧
      sameValues m3 m := by
  have hnd := isChain_nodup hc
  obtain ⟨f0, s, es, hgn, hmid, _, hes, hcA, hcB⟩ :=
    split_chain m head l f hc hN (by omega)
  have hdisj : ∀ b ∈ l.take ((l.length + 1) / 2), b ∉ l.drop ((l.length + 1) / 2) := by
    intro b hb1 hb2
    have hnd2 := hnd
    rw [← List.take_append_drop ((l.length + 1) / 2) l] at hnd2
    exact (List.nodup_append.mp hnd2).2.2 hb1 hb2
  have hv1 : val (store m s { es with next := none }) = val m := val_store_next m hes none
  obtain ⟨m2, p1, hrun1, hch1, hfr1, hsv1⟩ := merge_sort_spec (val m) _
    (l.take ((l.length + 1) / 2)) _ head f (Nat.le_refl _) hv1 hcA
    (by rw [List.length_take]; omega)
  have hv2 : val m2 = val m := by rw [sameValues_val hsv1]; exact hv1
  have hcB2 : isChain m2 es.next (l.drop ((l.length + 1) / 2)) :=
    isChain_frame (fun b hb => hfr1 b (fun h => hdisj b h hb)) hcB
  obtain ⟨m3, p2, hrun2, hch2, hfr2, hsv2⟩ := merge_sort_spec (val m) _
    (l.drop ((l.length + 1) / 2)) m2 es.next f (Nat.le_refl _) hv2 hcB2
    (by rw [List.length_drop]; omega)
  have hv3 : val m3 = val m := by rw [sameValues_val hsv2]; exact hv2
  have hpA := msortL_perm (val m) _ (l.take ((l.length + 1) / 2)) (Nat.le_refl _)
  have hpB := msortL_perm (val m) _ (l.drop ((l.length + 1) / 2)) (Nat.le_refl _)
  have hch1' : isChain m3 p1 (msortL (val m) (l.take ((l.length + 1) / 2))) :=
    isChain_frame (fun b hb => hfr2 b (hdisj b (hpA.mem_iff.mp hb))) hch1
  have hsA := msortL_sorted (val m) _ (l.take ((l.length + 1) / 2)) (Nat.le_refl _)
  have hsB := msortL_sorted (val m) _ (l.drop ((l.length + 1) / 2)) (Nat.le_refl _)
  obtain ⟨a1, A, hA⟩ : ∃ a1 A, msortL (val m) (l.take ((l.length + 1) / 2)) = a1 :: A := by
    cases hs : msortL (val m) (l.take ((l.length + 1) / 2)) with
    | nil =>
      have := hpA.length_eq
      rw [hs, List.length_take] at this
      simp at this; omega
    | cons a t => exact ⟨a, t, rfl⟩
  obtain ⟨a2, B, hB⟩ : ∃ a2 B, msortL (val m) (l.drop ((l.length + 1) / 2)) = a2 :: B := by
    cases hs : msortL (val m) (l.drop ((l.length + 1) / 2)) with
    | nil =>
      have := hpB.length_eq
      rw [hs, List.length_drop] at this
      simp at this; omega
    | cons a t => exact ⟨a, t, rfl⟩
  rw [hA] at hch1' hpA hsA
  rw [hB] at hch2 hpB hsB
  have hp1 : p1 = some a1 := hch1'.1
  have hp2 : p2 = some a2 := hch2.1
  subst hp1; subst hp2
  obtain ⟨a0, hh⟩ : ∃ a0, head = some a0 := by
    cases l with
    | nil => simp at hN
    | cons a0 t => exact ⟨a0, hc.1⟩
  subst hh
  refine ⟨m3, a1, a2, A, B, ?_, hch1', hch2, ?_, hpA, hpB, by rw [hv3]; exact hsA,
    by rw [hv3]; exact hsB, sameValues_trans hsv2 (sameValues_trans hsv1
      (sameValues_store_next hes none))⟩
  · simp only [merge_sort, hgn, hmid, get_next_some hes, set_next_some hes, hrun1, hrun2]
  · intro c hc1 hc2
    exact hdisj c (hpA.mem_iff.mp hc1) (hpB.mem_iff.mp hc2)

/-- C20: `merge` on two `NULL` arguments dereferences `NULL` (its first branch is
the one taken whenever `l2` is `NULL`).  On a chain shorter than two
addresses `merge_sort` returns without a call of `merge`; on a longer one its
call of `merge` gets two non-empty chains, and `q_sort` ends without a fault.
On two disjoint non-empty sorted chains `merge` returns a sorted chain of
exactly the addresses of both, every value as it was. -/
theorem merge_safe (m : Heap) (fuel : Nat) :
    (merge m none none fuel = .error .badptr ∧ ∀ l1, merge_first m l1 none = .ok true) ∧
    (∀ (head : Option Nat) (l : List Nat), isChain m head l → l.length < 2 →
      merge_sort m head (fuel + 1) = .ok (m, head)) ∧
    (∀ (head : Option Nat) (l : List Nat), isChain m head l → 2 ≤ l.length → l.length ≤ fuel →
      ∃ (m3 : Heap) (a1 a2 : Nat) (A B : List Nat),
        merge_sort m head (fuel + 1) = merge m3 (some a1) (some a2) fuel ∧
        isChain m3 (some a1) (a1 :: A) ∧ isChain m3 (some a2) (a2 :: B)) ∧
    (∀ (q : queue_t) (l : List Nat), isChain m q.head l → l.length < fuel →
      ∃ m1 q1, q_sort m (some q) fuel = .ok (m1, some q1)) ∧
    (∀ (p1 p2 : Option Nat) (a b : Nat) (A B : List Nat),
      isChain m p1 (a :: A) → isChain m p2 (b :: B) → (∀ c ∈ a :: A, c ∉ b :: B) →
      (a :: A).Pairwise (fun x y => strcmp (val m x) (val m y) ≤ 0) →
      (b :: B).Pairwise (fun x y => strcmp (val m x) (val m y) ≤ 0) →
      A.length + B.length + 2 ≤ fuel →
      ∃ m1 h r, merge m p1 p2 fuel = .ok (m1, h) ∧ isChain m1 h r ∧
        r.Perm (a :: A ++ b :: B) ∧
        r.Pairwise (fun x y => strcmp (val m1 x) (val m1 y) ≤ 0) ∧
        sameValues m1 m ∧ (∀ c, c ∉ a :: A → c ∉ b :: B → m1 c = m c)) := by
  refine ⟨⟨by simp [merge, merge_first, get_next, load], fun l1 => rfl⟩, ?_, ?_, ?_, ?_⟩
  · intro head l hc hl
    cases l with
    | nil =>
      rw [isChain_nil] at hc; subst hc; rfl
    | cons a l =>
      have hl0 : l = [] := List.length_eq_zero.mp (by simp at hl; omega)
      subst hl0
      obtain ⟨hh, e, he, hnx⟩ := hc
      rw [isChain_nil] at hnx
      subst hh
      simp only [merge_sort, get_next_some he, hnx]
  · intro head l hc hN hf
    obtain ⟨m3, a1, a2, A, B, hrun, h1, h2, _⟩ := merge_sort_calls_merge m head l fuel hc hN hf
    exact ⟨m3, a1, a2, A, B, hrun, h1, h2⟩
  · intro q l hc hf
    obtain ⟨m1, q1, hrun, _⟩ := q_sort_chain m q l fuel hc hf
    exact ⟨m1, q1, hrun⟩
  · intro p1 p2 a b A B h1 h2 hdis hs1 hs2 hf
    obtain ⟨m1, h, hrun, hch, hfr, hsv⟩ := merge_spec (val m) m p1 p2 (a :: A) (b :: B) fuel rfl
      h1 h2 hdis (Or.inl (by simp)) (by simp; omega)
    refine ⟨m1, h, _, hrun, hch, mergeL_perm (val m) _ _ _ (Nat.le_refl _), ?_, hsv, hfr⟩
    rw [sameValues_val hsv]
    exact mergeL_sorted (val m) _ _ _ (Nat.le_refl _) hs1 hs2

/-- C20, at instances: on the heap with the chain `[1, 2]` and the chain `[3]`,
all with the value `"a"`, the sort of `[1, 2]` calls `merge` on two
non-empty chains, and the merge of `[1, 2]` and `[3]` is a sorted chain of the
three addresses. -/
theorem merge_safe_witness :
    merge memAA none none 4 = .error .badptr ∧
    merge_sort memAA (some 3) (4 + 1) = .ok (memAA, some 3) ∧
    (∃ (m3 : Heap) (a1 a2 : Nat) (A B : List Nat),
      merge_sort memAA (some 1) (4 + 1) = merge m3 (some a1) (some a2) 4 ∧
      isChain m3 (some a1) (a1 :: A) ∧ isChain m3 (some a2) (a2 :: B)) ∧
    (∃ m1 q1, q_sort memAA (some queueAA) 4 = .ok (m1, some q1)) ∧
    ∃ m1 h r, merge memAA (some 1) (some 3) 4 = .ok (m1, h) ∧ isChain m1 h r ∧
      r.Perm (1 :: [2] ++ 3 :: []) ∧
      r.Pairwise (fun x y => strcmp (val m1 x) (val m1 y) ≤ 0) ∧
      sameValues m1 memAA ∧ (∀ c, c ∉ 1 :: [2] → c ∉ 3 :: [] → m1 c = memAA c) :=
  ⟨(merge_safe memAA 4).1.1,
   (merge_safe memAA 4).2.1 (some 3) [3] ⟨rfl, _, rfl, rfl⟩ (by decide),
   (merge_safe memAA 4).2.2.1 (some 1) [1, 2] ⟨rfl, _, rfl, rfl, _, rfl, rfl⟩
     (by decide) (by decide),
   (merge_safe memAA 4).2.2.2.1 queueAA [1, 2] ⟨rfl, _, rfl, rfl, _, rfl, rfl⟩ (by decide),
   (merge_safe memAA 4).2.2.2.2 (some 1) (some 3) 1 3 [2] []
     ⟨rfl, _, rfl, rfl, _, rfl, rfl⟩ ⟨rfl, _, rfl, rfl⟩ (by decide)
     (by decide) (by decide) (by decide)⟩

/-! ## Insertions and removals need no fuel -/

theorem strncpy_no_timeout (dst src : List Nat) (n : Nat) :
    strncpy dst src n ≠ .error .timeout := by
  unfold strncpy
  split <;> simp

theorem set_next_no_timeout (m : Heap) (p nx : Option Nat) :
    set_next m p nx ≠ .error .timeout := by
  unfold set_next
  cases p with
  | none => simp
  | some a => cases h : m a <;> simp [h]

theorem q_insert_head_no_timeout (m : Heap) (q : Option queue_t) (s : List Nat)
    (newh : Option Nat) (val : Bool) : q_insert_head m q s newh val ≠ .error .timeout := by
  cases q with
  | none => simp [q_insert_head]
  | some q0 =>
    cases newh with
    | none => simp [q_insert_head]
    | some a =>
      cases val with
      | false => simp [q_insert_head]
      | true => rw [q_insert_head_ok]; simp

theorem q_insert_tail_no_timeout (m : Heap) (q : Option queue_t) (s : List Nat)
    (newt : Option Nat) (val : Bool) : q_insert_tail m q s newt val ≠ .error .timeout := by
  cases q with
  | none => simp [q_insert_tail]
  | some q0 =>
    cases newt with
    | none => simp [q_insert_tail]
    | some a =>
      cases val with
      | false => simp [q_insert_tail]
      | true =>
        simp only [q_insert_tail, copy_in]
        by_cases ht : q0.tail = none
        · simp [ht]
        · simp only [ht, if_false]
          cases hs : set_next (store m a { value := cstr s ++ [0], next := none }) q0.tail
              (some a) with
          | error e =>
            have := set_next_no_timeout (store m a { value := cstr s ++ [0], next := none })
              q0.tail (some a)
            rw [hs] at this
            simpa using this
          | ok m2 => simp

theorem copy_out_no_timeout (sp v : List Nat) (bufsize : Nat) :
    copy_out sp v bufsize ≠ .error .timeout := by
  unfold copy_out
  split
  · cases h : strncpy sp v (size_pred bufsize) with
    | error e =>
      have := strncpy_no_timeout sp v (size_pred bufsize)
      rw [h] at this
      simpa using this
    | ok b =>
      simp only [set_byte]
      split <;> simp
  · exact strncpy_no_timeout _ _ _

theorem q_remove_head_no_timeout (m : Heap) (q : Option queue_t) (sp : Option (List Nat))
    (bufsize : Nat) : q_remove_head m q sp bufsize ≠ .error .timeout := by
  cases q with
  | none => simp [q_remove_head]
  | some q0 =>
    cases hh : q0.head with
    | none => simp [q_remove_head, hh]
    | some a =>
      cases he : m a with
      | none => simp [q_remove_head, hh, load, he]
      | some e =>
        cases sp with
        | none => rw [q_remove_head_spec_none m q0 a e bufsize hh he]; simp
        | some buf =>
          rw [q_remove_head_buf m q0 a e buf bufsize hh he]
          cases hco : copy_out buf e.value bufsize with
          | error err =>
            have := copy_out_no_timeout buf e.value bufsize
            rw [hco] at this
            simpa using this
          | ok b => simp

/-- A sequence of insertions and removals never stops for want of fuel: it runs
to its end, or it stops at a dereference of a dead pointer or at a write past
the buffer. -/
theorem run_no_timeout (fuel : Nat) (cs : List Call) :
    ∀ st : State, (∀ c ∈ cs, c ≠ Call.reverse ∧ c ≠ Call.sort) →
      run fuel st cs ≠ .error .timeout := by
  induction cs with
  | nil => intro st _; simp [run]
  | cons c cs ih =>
    intro st hcs
    have hc := hcs c (List.mem_cons_self _ _)
    simp only [run]
    cases h1 : call fuel st c with
    | error e =>
      simp only [ne_eq, Except.error.injEq]
      intro he
      subst he
      cases c with
      | insert_head s newh val =>
        simp only [call] at h1
        cases h2 : q_insert_head st.mem st.q s newh val with
        | error e2 =>
          rw [h2] at h1
          simp at h1
          subst h1
          exact q_insert_head_no_timeout _ _ _ _ _ h2
        | ok r => rw [h2] at h1; simp at h1
      | insert_tail s newt val =>
        simp only [call] at h1
        cases h2 : q_insert_tail st.mem st.q s newt val with
        | error e2 =>
          rw [h2] at h1
          simp at h1
          subst h1
          exact q_insert_tail_no_timeout _ _ _ _ _ h2
        | ok r => rw [h2] at h1; simp at h1
      | remove_head sp bufsize =>
        simp only [call] at h1
        cases h2 : q_remove_head st.mem st.q sp bufsize with
        | error e2 =>
          rw [h2] at h1
          simp at h1
          subst h1
          exact q_remove_head_no_timeout _ _ _ _ h2
        | ok r => rw [h2] at h1; simp at h1
      | reverse => exact hc.1 rfl
      | sort => exact hc.2 rfl
    | ok res =>
      obtain ⟨r, st2⟩ := res
      have hih := ih st2 (fun c hc2 => hcs c (List.mem_cons_of_mem _ hc2))
      cases h2 : run fuel st2 cs with
      | error e =>
        simp only [h2, ne_eq, Except.error.injEq]
        intro he
        subst he
        exact hih h2
      | ok res2 =>
        obtain ⟨rs2, st3⟩ := res2
        simp [h2]

/-! ## The size along a sequence of calls -/

theorem q_insert_head_size {m m1 : Heap} {q q1 : Option queue_t} {s : List Nat}
    {newh : Option Nat} {val r : Bool}
    (h : q_insert_head m q s newh val = .ok (r, m1, q1)) :
    q_size q1 = if r then int32 (q_size q + 1) else q_size q := by
  cases q with
  | none => simp [q_insert_head] at h; obtain ⟨h1, _, h3⟩ := h; subst h1; subst h3; simp
  | some q0 =>
    cases newh with
    | none => simp [q_insert_head] at h; obtain ⟨h1, _, h3⟩ := h; subst h1; subst h3; simp
    | some a =>
      cases val with
      | false => simp [q_insert_head] at h; obtain ⟨h1, _, h3⟩ := h; subst h1; subst h3; simp
      | true =>
        rw [q_insert_head_ok] at h
        simp at h
        obtain ⟨h1, _, h3⟩ := h
        subst h1; subst h3
        simp [q_size]

theorem q_insert_tail_size {m m1 : Heap} {q q1 : Option queue_t} {s : List Nat}
    {newt : Option Nat} {val r : Bool}
    (h : q_insert_tail m q s newt val = .ok (r, m1, q1)) :
    q_size q1 = if r then int32 (q_size q + 1) else q_size q := by
  cases q with
  | none => simp [q_insert_tail] at h; obtain ⟨h1, _, h3⟩ := h; subst h1; subst h3; simp
  | some q0 =>
    cases newt with
    | none => simp [q_insert_tail] at h; obtain ⟨h1, _, h3⟩ := h; subst h1; subst h3; simp
    | some a =>
      cases val with
      | false => simp [q_insert_tail] at h; obtain ⟨h1, _, h3⟩ := h; subst h1; subst h3; simp
      | true =>
        simp only [q_insert_tail, copy_in] at h
        cases hs : (if q0.tail = none then
            (Except.ok (store m a { value := cstr s ++ [0], next := none }) : Except Err Heap)
          else set_next (store m a { value := cstr s ++ [0], next := none }) q0.tail (some a)) with
        | error e => simp [hs] at h
        | ok m2 =>
          simp [hs] at h
          obtain ⟨h1, _, h3⟩ := h
          subst h1; subst h3
          by_cases hh : q0.head = none <;> simp [q_size, hh]

theorem q_remove_head_size {m m1 : Heap} {q q1 : Option queue_t} {sp sp1 : Option (List Nat)}
    {bufsize : Nat} {r : Bool}
    (h : q_remove_head m q sp bufsize = .ok (r, m1, q1, sp1)) :
    q_size q1 = if r then int32 (q_size q - 1) else q_size q := by
  cases q with
  | none => simp [q_remove_head] at h; obtain ⟨h1, _, h3, _⟩ := h; subst h1; subst h3; simp
  | some q0 =>
    cases hh : q0.head with
    | none =>
      simp [q_remove_head, hh] at h; obtain ⟨h1, _, h3, _⟩ := h; subst h1; subst h3; simp
    | some a =>
      cases he : m a with
      | none => simp [q_remove_head, hh, load, he] at h
      | some e =>
        cases sp with
        | none =>
          rw [q_remove_head_spec_none m q0 a e bufsize hh he] at h
          simp at h
          obtain ⟨h1, _, h3, _⟩ := h
          subst h1; subst h3
          simp [q_size]
        | some buf =>
          rw [q_remove_head_buf m q0 a e buf bufsize hh he] at h
          cases hco : copy_out buf e.value bufsize with
          | error err => simp [hco] at h
          | ok b =>
            simp [hco] at h
            obtain ⟨h1, _, h3, _⟩ := h
            subst h1; subst h3
            simp [q_size]

theorem q_reverse_size {m m1 : Heap} {q q1 : Option queue_t} {fuel : Nat}
    (h : q_reverse m q fuel = .ok (m1, q1)) : q_size q1 = q_size q := by
  cases q with
  | none => simp [q_reverse] at h; rw [← h.2]
  | some q0 =>
    cases hh : q0.head with
    | none => simp [q_reverse, hh] at h; rw [← h.2]
    | some a =>
      simp only [q_reverse, hh] at h
      cases h1 : get_next m (some a) with
      | error e => simp [h1] at h
      | ok curr =>
        cases h2 : set_next m (some a) none with
        | error e => simp [h1, h2] at h
        | ok m2 =>
          cases h3 : q_reverse_loop m2 (some a) curr fuel with
          | error e => simp [h1, h2, h3] at h
          | ok res =>
            obtain ⟨m3, pre⟩ := res
            simp [h1, h2, h3] at h
            rw [← h.2]; rfl

theorem q_sort_size {m m1 : Heap} {q q1 : Option queue_t} {fuel : Nat}
    (h : q_sort m q fuel = .ok (m1, q1)) : q_size q1 = q_size q := by
  cases q with
  | none => simp [q_sort] at h; rw [← h.2]
  | some q0 =>
    cases hh : q0.head with
    | none => simp [q_sort, hh] at h; rw [← h.2]
    | some a =>
      simp only [q_sort, hh] at h
      cases h1 : get_next m (some a) with
      | error e => simp [h1] at h
      | ok nx =>
        cases nx with
        | none => simp [h1] at h; rw [← h.2]
        | some b =>
          cases h2 : merge_sort m (some a) fuel with
          | error e => simp [h1, h2] at h
          | ok res =>
            obtain ⟨m2, p⟩ := res
            cases h3 : last_loop m2 p fuel with
            | error e => simp [h1, h2, h3] at h
            | ok t =>
              simp [h1, h2, h3] at h
              rw [← h.2]; rfl



theorem call_size {fuel : Nat} {st st1 : State} {c : Call} {r : Bool}
    (h : call fuel st c = .ok (r, st1)) (x : Int) (hx : q_size st.q = int32 x) :
    q_size st1.q = int32 (x + (inserted [c] [r] : Int) - (removed [c] [r] : Int)) := by
  have hsub : int32 (int32 x - 1) = int32 (x - 1) := by
    unfold int32
    omega
  cases c with
  | insert_head s newh val =>
    simp only [call] at h
    cases h1 : q_insert_head st.mem st.q s newh val with
    | error e => simp [h1] at h
    | ok res =>
      obtain ⟨r1, m1, q1⟩ := res
      simp [h1] at h
      obtain ⟨hr, hst⟩ := h
      subst hr; subst hst
      rw [q_insert_head_size h1, hx]
      cases r1 <;> simp [inserted, removed, int32_add]
  | insert_tail s newt val =>
    simp only [call] at h
    cases h1 : q_insert_tail st.mem st.q s newt val with
    | error e => simp [h1] at h
    | ok res =>
      obtain ⟨r1, m1, q1⟩ := res
      simp [h1] at h
      obtain ⟨hr, hst⟩ := h
      subst hr; subst hst
      rw [q_insert_tail_size h1, hx]
      cases r1 <;> simp [inserted, removed, int32_add]
  | remove_head sp bufsize =>
    simp only [call] at h
    cases h1 : q_remove_head st.mem st.q sp bufsize with
    | error e => simp [h1] at h
    | ok res =>
      obtain ⟨r1, m1, q1, sp1⟩ := res
      simp [h1] at h
      obtain ⟨hr, hst⟩ := h
      subst hr; subst hst
      rw [q_remove_head_size h1, hx]
      cases r1 <;> simp [inserted, removed, hsub]
  | reverse =>
    simp only [call] at h
    cases h1 : q_reverse st.mem st.q fuel with
    | error e => simp [h1] at h
    | ok res =>
      obtain ⟨m1, q1⟩ := res
      simp [h1] at h
      obtain ⟨hr, hst⟩ := h
      subst hr; subst hst
      rw [q_reverse_size h1, hx]
      simp [inserted, removed]
  | sort =>
    simp only [call] at h
    cases h1 : q_sort st.mem st.q fuel with
    | error e => simp [h1] at h
    | ok res =>
      obtain ⟨m1, q1⟩ := res
      simp [h1] at h
      obtain ⟨hr, hst⟩ := h
      subst hr; subst hst
      rw [q_sort_size h1, hx]
      simp [inserted, removed]

theorem inserted_cons (c : Call) (r : Bool) (cs : List Call) (rs : List Bool) :
    inserted (c :: cs) (r :: rs) = inserted [c] [r] + inserted cs rs := by
  cases c <;> simp [inserted]

theorem removed_cons (c : Call) (r : Bool) (cs : List Call) (rs : List Bool) :
    removed (c :: cs) (r :: rs) = removed [c] [r] + removed cs rs := by
  cases c <;> simp [removed]

/-- Along a sequence of calls that runs to its end, `size` moves, as an `int`, by
the number of insertions that returned `true` minus the number of removals that
returned `true`, and every call has its result. -/
theorem run_size (fuel : Nat) (cs : List Call) :
    ∀ (st st1 : State) (rs : List Bool) (x : Int), run fuel st cs = .ok (rs, st1) →
      q_size st.q = int32 x →
      rs.length = cs.length ∧
      q_size st1.q = int32 (x + (inserted cs rs : Int) - (removed cs rs : Int)) := by
  induction cs with
  | nil =>
    intro st st1 rs x h hx
    simp [run] at h
    obtain ⟨h1, h2⟩ := h
    subst h1; subst h2
    simp [inserted, removed, hx]
  | cons c cs ih =>
    intro st st1 rs x h hx
    simp only [run] at h
    cases h1 : call fuel st c with
    | error e => simp [h1] at h
    | ok res =>
      obtain ⟨r, st2⟩ := res
      cases h2 : run fuel st2 cs with
      | error e => simp [h1, h2] at h
      | ok res2 =>
        obtain ⟨rs2, st3⟩ := res2
        simp [h1, h2] at h
        obtain ⟨hr, hst⟩ := h
        subst hr; subst hst
        obtain ⟨hl, hsz⟩ := ih st2 st3 rs2 _ h2 (call_size h1 x hx)
        refine ⟨by simp [hl], ?_⟩
        rw [hsz, inserted_cons c r cs rs2, removed_cons c r cs rs2]
        congr 1
        push_cast
        ring

/-- A sequence of calls that does not run to its end has run up to a call that
stops, at a dereference of a dead pointer, at a write past the buffer or for
want of fuel. -/
theorem run_stops (fuel : Nat) (cs : List Call) :
    ∀ (st : State) (e : Err), run fuel st cs = .error e →
      ∃ (k : Nat) (rs : List Bool) (st1 : State) (c : Call), k < cs.length ∧
        run fuel st (cs.take k) = .ok (rs, st1) ∧ cs[k]? = some c ∧
        call fuel st1 c = .error e := by
  induction cs with
  | nil => intro st e h; simp [run] at h
  | cons c cs ih =>
    intro st e h
    simp only [run] at h
    cases h1 : call fuel st c with
    | error e1 =>
      simp [h1] at h
      subst h
      exact ⟨0, [], st, c, by simp, by simp [run], by simp, h1⟩
    | ok res =>
      obtain ⟨r, st2⟩ := res
      cases h2 : run fuel st2 cs with
      | error e2 =>
        simp [h1, h2] at h
        subst h
        obtain ⟨k, rs, st1, c1, hk, hrun, hget, hcall⟩ := ih st2 e2 h2
        refine ⟨k + 1, r :: rs, st1, c1, by simp [hk], ?_, by simpa using hget, hcall⟩
        simp [run, h1, hrun]
      | ok res2 => simp [h1, h2] at h


theorem many_inserts_succ (k n : Nat) :
    many_inserts k (n + 1) = Call.insert_head [97] (some k) true :: many_inserts (k + 1) n := by
  simp [many_inserts, List.range'_succ]

theorem inserted_many_inserts (n : Nat) :
    ∀ k, inserted (many_inserts k n) (List.replicate n true) = n := by
  induction n with
  | zero => intro k; simp [many_inserts, inserted]
  | succ n ih =>
    intro k
    rw [many_inserts_succ, List.replicate_succ]
    simp only [inserted, ih (k + 1)]
    simp [Nat.add_comm]

theorem removed_many_inserts (n : Nat) :
    ∀ k, removed (many_inserts k n) (List.replicate n true) = 0 := by
  induction n with
  | zero => intro k; simp [many_inserts, removed]
  | succ n ih =>
    intro k
    rw [many_inserts_succ, List.replicate_succ]
    simp only [removed, ih (k + 1)]

/-- The run of `n` calls `q_insert_head("a")` at the addresses from `k` on, all
dead before: every call returns `true`, the chain grows by these addresses, the
last first, and `size` moves by `n` as an `int`. -/
theorem run_many_inserts (fuel : Nat) (n : Nat) :
    ∀ (k : Nat) (st : State) (q : queue_t) (l : List Nat), st.q = some q →
      isChain st.mem q.head l → (∀ b, k ≤ b → st.mem b = none) →
      ∃ (st1 : State) (q1 : queue_t),
        run fuel st (many_inserts k n) = .ok (List.replicate n true, st1) ∧
        fresh_allocs fuel st (many_inserts k n) = true ∧
        st1.q = some q1 ∧
        (∀ x : Int, q.size = int32 x → q1.size = int32 (x + n)) ∧
        isChain st1.mem q1.head ((List.range' k n).reverse ++ l) ∧
        (∀ b, k + n ≤ b → st1.mem b = none) := by
  induction n with
  | zero =>
    intro k st q l hq hc hd
    refine ⟨st, q, by simp [many_inserts, run], by simp [many_inserts, fresh_allocs], hq, ?_,
      by simpa using hc, fun b hb => hd b (by omega)⟩
    intro x hx
    simpa using hx
  | succ n ih =>
    intro k st q l hq hc hd
    have hcall : call fuel st (Call.insert_head [97] (some k) true) =
        .ok (true, { mem := store st.mem k { value := cstr [97] ++ [0], next := q.head },
                     q := some { head := some k,
                                 tail := if q.tail = none then some k else q.tail,
                                 size := int32 (q.size + 1) } }) := by
      simp only [call, hq, q_insert_head_ok]
    have hk : st.mem k = none := hd k (Nat.le_refl k)
    have hc2 : isChain (store st.mem k { value := cstr [97] ++ [0], next := q.head })
        (some k) (k :: l) := by
      refine ⟨rfl, _, store_same _ _ _, ?_⟩
      refine isChain_frame ?_ hc
      intro a ha
      obtain ⟨e, he⟩ := isChain_live hc a ha
      have hne : a ≠ k := by
        intro h
        rw [h, hk] at he
        simp at he
      exact store_other _ _ hne
    obtain ⟨st1, q1, hrun, hfresh, hq1, hsz, hch, hdead⟩ :=
      ih (k + 1) { mem := store st.mem k { value := cstr [97] ++ [0], next := q.head },
                   q := some { head := some k,
                               tail := if q.tail = none then some k else q.tail,
                               size := int32 (q.size + 1) } }
        { head := some k, tail := if q.tail = none then some k else q.tail,
          size := int32 (q.size + 1) } (k :: l) rfl hc2
        (by
          intro b hb
          have hne : b ≠ k := by omega
          show store st.mem k _ b = none
          rw [store_other _ _ hne]
          exact hd b (by omega))
    refine ⟨st1, q1, ?_, ?_, hq1, ?_, ?_, fun b hb => hdead b (by omega)⟩
    · rw [many_inserts_succ, List.replicate_succ]
      simp only [run, hcall, hrun]
    · rw [many_inserts_succ]
      simp only [fresh_allocs, hcall, hfresh, hk]
      simp
    · intro x hx
      have := hsz (x + 1) (by
        show int32 (q.size + 1) = int32 (x + 1)
        rw [hx, int32_add])
      rw [this]
      congr 1
      push_cast
      ring
    · have : (List.range' k (n + 1)).reverse ++ l = (List.range' (k + 1) n).reverse ++ k :: l := by
        simp [List.range'_succ]
      rw [this]
      exact hch

/-- The run of `n` calls `q_insert_head("a")` after `q_new()` on the empty heap,
at the addresses `1`, ..., `n`: every call returns `true`, the chain from `head`
is `n`, ..., `1` and `size` is `n` as an `int`. -/
theorem run_many_inserts_init (fuel : Nat) (n : Nat) :
    ∃ (st : State) (q : queue_t),
      run fuel init (many_inserts 1 n) = .ok (List.replicate n true, st) ∧
      fresh_allocs fuel init (many_inserts 1 n) = true ∧
      st.q = some q ∧ q.size = int32 n ∧ isChain st.mem q.head (List.iota n) := by
  obtain ⟨st, q, hrun, hfresh, hq, hsz, hch, _⟩ :=
    run_many_inserts fuel n 1 init { head := none, tail := none, size := 0 } [] rfl rfl
      (fun _ _ => rfl)
  refine ⟨st, q, hrun, hfresh, hq, ?_, ?_⟩
  · have := hsz 0 (by decide)
    rw [Int.zero_add] at this
    exact this
  · rw [List.append_nil] at hch
    rw [List.iota_eq_reverse_range']
    exact hch

/-- C13 fails on the code where the count leaves the range of `int`: after
`q_new()` and `2 ^ 31` calls `q_insert_head(q, "a")`, each at an address that is
dead at that moment and each returning `true`, with no removal, the chain from
`head` has the `2 ^ 31` elements and `q_size` returns `-2 ^ 31`, which is not the
number of insertions that returned `true` minus the number of removals. -/
theorem q_size_int_overflow :
    ∃ (st : State) (q : queue_t),
      run 0 init (many_inserts 1 2147483648) = .ok (List.replicate 2147483648 true, st) ∧
      fresh_allocs 0 init (many_inserts 1 2147483648) = true ∧
      inserted (many_inserts 1 2147483648) (List.replicate 2147483648 true) = 2147483648 ∧
      removed (many_inserts 1 2147483648) (List.replicate 2147483648 true) = 0 ∧
      st.q = some q ∧
      isChain st.mem q.head (List.iota 2147483648) ∧
      q_size st.q = -2147483648 ∧
      q_size st.q ≠ (inserted (many_inserts 1 2147483648) (List.replicate 2147483648 true) : Int)
        - (removed (many_inserts 1 2147483648) (List.replicate 2147483648 true) : Int) := by
  obtain ⟨st, q, hrun, hfresh, hq, hsz, hch⟩ := run_many_inserts_init 0 2147483648
  have h2 : int32 ((2147483648 : Nat) : Int) = -2147483648 := by decide
  have hs : q_size st.q = -2147483648 := by
    rw [hq]
    show q.size = -2147483648
    rw [hsz, h2]
  have hi : ((inserted (many_inserts 1 2147483648) (List.replicate 2147483648 true) : Nat) : Int)
      = ((2147483648 : Nat) : Int) :=
    congrArg Nat.cast (inserted_many_inserts 2147483648 1)
  have hr : ((removed (many_inserts 1 2147483648) (List.replicate 2147483648 true) : Nat) : Int)
      = ((0 : Nat) : Int) :=
    congrArg Nat.cast (removed_many_inserts 2147483648 1)
  refine ⟨st, q, hrun, hfresh, inserted_many_inserts _ _, removed_many_inserts _ _, hq, hch, hs, ?_⟩
  intro h
  have h3 : (-2147483648 : Int) = ((2147483648 : Nat) : Int) - ((0 : Nat) : Int) :=
    hs.symm.trans (h.trans (by rw [hi, hr]))
  exact absurd h3 (by decide)

/-- C13, within the range of `int` and up to a call that stops: a sequence of
calls on the queue that `q_new` has just returned (the creation having
succeeded or not, each call free to fail) that runs to its end gives every call
its result, and `q_size` is then, as an `int`, the number of insertions that
returned `true` minus the number of calls of `q_remove_head` that returned
`true`: this number itself when it is in the range of `int`; calls of
`q_reverse` and `q_sort` in between do not count. A sequence that does not run to
its end has run up to a call that stops, with the same count before this call,
and among insertions and removals a call only stops at a dereference of a dead
pointer or at a write past the buffer. -/
theorem q_size_counts (fuel : Nat) (m : Heap) (alloc : Bool) (cs : List Call) :
    (∀ (rs : List Bool) (st : State),
      run fuel { mem := m, q := q_new alloc } cs = .ok (rs, st) →
      rs.length = cs.length ∧
      q_size st.q = int32 ((inserted cs rs : Int) - (removed cs rs : Int)) ∧
      (-2 ^ 31 ≤ (inserted cs rs : Int) - (removed cs rs : Int) →
        (inserted cs rs : Int) - (removed cs rs : Int) < 2 ^ 31 →
        q_size st.q = (inserted cs rs : Int) - (removed cs rs : Int))) ∧
    (∀ e : Err, run fuel { mem := m, q := q_new alloc } cs = .error e →
      ((∀ c ∈ cs, c ≠ Call.reverse ∧ c ≠ Call.sort) → e ≠ .timeout) ∧
      ∃ (k : Nat) (rs : List Bool) (st : State) (c : Call), k < cs.length ∧
        run fuel { mem := m, q := q_new alloc } (cs.take k) = .ok (rs, st) ∧
        cs[k]? = some c ∧ call fuel st c = .error e ∧
        q_size st.q =
          int32 ((inserted (cs.take k) rs : Int) - (removed (cs.take k) rs : Int))) := by
  have h0 : q_size (q_new alloc) = int32 0 := by
    cases alloc <;> simp [q_new, q_size] <;> decide
  constructor
  · intro rs st h
    obtain ⟨hl, hsz⟩ := run_size fuel cs _ st rs 0 h h0
    rw [Int.zero_add] at hsz
    refine ⟨hl, hsz, ?_⟩
    intro h1 h2
    rw [hsz]
    exact int32_eq h1 h2
  · intro e h
    refine ⟨?_, ?_⟩
    · intro hcs he
      rw [he] at h
      exact run_no_timeout fuel cs _ hcs h
    · obtain ⟨k, rs, st, c, hk, hrun, hget, hcall⟩ := run_stops fuel cs _ e h
      refine ⟨k, rs, st, c, hk, hrun, hget, hcall, ?_⟩
      have := (run_size fuel (cs.take k) _ st rs 0 hrun h0).2
      rw [Int.zero_add] at this
      exact this

/-- C13, at three instances: two insertions that succeed, one that fails for
want of memory, two removals that succeed and one on the empty queue, after
which `q_size` is `2 - 2`; an insertion at the tail, a removal and an insertion
at the tail of an element at the address just released, three calls that return
`true`, after which `q_size` is `2 - 1`; and the same three calls with the last
element at another address, which stop at the third call, on the `tail` that
the removal left, `q_size` being `1 - 1` before this call. -/
theorem q_size_counts_witness :
    (∃ st, run 10 init [.insert_head (bytes "a") (some 1) true,
        .insert_tail (bytes "b") (some 2) true, .insert_head (bytes "c") none true,
        .remove_head none 0, .remove_head none 0, .remove_head none 0]
        = .ok ([true, true, false, true, true, false], st) ∧
      q_size st.q = ((2 : Nat) : Int) - ((2 : Nat) : Int)) ∧
    (∃ st, run 10 init [.insert_tail (bytes "a") (some 1) true, .remove_head none 0,
        .insert_tail (bytes "b") (some 1) true] = .ok ([true, true, true], st) ∧
      q_size st.q = ((2 : Nat) : Int) - ((1 : Nat) : Int)) ∧
    (run 10 init [.insert_tail (bytes "a") (some 1) true, .remove_head none 0,
        .insert_tail (bytes "b") (some 2) true] = .error .badptr ∧
      ∃ (k : Nat) (rs : List Bool) (st : State) (c : Call), k < 3 ∧
        run 10 init (List.take k [.insert_tail (bytes "a") (some 1) true, .remove_head none 0,
          .insert_tail (bytes "b") (some 2) true]) = .ok (rs, st) ∧
        [Call.insert_tail (bytes "a") (some 1) true, .remove_head none 0,
          .insert_tail (bytes "b") (some 2) true][k]? = some c ∧
        call 10 st c = .error .badptr ∧
        q_size st.q = int32 ((inserted (List.take k [.insert_tail (bytes "a") (some 1) true,
            .remove_head none 0, .insert_tail (bytes "b") (some 2) true]) rs : Int)
          - (removed (List.take k [.insert_tail (bytes "a") (some 1) true,
            .remove_head none 0, .insert_tail (bytes "b") (some 2) true]) rs : Int))) :=
  ⟨⟨_, rfl, ((q_size_counts 10 emptyHeap true [.insert_head (bytes "a") (some 1) true,
        .insert_tail (bytes "b") (some 2) true, .insert_head (bytes "c") none true,
        .remove_head none 0, .remove_head none 0, .remove_head none 0]).1
        [true, true, false, true, true, false] _ rfl).2.2 (by decide) (by decide)⟩,
    ⟨_, rfl, ((q_size_counts 10 emptyHeap true [.insert_tail (bytes "a") (some 1) true,
        .remove_head none 0, .insert_tail (bytes "b") (some 1) true]).1
        [true, true, true] _ rfl).2.2 (by decide) (by decide)⟩,
    rfl, ((q_size_counts 10 emptyHeap true [.insert_tail (bytes "a") (some 1) true,
        .remove_head none 0, .insert_tail (bytes "b") (some 2) true]).2 .badptr rfl).2⟩

end Lab0
